import Mathlib

/-! The transaction memory pool (txmempool.cpp)

A shallow embedding of `CTxMemPool` and `CTxMemPoolEntry`.

* `std::map<K, V>` is a list of pairs kept strictly sorted by key (`StdMap`).
* A `CInPoint` holds a pointer into a node of `mapTx`; the pointer is modelled
  by the key of that node, and dereferencing it reads the node (a pointer whose
  node is gone is a fault).
* The recursion of `remove` and of `writeEntry` is bounded by a fuel argument;
  running out of fuel is a fault of its own, so that "returns" is a statement.
* The lock `cs` and the flag `fSanityCheck` carry no data the operations read.
-/

/-! ## Part I: the embedding and the properties stated about it -/

/-- Modelled from the spec: a transaction identifier, the 256-bit content hash
of core.h, treated as an uninterpreted number. -/
abbrev uint256 := Nat

/-- Modelled from the spec: `COutPoint` of core.h, the pair (hash, n). -/
structure COutPoint where
  hash : uint256
  n : Nat
  deriving Repr

/-- Modelled from the spec: outpoints are ordered lexicographically by
(hash, n), as `operator<` of core.h does. -/
instance : LinearOrder COutPoint :=
  LinearOrder.lift' (fun p => toLex (p.hash, p.n))
    (by intro a b h; cases a; cases b; simpa using h)

/-- Modelled from the spec: `CTxIn` of core.h; only the spent outpoint is read
by the memory pool. -/
structure CTxIn where
  prevout : COutPoint
  deriving DecidableEq, Repr

/-- Modelled from the spec: `CTxOut` of core.h, a value and a script. -/
structure CTxOut where
  nValue : Int
  scriptPubKey : List Nat
  deriving DecidableEq, Repr

/-- Modelled from the spec: `CTransaction` of core.h, an immutable value with
its inputs and outputs, identified by its id (`GetHash()`); the id stands for
the whole content, scripts and version included. -/
structure CTransaction where
  hash : uint256
  vin : List CTxIn
  vout : List CTxOut
  deriving DecidableEq, Repr

/-- The id of a transaction, `tx.GetHash()`. -/
def CTransaction.GetHash (tx : CTransaction) : uint256 := tx.hash

/-- Modelled from the spec: `GetValueOut()` of core.cpp, the sum of the output
values. -/
def CTransaction.GetValueOut (tx : CTransaction) : Int :=
  (tx.vout.map (fun o => o.nValue)).sum

/-- A `CInPoint` of core.h: `ptx` points at the transaction held by the node
of `mapTx` with that key, `n` is an input index. -/
structure CInPoint where
  ptx : uint256
  n : Nat
  deriving DecidableEq, Repr

/-- The fields of `CTxMemPoolEntry`; `D` is the type of doubles. -/
structure CTxMemPoolEntry (D : Type) where
  tx : CTransaction
  nFee : Int
  nTime : Int
  dPriority : D
  nHeight : Nat
  nTxSize : Nat
  deriving DecidableEq, Repr

/-- The ways a run of the model can fail to return a value. -/
inductive Fault where
  | outOfFuel
  | danglingPointer
  | outOfRange
  deriving DecidableEq, Repr

/-! ### std::map -/

/-- A `std::map`: key-value pairs, strictly increasing in the key. -/
structure StdMap (K V : Type) [LinearOrder K] where
  entries : List (K × V)
  sorted : entries.Pairwise (fun a b => a.1 < b.1)

namespace StdMap

variable {K V : Type} [LinearOrder K]

/-- Ordered insertion that overwrites the value of an existing key. -/
def insertL (k : K) (v : V) : List (K × V) → List (K × V)
  | [] => [(k, v)]
  | (k', v') :: rest =>
    if k < k' then (k, v) :: (k', v') :: rest
    else if k' < k then (k', v') :: insertL k v rest
    else (k, v) :: rest

/-- The value of the first pair with key `k`. -/
def findL (k : K) : List (K × V) → Option V
  | [] => none
  | (k', v') :: rest => if k' = k then some v' else findL k rest

/-- All pairs but those with key `k`. -/
def eraseL (k : K) (l : List (K × V)) : List (K × V) :=
  l.filter (fun p => decide (p.1 ≠ k))

/-! The next two facts are proved among the definitions because `insert`
carries the proof that the keys stay strictly increasing. -/

theorem mem_insertL {k : K} {v : V} {l : List (K × V)} {x : K × V}
    (h : x ∈ insertL k v l) : x = (k, v) ∨ x ∈ l := by
  induction l with
  | nil => simpa [insertL] using h
  | cons p rest ih =>
    obtain ⟨a, b⟩ := p
    simp only [insertL] at h
    split_ifs at h with h1 h2
    · simpa using h
    · rcases List.mem_cons.mp h with h | h
      · exact Or.inr (by simp [h])
      · rcases ih h with h | h
        · exact Or.inl h
        · exact Or.inr (List.mem_cons_of_mem _ h)
    · rcases List.mem_cons.mp h with h | h
      · exact Or.inl h
      · exact Or.inr (List.mem_cons_of_mem _ h)

theorem sorted_insertL (k : K) (v : V) (l : List (K × V))
    (hl : l.Pairwise (fun a b => a.1 < b.1)) :
    (insertL k v l).Pairwise (fun a b => a.1 < b.1) := by
  induction l with
  | nil => simp [insertL]
  | cons p rest ih =>
    obtain ⟨a, b⟩ := p
    rw [List.pairwise_cons] at hl
    simp only [insertL]
    split_ifs with h1 h2
    · refine List.pairwise_cons.mpr ⟨?_, List.pairwise_cons.mpr hl⟩
      intro x hx
      rcases List.mem_cons.mp hx with hx | hx
      · subst hx; exact h1
      · exact lt_trans h1 (hl.1 x hx)
    · refine List.pairwise_cons.mpr ⟨?_, ih hl.2⟩
      intro x hx
      rcases mem_insertL hx with hx | hx
      · subst hx; exact h2
      · exact hl.1 x hx
    · have hak : k = a := le_antisymm (not_lt.mp h2) (not_lt.mp h1)
      subst hak
      exact List.pairwise_cons.mpr ⟨fun x hx => hl.1 x hx, hl.2⟩

/-- The empty map. -/
def empty : StdMap K V := ⟨[], List.Pairwise.nil⟩

/-- The value stored under `k`, if any: `find`. -/
def find (m : StdMap K V) (k : K) : Option V := findL k m.entries

/-- Whether the key is present: `count`. -/
def count (m : StdMap K V) (k : K) : Bool := (m.find k).isSome

/-- The assignment `m[k] = v`. -/
def insert (m : StdMap K V) (k : K) (v : V) : StdMap K V :=
  ⟨insertL k v m.entries, sorted_insertL k v m.entries m.sorted⟩

/-- The call `m.erase(k)`. -/
def erase (m : StdMap K V) (k : K) : StdMap K V :=
  ⟨eraseL k m.entries, List.Pairwise.filter _ m.sorted⟩

/-- The number of pairs: `size`. -/
def size (m : StdMap K V) : Nat := m.entries.length

/-- Two maps with the same pairs are equal; used to decide equality. -/
theorem ext_entries {m1 m2 : StdMap K V} (h : m1.entries = m2.entries) : m1 = m2 := by
  cases m1; cases m2; simp at h; subst h; rfl

instance [DecidableEq V] : DecidableEq (StdMap K V) := fun a b =>
  decidable_of_iff (a.entries = b.entries) ⟨ext_entries, fun h => by rw [h]⟩

end StdMap

/-! ### The memory pool and its entries -/

/-- The modulus of `unsigned int`, the type of `nTransactionsUpdated`. -/
def UINT_MOD : Nat := 4294967296

/-- The value an `int64_t` holds after an arithmetic operation whose exact
result is `z`: `z` itself when it lies between -2^63 and 2^63 - 1, and
otherwise the number of that range that differs from `z` by a multiple of
2^64 (two's complement wrap-around). -/
def wrapInt64 (z : Int) : Int :=
  (z + 9223372036854775808) % 18446744073709551616 - 9223372036854775808

/-- The arithmetic of `double` that `GetPriority` uses, left uninterpreted:
conversions from unsigned and from signed integers, product, quotient, sum. -/
structure DoubleOps (D : Type) where
  ofUInt : Nat → D
  ofInt64 : Int → D
  mul : D → D → D
  div : D → D → D
  add : D → D → D

namespace CTxMemPoolEntry

variable {D : Type}

/-- The five-argument constructor; `GetSerializeSize` (serialize.h) is the
size of the transaction at the network protocol version. -/
def create (GetSerializeSize : CTransaction → Nat) (tx : CTransaction) (nFee nTime : Int)
    (dPriority : D) (nHeight : Nat) : CTxMemPoolEntry D :=
  { tx := tx, nFee := nFee, nTime := nTime, dPriority := dPriority, nHeight := nHeight,
    nTxSize := GetSerializeSize tx }

/-- The priority at height `currentHeight`; `nValueIn` is the sum
`tx.GetValueOut()+nFee` of two `int64_t`, and the height difference is the
difference of two `unsigned int`. -/
def GetPriority (F : DoubleOps D) (e : CTxMemPoolEntry D) (currentHeight : Nat) : D :=
  let nValueIn : Int := wrapInt64 (e.tx.GetValueOut + e.nFee)
  let dHeight : Nat := (((currentHeight : Int) - (e.nHeight : Int)) % (UINT_MOD : Int)).toNat
  let deltaPriority : D := F.div (F.mul (F.ofUInt dHeight) (F.ofInt64 nValueIn)) (F.ofUInt e.nTxSize)
  F.add e.dPriority deltaPriority

end CTxMemPoolEntry

/-- The data of `CTxMemPool`: the transaction table, the spent-output table
and the update counter. -/
structure CTxMemPool (D : Type) where
  mapTx : StdMap uint256 (CTxMemPoolEntry D)
  mapNextTx : StdMap COutPoint CInPoint
  nTransactionsUpdated : Nat

namespace CTxMemPool

variable {D : Type}

/-- A pool with both tables empty and the counter at `n`. -/
def emptyPool (n : Nat) : CTxMemPool D :=
  { mapTx := StdMap.empty, mapNextTx := StdMap.empty, nTransactionsUpdated := n }

/-- The loop of `addUnchecked`: `mapNextTx[tx.vin[i].prevout] = CInPoint(&tx, i)`
for the inputs from index `i` on; `&tx` is the node of key `hash`. -/
def addInputs (hash : uint256) : List CTxIn → Nat → StdMap COutPoint CInPoint →
    StdMap COutPoint CInPoint
  | [], _, m => m
  | txin :: rest, i, m => addInputs hash rest (i + 1) (m.insert txin.prevout ⟨hash, i⟩)

/-- The function `addUnchecked`: the returned flag and the pool afterwards. -/
def addUnchecked (pool : CTxMemPool D) (hash : uint256) (entry : CTxMemPoolEntry D) :
    Bool × CTxMemPool D :=
  (true,
    { mapTx := pool.mapTx.insert hash entry
      mapNextTx := addInputs hash entry.tx.vin 0 pool.mapNextTx
      nTransactionsUpdated := (pool.nTransactionsUpdated + 1) % UINT_MOD })

/-- The loop `mapNextTx.erase(txin.prevout)` over the inputs of a transaction. -/
def eraseInputs (vin : List CTxIn) (m : StdMap COutPoint CInPoint) : StdMap COutPoint CInPoint :=
  vin.foldl (fun acc txin => acc.erase txin.prevout) m

/-- The loop of `remove` over the output indices `is` of the transaction with
id `hash`; `rec` is the recursive call `remove(*it->second.ptx, removed, true)`. -/
def removeLoopWith
    (rec : CTransaction → CTxMemPool D × List CTransaction →
      Except Fault (CTxMemPool D × List CTransaction))
    (hash : uint256) : List Nat → CTxMemPool D × List CTransaction →
    Except Fault (CTxMemPool D × List CTransaction)
  | [], st => .ok st
  | i :: is, st =>
    match st.1.mapNextTx.find ⟨hash, i⟩ with
    | none => removeLoopWith rec hash is st
    | some ip =>
      match st.1.mapTx.find ip.ptx with
      | none => .error .danglingPointer
      | some e =>
        match rec e.tx st with
        | .error f => .error f
        | .ok st1 => removeLoopWith rec hash is st1

/-- The last block of `remove`: when the id is in `mapTx`, the transaction goes
to the front of `removed`, its inputs leave `mapNextTx`, its node leaves
`mapTx` and the counter is incremented. -/
def removeEntry (tx : CTransaction) (st : CTxMemPool D × List CTransaction) :
    CTxMemPool D × List CTransaction :=
  if st.1.mapTx.count tx.GetHash then
    ({ mapTx := st.1.mapTx.erase tx.GetHash
       mapNextTx := eraseInputs tx.vin st.1.mapNextTx
       nTransactionsUpdated := (st.1.nTransactionsUpdated + 1) % UINT_MOD },
     tx :: st.2)
  else st

/-- The function `remove(tx, removed, fRecursive)` on the pair of the pool and
the list `removed`, with a bound `fuel` on the depth of the recursion. -/
def remove : Nat → CTransaction → Bool → CTxMemPool D × List CTransaction →
    Except Fault (CTxMemPool D × List CTransaction)
  | 0, _, _, _ => .error .outOfFuel
  | fuel + 1, tx, fRecursive, st =>
    match (if fRecursive then
        removeLoopWith (fun t s => remove fuel t true s) tx.GetHash (List.range tx.vout.length) st
      else .ok st) with
    | .error f => .error f
    | .ok st1 => .ok (removeEntry tx st1)

/-- The function `removeConflicts(tx, removed)`, as a loop over the inputs. -/
def removeConflictsLoop (fuel : Nat) (tx : CTransaction) :
    List CTxIn → CTxMemPool D × List CTransaction →
    Except Fault (CTxMemPool D × List CTransaction)
  | [], st => .ok st
  | txin :: rest, st =>
    match st.1.mapNextTx.find txin.prevout with
    | none => removeConflictsLoop fuel tx rest st
    | some ip =>
      match st.1.mapTx.find ip.ptx with
      | none => .error .danglingPointer
      | some e =>
        if e.tx ≠ tx then
          match remove fuel e.tx true st with
          | .error f => .error f
          | .ok st1 => removeConflictsLoop fuel tx rest st1
        else removeConflictsLoop fuel tx rest st

/-- The function `removeConflicts(tx, removed)`. -/
def removeConflicts (fuel : Nat) (tx : CTransaction) (st : CTxMemPool D × List CTransaction) :
    Except Fault (CTxMemPool D × List CTransaction) :=
  removeConflictsLoop fuel tx tx.vin st

/-- The function `clear`. -/
def clear (pool : CTxMemPool D) : CTxMemPool D :=
  { mapTx := StdMap.empty, mapNextTx := StdMap.empty,
    nTransactionsUpdated := (pool.nTransactionsUpdated + 1) % UINT_MOD }

/-- The function `lookup`: the stored transaction, when the id is present. -/
def lookup (pool : CTxMemPool D) (hash : uint256) : Option CTransaction :=
  match pool.mapTx.find hash with
  | none => none
  | some e => some e.tx

/-- Modelled from the spec: `exists` of txmempool.h, whether the id is a key of
the transaction table. -/
def exists_ (pool : CTxMemPool D) (hash : uint256) : Bool := pool.mapTx.count hash

/-- The assertions of the first loop of `check` that read `mapNextTx`: the
input `i` of the node `key` is marked, under that node and that index. -/
def checkMarked (pool : CTxMemPool D) (key : uint256) (i : Nat) (txin : CTxIn) : Bool :=
  match pool.mapNextTx.find txin.prevout with
  | none => false
  | some ip => decide (ip.ptx = key) && decide (ip.n = i)

/-- The assertion of the first loop of `check` on the coins: the spent output
exists and is not null in the pool, or is available in the coin view. -/
def checkCoins (IsNull : CTxOut → Bool) (pcoins : COutPoint → Bool) (pool : CTxMemPool D)
    (txin : CTxIn) : Bool :=
  match pool.mapTx.find txin.prevout.hash with
  | some e2 =>
    match e2.tx.vout[txin.prevout.n]? with
    | some o => !(IsNull o)
    | none => false
  | none => pcoins txin.prevout

/-- The assertions of the second loop of `check` on one record of
`mapNextTx`: the id of the transaction pointed at is a key of `mapTx`, the
node of that key is the node pointed at, its transaction has the input `n`,
and that input of the transaction pointed at spends the key of the record. -/
def checkNext (pool : CTxMemPool D) (op : COutPoint) (ip : CInPoint) : Bool :=
  match pool.mapTx.find ip.ptx with
  | none => false
  | some e0 =>
    match pool.mapTx.find e0.tx.GetHash with
    | none => false
    | some e2 =>
      decide (e0.tx.GetHash = ip.ptx) && decide (ip.n < e2.tx.vin.length) &&
      (match e0.tx.vin[ip.n]? with
       | some txin => decide (op = txin.prevout)
       | none => false)

/-- The inputs of one node, from index `i` on, pass the first loop of `check`. -/
def checkInputs (IsNull : CTxOut → Bool) (pcoins : COutPoint → Bool) (pool : CTxMemPool D)
    (key : uint256) : List CTxIn → Nat → Bool
  | [], _ => true
  | txin :: rest, i =>
    checkCoins IsNull pcoins pool txin && checkMarked pool key i txin &&
      checkInputs IsNull pcoins pool key rest (i + 1)

/-- The function `check` with sanity checks enabled: true when no assertion
fails. `IsNull` (core.h) and the coin view are parameters. -/
def check (IsNull : CTxOut → Bool) (pcoins : COutPoint → Bool) (pool : CTxMemPool D) : Bool :=
  pool.mapTx.entries.all (fun p => checkInputs IsNull pcoins pool p.1 p.2.tx.vin 0) &&
  pool.mapNextTx.entries.all (fun r => checkNext pool r.1 r.2)

/-! ### The snapshot file -/

/-- One serialized value of mempool.dat. The byte encoding (serialize.h) is not
embedded: the file is the sequence of the values written with `<<`. -/
inductive Item (D : Type) where
  | int32 (v : Int)
  | size (n : Nat)
  | tx (t : CTransaction)
  | int64 (v : Int)
  | double (d : D)
  | uint32 (n : Nat)
  deriving DecidableEq, Repr

/-- The values `writeEntry` writes for one entry:
`file << tx << fee << time << GetPriority(nHeight) << nHeight`. -/
def entryItems (F : DoubleOps D) (entry : CTxMemPoolEntry D) : List (Item D) :=
  [Item.tx entry.tx, Item.int64 entry.nFee, Item.int64 entry.nTime,
   Item.double (entry.GetPriority F entry.nHeight), Item.uint32 entry.nHeight]

/-- The loop of `writeEntry` over the inputs: `rec` is the recursive call
`writeEntry(file, prevout, alreadyWritten)`; the state is the file and the set
`alreadyWritten`. -/
def writeDepsWith
    (rec : uint256 → List (Item D) × List uint256 → Except Fault (List (Item D) × List uint256))
    (pool : CTxMemPool D) : List CTxIn → List (Item D) × List uint256 →
    Except Fault (List (Item D) × List uint256)
  | [], st => .ok st
  | txin :: rest, st =>
    if pool.mapTx.count txin.prevout.hash then
      match rec txin.prevout.hash st with
      | .error f => .error f
      | .ok st1 => writeDepsWith rec pool rest st1
    else writeDepsWith rec pool rest st

/-- The function `writeEntry(file, txid, alreadyWritten)`, with a bound `fuel`
on the depth of the recursion; `mapTx.at` on a missing key is the fault
`outOfRange`. -/
def writeEntry (F : DoubleOps D) (pool : CTxMemPool D) : Nat → uint256 →
    List (Item D) × List uint256 → Except Fault (List (Item D) × List uint256)
  | 0, _, _ => .error .outOfFuel
  | fuel + 1, txid, st =>
    if txid ∈ st.2 then .ok st
    else
      match pool.mapTx.find txid with
      | none => .error .outOfRange
      | some entry =>
        match writeDepsWith (fun p s => writeEntry F pool fuel p s) pool entry.tx.vin
            (st.1, txid :: st.2) with
        | .error f => .error f
        | .ok st1 => .ok (st1.1 ++ entryItems F entry, st1.2)

/-- The loop of `Write` over the keys of `mapTx`. -/
def writeAll (F : DoubleOps D) (pool : CTxMemPool D) (fuel : Nat) :
    List uint256 → List (Item D) × List uint256 → Except Fault (List (Item D) × List uint256)
  | [], st => .ok st
  | k :: ks, st =>
    match writeEntry F pool fuel k st with
    | .error f => .error f
    | .ok st1 => writeAll F pool fuel ks st1

/-- The function `Write` on a file that opened: the content written when it
returns true, a fault when an exception makes it return false.
`CLIENT_VERSION` is a parameter. -/
def Write (F : DoubleOps D) (CLIENT_VERSION : Int) (fuel : Nat) (pool : CTxMemPool D) :
    Except Fault (List (Item D)) :=
  match writeAll F pool fuel (pool.mapTx.entries.map (fun p => p.1))
      ([Item.int32 CLIENT_VERSION, Item.int32 CLIENT_VERSION, Item.size pool.mapTx.size], []) with
  | .error f => .error f
  | .ok st => .ok st.1

/-- The loop of `Read` over `nTx` records; a value that cannot be read is the
exception that makes `Read` return false, with the entries pushed so far. -/
def readEntries (GetSerializeSize : CTransaction → Nat) :
    Nat → List (Item D) → List (CTxMemPoolEntry D) → Bool × List (CTxMemPoolEntry D)
  | 0, _, vecEntries => (true, vecEntries)
  | nTx + 1, Item.tx t :: Item.int64 _ :: Item.int64 nTime :: Item.double dPriority ::
      Item.uint32 nHeight :: rest, vecEntries =>
    readEntries GetSerializeSize nTx rest
      (vecEntries ++ [CTxMemPoolEntry.create GetSerializeSize t 0 nTime dPriority nHeight])
  | _ + 1, _, vecEntries => (false, vecEntries)

/-- The function `Read`: the returned flag and the list `vecEntries`
afterwards; the file is absent (`none`) or holds a sequence of values. -/
def Read (GetSerializeSize : CTransaction → Nat) (CLIENT_VERSION : Int)
    (file : Option (List (Item D))) (vecEntries : List (CTxMemPoolEntry D)) :
    Bool × List (CTxMemPoolEntry D) :=
  match file with
  | none => (true, vecEntries)
  | some (Item.int32 nVersionRequired :: Item.int32 _ :: rest) =>
    if nVersionRequired > CLIENT_VERSION then (false, vecEntries)
    else
      match rest with
      | Item.size nTx :: rest1 => readEntries GetSerializeSize nTx rest1 vecEntries
      | _ => (false, vecEntries)
  | some _ => (false, vecEntries)

end CTxMemPool

/-! ### Sequences of calls -/

/-- A call of one of the mutating operations of the pool. -/
inductive PoolOp (D : Type) where
  | add (hash : uint256) (entry : CTxMemPoolEntry D)
  | remove (tx : CTransaction) (fRecursive : Bool)
  | removeConflicts (tx : CTransaction)
  | clear

namespace CTxMemPool

variable {D : Type}

/-- One call on the pair of the pool and the caller's list `removed`. -/
def applyOp (fuel : Nat) (op : PoolOp D) (st : CTxMemPool D × List CTransaction) :
    Except Fault (CTxMemPool D × List CTransaction) :=
  match op with
  | .add hash entry => .ok ((st.1.addUnchecked hash entry).2, st.2)
  | .remove tx fRecursive => remove fuel tx fRecursive st
  | .removeConflicts tx => removeConflicts fuel tx st
  | .clear => .ok (st.1.clear, st.2)

/-- A sequence of calls, each with recursion bound `fuel`. -/
def runOps (fuel : Nat) : List (PoolOp D) → CTxMemPool D × List CTransaction →
    Except Fault (CTxMemPool D × List CTransaction)
  | [], st => .ok st
  | op :: ops, st =>
    match applyOp fuel op st with
    | .error f => .error f
    | .ok st1 => runOps fuel ops st1

/-! ### The properties the statements are about -/

/-- Invariant 1: every input of every stored transaction is a key of
`mapNextTx`, recorded under the node of the transaction and the index of the
input. -/
def Inv1 (pool : CTxMemPool D) : Prop :=
  ∀ k e, pool.mapTx.find k = some e → ∀ i txin, e.tx.vin[i]? = some txin →
    pool.mapNextTx.find txin.prevout = some ⟨k, i⟩

/-- Invariant 2: every record of `mapNextTx` points at a node of `mapTx` that
is stored under the id of its transaction, and at an input of it that spends
the key of the record. -/
def Inv2 (pool : CTxMemPool D) : Prop :=
  ∀ op ip, pool.mapNextTx.find op = some ip →
    ∃ e txin, pool.mapTx.find ip.ptx = some e ∧ e.tx.GetHash = ip.ptx ∧
      e.tx.vin[ip.n]? = some txin ∧ txin.prevout = op

/-- The pool part of invariant 3: an input whose spent id is a key of `mapTx`
names an output that the stored transaction has. -/
def Inv3 (pool : CTxMemPool D) : Prop :=
  ∀ k e, pool.mapTx.find k = some e → ∀ txin ∈ e.tx.vin, ∀ e2,
    pool.mapTx.find txin.prevout.hash = some e2 → txin.prevout.n < e2.tx.vout.length

/-- The total number of inputs of the stored transactions. -/
def totalInputs (pool : CTxMemPool D) : Nat :=
  (pool.mapTx.entries.map (fun p => p.2.tx.vin.length)).sum

/-- Property P3: `mapNextTx` has as many records as the stored transactions
have inputs. -/
def InvCount (pool : CTxMemPool D) : Prop := pool.mapNextTx.size = pool.totalInputs

/-- The transaction `x` spends an output of `t`: one of its inputs names the
id of `t` and an output index that `t` has. -/
def SpendsFrom (x t : CTransaction) : Prop :=
  ∃ txin ∈ x.vin, txin.prevout.hash = t.GetHash ∧ txin.prevout.n < t.vout.length

/-- The transaction `x` reaches `root` through a chain of inputs: it spends an
output of `root`, or one of its inputs names the id of an entry of the
transaction table of `pool` whose transaction reaches `root`. -/
inductive Reaches (pool : CTxMemPool D) (root : CTransaction) : CTransaction → Prop where
  | direct (x : CTransaction) : SpendsFrom x root → Reaches pool root x
  | step (x : CTransaction) (txin : CTxIn) (e : CTxMemPoolEntry D) :
      txin ∈ x.vin → pool.mapTx.find txin.prevout.hash = some e →
      Reaches pool root e.tx → Reaches pool root x

/-- The spending relation recorded in `mapNextTx` has no cycle: `rank` is
strictly smaller on the spending node than on the spent id, for every record. -/
def RankDecreases (rank : uint256 → Nat) (pool : CTxMemPool D) : Prop :=
  ∀ r ∈ pool.mapNextTx.entries, rank r.2.ptx < rank r.1.hash

/-- Everything stored or recorded in the first pool is so in the second. -/
def Sub (p1 p : CTxMemPool D) : Prop :=
  (∀ k e, p1.mapTx.find k = some e → p.mapTx.find k = some e) ∧
  (∀ op ip, p1.mapNextTx.find op = some ip → p.mapNextTx.find op = some ip)

/-- The id of `tx` names `tx`: when the id is a key of `mapTx`, the stored
transaction is `tx`. -/
def NamesTx (pool : CTxMemPool D) (tx : CTransaction) : Prop :=
  ∀ e, pool.mapTx.find tx.GetHash = some e → e.tx = tx

/-! ### Contracts of the recursive functions, used in the proofs -/

/-- What a completed run of removals from `st` to `st1` that pushed the list
`new` did to the tables. -/
structure RemFacts (st st1 : CTxMemPool D × List CTransaction) (new : List CTransaction) :
    Prop where
  removed_eq : st1.2 = new ++ st.2
  sub : Sub st1.1 st.1
  stored : ∀ t ∈ new, ∃ e, st.1.mapTx.find t.GetHash = some e ∧ e.tx = t
  gone : ∀ t ∈ new, st1.1.mapTx.find t.GetHash = none
  dropped : ∀ k e, st.1.mapTx.find k = some e → st1.1.mapTx.find k = none →
    e.tx ∈ new ∧ e.tx.GetHash = k

/-- The removed transactions `new` are closed under spending and listed with
every transaction before those that spend its outputs. -/
structure RemClosed (st1 : CTxMemPool D × List CTransaction) (new : List CTransaction) :
    Prop where
  closed : ∀ t ∈ new, ∀ k e, st1.1.mapTx.find k = some e → ¬ SpendsFrom e.tx t
  order : new.Pairwise (fun a b => ¬ SpendsFrom a b)
  irrefl : ∀ t ∈ new, ¬ SpendsFrom t t

/-- The contract of a terminated call `f tx st` of `remove`. -/
def RemoveSpec
    (f : CTransaction → CTxMemPool D × List CTransaction →
      Except Fault (CTxMemPool D × List CTransaction)) (fRecursive : Bool) : Prop :=
  ∀ tx st st1, Inv2 st.1 → NamesTx st.1 tx → f tx st = .ok st1 →
    ∃ new, RemFacts st st1 new ∧ Inv2 st1.1 ∧ st1.1.mapTx.find tx.GetHash = none ∧
      (fRecursive = true → ∀ i, i < tx.vout.length →
        st1.1.mapNextTx.find ⟨tx.GetHash, i⟩ = none) ∧
      (Inv1 st.1 → Inv1 st1.1 ∧ (InvCount st.1 → InvCount st1.1) ∧
        (fRecursive = true → RemClosed st1 new))

/-- The form of `RankDecreases` on lookups. -/
def RankFind (rank : uint256 → Nat) (pool : CTxMemPool D) : Prop :=
  ∀ op ip, pool.mapNextTx.find op = some ip → rank ip.ptx < rank op.hash

end CTxMemPool

deriving instance DecidableEq for CTxMemPool

deriving instance DecidableEq for Except

instance {D : Type} (rank : uint256 → Nat) (pool : CTxMemPool D) :
    Decidable (CTxMemPool.RankDecreases rank pool) := by
  unfold CTxMemPool.RankDecreases; infer_instance

namespace CTxMemPool

variable {D : Type}

/-! ### Concrete pools and the conditions on sequences of calls -/

/-- An entry for a transaction, with no fee and priority, at height 0. -/
def plainEntry (tx : CTransaction) : CTxMemPoolEntry Nat :=
  CTxMemPoolEntry.create (fun t => 10 + t.vin.length + t.vout.length) tx 0 0 0 0

/-- Scenario 3: T1 spends an output outside the pool. -/
def chainTx1 : CTransaction := ⟨1, [⟨⟨100, 0⟩⟩], [⟨5, []⟩]⟩

/-- Scenario 3: T2 spends output 0 of T1. -/
def chainTx2 : CTransaction := ⟨2, [⟨⟨1, 0⟩⟩], [⟨5, []⟩]⟩

/-- Scenario 3: T3 spends output 0 of T2. -/
def chainTx3 : CTransaction := ⟨3, [⟨⟨2, 0⟩⟩], [⟨5, []⟩]⟩

/-- Scenario 3: the pool after adding T1, T2 and T3 to the empty pool. -/
def chainPool : CTxMemPool Nat :=
  (((((emptyPool 0).addUnchecked 1 (plainEntry chainTx1)).2.addUnchecked 2
    (plainEntry chainTx2)).2.addUnchecked 3 (plainEntry chainTx3)).2)

/-- The height of the chain of scenario 3 below each id. -/
def chainRank (h : uint256) : Nat := if h = 100 then 4 else 4 - h

/-- Scenario 2: T1 spends the outpoint (100, 0). -/
def conflictTx1 : CTransaction := ⟨1, [⟨⟨100, 0⟩⟩], [⟨5, []⟩]⟩

/-- Scenario 2: T2 is another transaction that spends the outpoint (100, 0). -/
def conflictTx2 : CTransaction := ⟨2, [⟨⟨100, 0⟩⟩], [⟨4, []⟩]⟩

/-- Scenario 2: the pool that holds T1 only. -/
def conflictPool : CTxMemPool Nat := ((emptyPool 0).addUnchecked 1 (plainEntry conflictTx1)).2

instance (x t : CTransaction) : Decidable (SpendsFrom x t) := by
  unfold SpendsFrom; infer_instance

/-- The id of `tx` names `tx` in the pool, as a test. -/
def namesTxB (pool : CTxMemPool D) (tx : CTransaction) : Bool :=
  match pool.mapTx.find tx.GetHash with
  | none => true
  | some e => decide (e.tx = tx)

/-- The condition of claim C6 on a call: `add` is called with the id of the
entry's own transaction; an id names one transaction (a transaction passed to
`add` or `remove` whose id is a key of `mapTx` is the one stored there). -/
def ownIdContract (pool : CTxMemPool D) : PoolOp D → Bool
  | .add hash entry => decide (hash = entry.tx.GetHash) && namesTxB pool entry.tx
  | .remove tx _ => namesTxB pool tx
  | .removeConflicts _ => true
  | .clear => true

/-- The caller's contract of `addUnchecked`: the id is the id of the entry's
transaction and is not yet in `mapTx`, the inputs name pairwise distinct
outpoints, and none of them is already a key of `mapNextTx`. -/
def addContract (pool : CTxMemPool D) (hash : uint256) (entry : CTxMemPoolEntry D) : Bool :=
  decide (hash = entry.tx.GetHash) && !(pool.exists_ hash) &&
  decide ((entry.tx.vin.map (fun t => t.prevout)).Nodup) &&
  entry.tx.vin.all (fun t => (pool.mapNextTx.find t.prevout).isNone)

/-- The caller's contract on a call: `addContract` for `add`; an id names one
transaction for `remove`. -/
def callerContract (pool : CTxMemPool D) : PoolOp D → Bool
  | .add hash entry => addContract pool hash entry
  | .remove tx _ => namesTxB pool tx
  | .removeConflicts _ => true
  | .clear => true

/-- Every call of the sequence meets the condition `C` in the pool it is
applied to. -/
def runContract (C : CTxMemPool D → PoolOp D → Bool) (fuel : Nat) :
    List (PoolOp D) → CTxMemPool D × List CTransaction → Bool
  | [], _ => true
  | op :: ops, st =>
    C st.1 op &&
      (match applyOp fuel op st with
       | .error _ => true
       | .ok st1 => runContract C fuel ops st1)

/-- Two transactions that spend the same outpoint (100, 0), added one after
the other under their own ids. -/
def doubleSpendOps : List (PoolOp Nat) :=
  [.add 1 (plainEntry conflictTx1), .add 2 (plainEntry conflictTx2)]

/-- The two double-spending calls, then the removal of the second transaction
and the search for its conflicts. -/
def ownIdOps : List (PoolOp Nat) :=
  doubleSpendOps ++ [.remove conflictTx2 true, .removeConflicts conflictTx2]

/-- A sequence of calls within the caller's contract: the chain of scenario 3
is added, T2 is removed with its descendants, the conflicts of a transaction
that spends (100, 0) are removed, and the pool is cleared and used again. -/
def contractOps : List (PoolOp Nat) :=
  [.add 1 (plainEntry chainTx1), .add 2 (plainEntry chainTx2), .add 3 (plainEntry chainTx3),
   .remove chainTx2 true, .add 2 (plainEntry chainTx2), .removeConflicts conflictTx2,
   .add 3 (plainEntry chainTx3), .remove chainTx3 false, .clear,
   .add 1 (plainEntry chainTx1)]

/-- A pool whose counter holds the largest `unsigned int`. -/
def fullCounterPool : CTxMemPool Nat := emptyPool 4294967295

/-- A run from `st` to `st1` erased `k` nodes of `mapTx`, pushed as many
transactions and incremented the counter as often. -/
def Counted (st st1 : CTxMemPool D × List CTransaction) (k : Nat) : Prop :=
  st1.1.mapTx.size + k = st.1.mapTx.size ∧ st1.2.length = st.2.length + k ∧
  (k = 0 → st1.1.nTransactionsUpdated = st.1.nTransactionsUpdated) ∧
  (0 < k → st1.1.nTransactionsUpdated = (st.1.nTransactionsUpdated + k) % UINT_MOD)

/-- The keys of `mapTx`, in the order of iteration. -/
def txids (pool : CTxMemPool D) : List uint256 := pool.mapTx.entries.map (fun p => p.1)

/-- The in-pool dependency relation has no cycle: `rank` is strictly smaller
on every spent id that is a key of `mapTx` than on the key of the spender. -/
def DepRankDecreases (rank : uint256 → Nat) (pool : CTxMemPool D) : Prop :=
  ∀ p ∈ pool.mapTx.entries, ∀ txin ∈ p.2.tx.vin,
    pool.mapTx.count txin.prevout.hash = true → rank txin.prevout.hash < rank p.1

instance (rank : uint256 → Nat) (pool : CTxMemPool D) :
    Decidable (DepRankDecreases rank pool) := by
  unfold DepRankDecreases; infer_instance

/-- The number of keys of `mapTx` that are not in `alreadyWritten`. -/
def unwritten (pool : CTxMemPool D) (aw : List uint256) : Nat :=
  pool.txids.countP (fun k => decide (k ∉ aw))

/-- The list of keys `E` is in topological order: every in-pool dependency of
an element stands before it. -/
def Topo (pool : CTxMemPool D) (E : List uint256) : Prop :=
  ∀ (i : Nat) k, E[i]? = some k → ∀ e, pool.mapTx.find k = some e → ∀ txin ∈ e.tx.vin,
    pool.mapTx.count txin.prevout.hash = true →
    ∃ j : Nat, j < i ∧ E[j]? = some txin.prevout.hash

/-- What a run of `writeEntry` calls from `st` to `st1` did: it appended the
records of the entries `es` and marked their keys. -/
structure WriteFacts (F : DoubleOps D) (pool : CTxMemPool D)
    (st st1 : List (Item D) × List uint256) (es : List (uint256 × CTxMemPoolEntry D)) :
    Prop where
  file_eq : st1.1 = st.1 ++ es.flatMap (fun p => entryItems F p.2)
  marked : ∀ x, x ∈ st1.2 ↔ x ∈ st.2 ∨ x ∈ es.map (fun p => p.1)
  nodup : (es.map (fun p => p.1)).Nodup
  fresh : ∀ x ∈ es.map (fun p => p.1), x ∉ st.2
  stored : ∀ p ∈ es, pool.mapTx.find p.1 = some p.2

/-- The contract of a call `f txid st` of `writeEntry` with enough fuel. -/
def WriteSpec (F : DoubleOps D) (pool : CTxMemPool D) (rank : uint256 → Nat) (bound : Nat)
    (f : uint256 → List (Item D) × List uint256 → Except Fault (List (Item D) × List uint256)) :
    Prop :=
  ∀ txid st, (∃ e, pool.mapTx.find txid = some e) → unwritten pool st.2 < bound →
    ∃ st1 es, f txid st = .ok st1 ∧ WriteFacts F pool st st1 es ∧ txid ∈ st1.2 ∧
      (DepRankDecreases rank pool → ∀ E, (∀ x ∈ st.2, x ∈ E ∨ rank txid < rank x) →
        Topo pool E →
        Topo pool (E ++ es.map (fun p => p.1)) ∧ txid ∈ E ++ es.map (fun p => p.1))

/-- The header `Write` puts in front of the records: the two versions and the
number of entries. -/
def snapshotHeader (CLIENT_VERSION : Int) (pool : CTxMemPool D) : List (Item D) :=
  [Item.int32 CLIENT_VERSION, Item.int32 CLIENT_VERSION, Item.size pool.mapTx.size]

/-- The pool rebuilt by adding the entries of a list, one after the other,
to an empty pool, each under its key. -/
def replay (es : List (uint256 × CTxMemPoolEntry D)) : CTxMemPool D :=
  es.foldl (fun acc p => (acc.addUnchecked p.1 p.2).2) (emptyPool 0)

/-- The entry `Read` builds from the record of `e`: no fee, the priority at
the entry's own height, the size computed by the constructor. -/
def restored (F : DoubleOps D) (GetSerializeSize : CTransaction → Nat)
    (e : CTxMemPoolEntry D) : CTxMemPoolEntry D :=
  CTxMemPoolEntry.create GetSerializeSize e.tx 0 e.nTime (e.GetPriority F e.nHeight) e.nHeight

/-- A pool whose iteration order is not a topological order: the
transaction with id 1 spends output 0 of the transaction with id 2. -/
def reversePool : CTxMemPool Nat :=
  (((emptyPool 0).addUnchecked 2 (plainEntry ⟨2, [⟨⟨100, 0⟩⟩], [⟨5, []⟩]⟩)).2.addUnchecked 1
    (plainEntry ⟨1, [⟨⟨2, 0⟩⟩], [⟨4, []⟩]⟩)).2

/-- An arithmetic on natural numbers that stands for the doubles in runs of
the model. -/
def natOps : DoubleOps Nat :=
  { ofUInt := fun n => n, ofInt64 := fun z => z.toNat, mul := fun a b => a * b,
    div := fun a b => a / b, add := fun a b => a + b }

end CTxMemPool

/-! ### The consensus rules (consensus/consensus.h) -/

/-- The time of the fork, 1 March 2016 00:00:00 UTC. -/
def TWENTY_MEG_FORK_TIME : Nat := 1456790400

/-- The function `MaxBlockSize`: the greatest serialized size of a block with
the given timestamp (a `uint64_t`); the result is an `unsigned int`. -/
def MaxBlockSize (nBlockTimestamp : Nat) : Nat :=
  if nBlockTimestamp < TWENTY_MEG_FORK_TIME then 1000 * 1000 else 20 * 1000 * 1000

/-- The function `MaxBlockSigops`: the quotient of two `unsigned int`. -/
def MaxBlockSigops (nBlockTimestamp : Nat) : Nat :=
  MaxBlockSize nBlockTimestamp / 50

/-! ### Coins and the coin view over the pool -/

/-- Modelled from the spec: `CCoins` of coins.h, the outputs of one
transaction with their availability (a spent output is `none`) and the height
of the transaction. -/
structure CCoins where
  vout : List (Option CTxOut)
  nHeight : Nat
  deriving DecidableEq, Repr

namespace CCoins

/-- Modelled from the spec: the constructor `CCoins(tx, nHeight)` of coins.h,
the coins whose outputs are those of the transaction. -/
def fromTx (tx : CTransaction) (nHeightIn : Nat) : CCoins :=
  { vout := tx.vout.map some, nHeight := nHeightIn }

/-- Modelled from the spec: `IsAvailable` of coins.h, whether output `n`
exists and is not spent. -/
def IsAvailable (coins : CCoins) (n : Nat) : Bool :=
  match coins.vout[n]? with
  | some (some _) => true
  | _ => false

/-- Modelled from the spec: `Spend` of coins.h, which marks output `n` as
spent and changes nothing when there is no such output. -/
def Spend (coins : CCoins) (n : Nat) : CCoins :=
  { coins with vout := coins.vout.set n none }

end CCoins

/-- Modelled from the spec: the base coin view of coins.h, a collaborator
that answers `GetCoins` (the coins of an id, if it has them) and `HaveCoins`. -/
structure CCoinsView where
  GetCoins : uint256 → Option CCoins
  HaveCoins : uint256 → Bool

namespace CTxMemPool

variable {D : Type}

/-- The loop of `pruneSpent` from the iterator `it` on: while the key has the
hash `hashTx`, its output is spent in `coins`. -/
def pruneLoop (hashTx : uint256) : List (COutPoint × CInPoint) → CCoins → CCoins
  | [], coins => coins
  | p :: rest, coins =>
    if p.1.hash = hashTx then pruneLoop hashTx rest (coins.Spend p.1.n) else coins

/-- The function `pruneSpent`: `lower_bound(COutPoint(hashTx, 0))` skips the
records whose key is smaller, then the loop runs. -/
def pruneSpent (pool : CTxMemPool D) (hashTx : uint256) (coins : CCoins) : CCoins :=
  pruneLoop hashTx
    (pool.mapNextTx.entries.dropWhile (fun p => decide (p.1 < (⟨hashTx, 0⟩ : COutPoint)))) coins

end CTxMemPool

namespace CCoinsViewMemPool

variable {D : Type}

/-- The function `CCoinsViewMemPool::GetCoins`: the coins returned, if any.
`MEMPOOL_HEIGHT` (txmempool.h) is a parameter. -/
def GetCoins (MEMPOOL_HEIGHT : Nat) (base : CCoinsView) (mempool : CTxMemPool D)
    (txid : uint256) : Option CCoins :=
  match base.GetCoins txid with
  | some coins => some coins
  | none =>
    match mempool.lookup txid with
    | some tx => some (CCoins.fromTx tx MEMPOOL_HEIGHT)
    | none => none

/-- The function `CCoinsViewMemPool::HaveCoins`. -/
def HaveCoins (base : CCoinsView) (mempool : CTxMemPool D) (txid : uint256) : Bool :=
  mempool.exists_ txid || base.HaveCoins txid

end CCoinsViewMemPool

/-! ### Snapshots read by `Read` -/

/-- The values of one record of mempool.dat as `Read` takes them. -/
structure SnapshotRecord (D : Type) where
  tx : CTransaction
  nFee : Int
  nTime : Int
  dPriority : D
  nHeight : Nat

namespace CTxMemPool

variable {D : Type}

/-- The serialized values of a record, in the order of the file format. -/
def recordItems (r : SnapshotRecord D) : List (Item D) :=
  [Item.tx r.tx, Item.int64 r.nFee, Item.int64 r.nTime, Item.double r.dPriority,
   Item.uint32 r.nHeight]

/-- The entry `Read` pushes for a record: the fee is 0. -/
def recordEntry (GetSerializeSize : CTransaction → Nat) (r : SnapshotRecord D) :
    CTxMemPoolEntry D :=
  CTxMemPoolEntry.create GetSerializeSize r.tx 0 r.nTime r.dPriority r.nHeight

/-- A well-formed snapshot: the two versions, the count and as many records. -/
def snapshotOf (nVersionRequired nVersionThatWrote : Int) (records : List (SnapshotRecord D)) :
    List (Item D) :=
  Item.int32 nVersionRequired :: Item.int32 nVersionThatWrote :: Item.size records.length ::
    records.flatMap recordItems

/-- Whether the values begin with a complete record, so that
`filein >> tx >> nFee >> nTime >> dPriority >> nHeight` does not throw. -/
def startsRecord : List (Item D) → Bool
  | Item.tx _ :: Item.int64 _ :: Item.int64 _ :: Item.double _ :: Item.uint32 _ :: _ => true
  | _ => false

/-- The priority formula of the specification, with the difference of the two
heights taken as an integer: `entry_priority + ((h - entry_height) *
(sum_of_outputs + fee)) / tx_size`. -/
def specPriority (F : DoubleOps D) (e : CTxMemPoolEntry D) (h : Nat) : D :=
  F.add e.dPriority
    (F.div (F.mul (F.ofInt64 ((h : Int) - (e.nHeight : Int))) (F.ofInt64 (e.tx.GetValueOut + e.nFee)))
      (F.ofUInt e.nTxSize))

/-- Exact integer arithmetic in the place of the doubles; every quotient
taken in the runs it is used in is exact, and on their small integers it
agrees with the doubles. -/
def intOps : DoubleOps Int :=
  { ofUInt := fun n => (n : Int), ofInt64 := fun z => z, mul := fun a b => a * b,
    div := fun a b => a / b, add := fun a b => a + b }

/-- An entry that entered the pool at height 1: outputs worth 10, no fee,
size 10, priority 0. -/
def heightOneEntry : CTxMemPoolEntry Int :=
  { tx := ⟨7, [⟨⟨100, 0⟩⟩], [⟨10, []⟩]⟩, nFee := 0, nTime := 0, dPriority := 0, nHeight := 1,
    nTxSize := 10 }

/-- An entry that entered the pool at height 1 with one output of value 5
and the largest fee an `int64_t` holds, 2^63 - 1; its size is 4. -/
def maxFeeEntry : CTxMemPoolEntry Int :=
  { tx := ⟨8, [⟨⟨100, 1⟩⟩], [⟨5, []⟩]⟩, nFee := 9223372036854775807, nTime := 0,
    dPriority := 0, nHeight := 1, nTxSize := 4 }

/-- A record of a snapshot for each transaction of scenario 3. -/
def chainRecords : List (SnapshotRecord Nat) :=
  [⟨chainTx1, 5, 11, 0, 1⟩, ⟨chainTx2, 6, 12, 0, 1⟩, ⟨chainTx3, 7, 13, 0, 2⟩]

/-- A snapshot that announces two records and is cut after the transaction of
the second one. -/
def truncatedSnapshot : List (Item Nat) :=
  [Item.int32 90000, Item.int32 90000, Item.size 2] ++
    recordItems ⟨chainTx1, 5, 11, 0, 1⟩ ++ [Item.tx chainTx2]

/-- A base coin view that has coins for the id 1 only. -/
def baseViewOne : CCoinsView :=
  { GetCoins := fun h => if h = 1 then some ⟨[some ⟨9, []⟩], 3⟩ else none,
    HaveCoins := fun h => decide (h = 1) }

end CTxMemPool

/-! ### Cycles, foreign keys and the recorded spending relation -/

namespace CTxMemPool

variable {D : Type}

/-- The table `mapNextTx` records that the node `d` spends an output of the
id `t`: some record has a key with hash `t` and points at `d`. -/
def RecordedSpend (pool : CTxMemPool D) (d t : uint256) : Prop :=
  ∃ r ∈ pool.mapNextTx.entries, r.1.hash = t ∧ r.2.ptx = d

/-- The recorded spending relation is acyclic: no id is its own descendant. -/
def Acyclic (pool : CTxMemPool D) : Prop :=
  ∀ t, ¬ Relation.TransGen (RecordedSpend pool) t t

/-- Every id of the set `S` is stored under its own id and has an output that
a node of `S` is recorded as spending. -/
def Trapped (S : uint256 → Prop) (pool : CTxMemPool D) : Prop :=
  ∀ a, S a → ∃ e i ip, pool.mapTx.find a = some e ∧ e.tx.GetHash = a ∧
    i < e.tx.vout.length ∧ pool.mapNextTx.find ⟨a, i⟩ = some ip ∧ S ip.ptx

/-- A pool whose transactions spend from each other in a cycle, with a
transaction that spends its own output: the transaction 1 spends an output of
2, 2 spends an output of 1, and 3 spends its own output 0. -/
def cyclicPool : CTxMemPool Nat :=
  ((((emptyPool 0).addUnchecked 1 (plainEntry ⟨1, [⟨⟨2, 0⟩⟩], [⟨5, []⟩]⟩)).2.addUnchecked 2
    (plainEntry ⟨2, [⟨⟨1, 0⟩⟩], [⟨5, []⟩]⟩)).2.addUnchecked 3
    (plainEntry ⟨3, [⟨⟨3, 0⟩⟩], [⟨5, []⟩]⟩)).2

/-- A pool that satisfies P1, P2 and P3 and holds, under the key 5, a
transaction without inputs whose id is 7; the transaction with id 2 spends
the outpoint (100, 0). -/
def foreignKeyPool : CTxMemPool Nat :=
  (((emptyPool 0).addUnchecked 5 (plainEntry ⟨7, [], [⟨5, []⟩]⟩)).2.addUnchecked 2
    (plainEntry ⟨2, [⟨⟨100, 0⟩⟩], [⟨5, []⟩]⟩)).2

/-- A transaction with id 5, stored nowhere, that spends the outpoint
(100, 0). -/
def foreignKeyTx : CTransaction := ⟨5, [⟨⟨100, 0⟩⟩], []⟩

/-- The transaction with id 1 that spends output 1 of the id 1, its own. -/
def selfSpendTx : CTransaction := ⟨1, [⟨⟨1, 1⟩⟩], [⟨5, []⟩, ⟨5, []⟩]⟩

/-- The transaction with id 2 that spends the outputs 0 and 1 of the id 1. -/
def bothOutputsTx : CTransaction := ⟨2, [⟨⟨1, 0⟩⟩, ⟨⟨1, 1⟩⟩], []⟩

/-- A pool built by two calls of `add` that spend the same outpoint:
`bothOutputsTx` is added first and `selfSpendTx` after it, so the record of
(1, 1) points at `selfSpendTx`, which is thereby recorded as spending its own
output. -/
def overwrittenPool : CTxMemPool Nat :=
  (((emptyPool 0).addUnchecked 2 (plainEntry bothOutputsTx)).2.addUnchecked 1
    (plainEntry selfSpendTx)).2

end CTxMemPool

/-! ## Part II: lemmas and theorems -/

namespace StdMap

variable {K V : Type} [LinearOrder K]

theorem findL_insertL (k k' : K) (v : V) (l : List (K × V)) :
    findL k' (insertL k v l) = if k = k' then some v else findL k' l := by
  induction l with
  | nil => simp [insertL, findL]
  | cons p rest ih =>
    obtain ⟨a, b⟩ := p
    by_cases hk : k = k'
    · subst hk
      simp only [insertL, if_true]
      by_cases h1 : k < a
      · simp [h1, findL]
      · by_cases h2 : a < k
        · have : a ≠ k := ne_of_lt h2
          simp [h1, h2, findL, this, ih]
        · simp [h1, h2, findL]
    · simp only [insertL, if_neg hk]
      simp only [if_neg hk] at ih
      by_cases h1 : k < a
      · simp [h1, findL, hk]
      · by_cases h2 : a < k
        · simp [h1, h2, findL, ih]
        · have hak : k = a := le_antisymm (not_lt.mp h2) (not_lt.mp h1)
          subst hak
          simp [h1, findL, hk]

theorem findL_eraseL (k k' : K) (l : List (K × V)) :
    findL k' (eraseL k l) = if k = k' then none else findL k' l := by
  induction l with
  | nil => simp [eraseL, findL]
  | cons p rest ih =>
    obtain ⟨a, b⟩ := p
    unfold eraseL at ih ⊢
    by_cases hak : a = k
    · subst hak
      simp only [List.filter_cons, ne_eq, not_true_eq_false, decide_False, Bool.false_eq_true,
        if_false, ih]
      split_ifs with h
      · rfl
      · simp [findL, h]
    · simp only [List.filter_cons, ne_eq, hak, not_false_eq_true, decide_True, if_true, findL, ih]
      split_ifs with h1 h2 h2
      · exact absurd (h1.trans h2.symm) hak
      · rfl
      · rfl
      · rfl

theorem findL_eq_none_iff (k : K) (l : List (K × V)) :
    findL k l = none ↔ ∀ p ∈ l, p.1 ≠ k := by
  induction l with
  | nil => simp [findL]
  | cons p rest ih =>
    obtain ⟨a, b⟩ := p
    by_cases h : a = k
    · simp [findL, h]
    · simp [findL, h, ih]

theorem findL_of_mem {k : K} {v : V} {l : List (K × V)}
    (hl : l.Pairwise (fun a b => a.1 < b.1)) (h : (k, v) ∈ l) : findL k l = some v := by
  induction l with
  | nil => simp at h
  | cons p rest ih =>
    obtain ⟨a, b⟩ := p
    rw [List.pairwise_cons] at hl
    rcases List.mem_cons.mp h with h | h
    · cases h; simp [findL]
    · have : a ≠ k := ne_of_lt (hl.1 _ h)
      simp [findL, this, ih hl.2 h]

theorem mem_of_findL {k : K} {v : V} {l : List (K × V)} (h : findL k l = some v) :
    (k, v) ∈ l := by
  induction l with
  | nil => simp [findL] at h
  | cons p rest ih =>
    obtain ⟨a, b⟩ := p
    simp only [findL] at h
    split_ifs at h with h1
    · cases h; subst h1; simp
    · exact List.mem_cons_of_mem _ (ih h)

theorem length_insertL_of_none (k : K) (v : V) (l : List (K × V)) (h : findL k l = none) :
    (insertL k v l).length = l.length + 1 := by
  induction l with
  | nil => simp [insertL]
  | cons p rest ih =>
    obtain ⟨a, b⟩ := p
    simp only [findL] at h
    split_ifs at h with h1
    simp only [insertL]
    split_ifs with h2 h3
    · simp
    · simp [ih h]
    · exact absurd (le_antisymm (not_lt.mp h2) (not_lt.mp h3)) h1

theorem length_eraseL_of_some {k : K} {v : V} {l : List (K × V)}
    (hl : l.Pairwise (fun a b => a.1 < b.1)) (h : findL k l = some v) :
    (eraseL k l).length + 1 = l.length := by
  induction l with
  | nil => simp [findL] at h
  | cons p rest ih =>
    obtain ⟨a, b⟩ := p
    rw [List.pairwise_cons] at hl
    by_cases hak : a = k
    · subst hak
      have hrest : eraseL a rest = rest := by
        unfold eraseL
        rw [List.filter_eq_self]
        intro x hx
        simpa using (ne_of_gt (hl.1 x hx))
      have hcons : eraseL a ((a, b) :: rest) = eraseL a rest := by
        simp [eraseL]
      rw [hcons, hrest, List.length_cons]
    · simp only [findL, if_neg hak] at h
      have hcons : eraseL k ((a, b) :: rest) = (a, b) :: eraseL k rest := by
        simp [eraseL, hak]
      rw [hcons, List.length_cons, ih hl.2 h, List.length_cons]

theorem length_eraseL_of_none {k : K} {l : List (K × V)} (h : findL k l = none) :
    eraseL k l = l := by
  unfold eraseL
  rw [List.filter_eq_self]
  intro x hx
  simpa using (findL_eq_none_iff k l).mp h x hx

theorem find_empty (k : K) : (empty : StdMap K V).find k = none := rfl

theorem find_insert (m : StdMap K V) (k k' : K) (v : V) :
    (m.insert k v).find k' = if k = k' then some v else m.find k' :=
  findL_insertL k k' v m.entries

theorem find_erase (m : StdMap K V) (k k' : K) :
    (m.erase k).find k' = if k = k' then none else m.find k' :=
  findL_eraseL k k' m.entries

theorem find_eq_some_iff (m : StdMap K V) (k : K) (v : V) :
    m.find k = some v ↔ (k, v) ∈ m.entries :=
  ⟨mem_of_findL, findL_of_mem m.sorted⟩

theorem size_insert_of_none (m : StdMap K V) (k : K) (v : V) (h : m.find k = none) :
    (m.insert k v).size = m.size + 1 :=
  length_insertL_of_none k v m.entries h

theorem size_erase_of_some (m : StdMap K V) (k : K) (v : V) (h : m.find k = some v) :
    (m.erase k).size + 1 = m.size :=
  length_eraseL_of_some m.sorted h

theorem erase_of_none (m : StdMap K V) (k : K) (h : m.find k = none) : m.erase k = m := by
  cases m with
  | mk entries sorted =>
    simp only [erase]
    congr 1
    exact length_eraseL_of_none h

end StdMap

namespace CTxMemPool

variable {D : Type}

theorem find_eraseInputs (vin : List CTxIn) (m : StdMap COutPoint CInPoint) (op : COutPoint) :
    (eraseInputs vin m).find op =
      if op ∈ vin.map (fun t => t.prevout) then none else m.find op := by
  unfold eraseInputs
  induction vin generalizing m with
  | nil => simp
  | cons t rest ih =>
    simp only [List.foldl_cons, List.map_cons, List.mem_cons]
    rw [ih, StdMap.find_erase]
    by_cases h1 : op ∈ rest.map (fun t => t.prevout)
    · simp [h1]
    · by_cases h2 : t.prevout = op
      · simp [h2]
      · have h3 : ¬ op = t.prevout := fun h => h2 h.symm
        simp [h1, h2, h3]

theorem find_addInputs_of_not_mem (hash : uint256) (vin : List CTxIn) (i : Nat)
    (m : StdMap COutPoint CInPoint) (op : COutPoint)
    (h : op ∉ vin.map (fun t => t.prevout)) :
    (addInputs hash vin i m).find op = m.find op := by
  induction vin generalizing i m with
  | nil => rfl
  | cons t rest ih =>
    simp only [List.map_cons, List.mem_cons, not_or] at h
    simp only [addInputs]
    rw [ih _ _ h.2, StdMap.find_insert]
    have : ¬ t.prevout = op := fun hh => h.1 hh.symm
    simp [this]

theorem find_addInputs_cases (hash : uint256) (vin : List CTxIn) (i : Nat)
    (m : StdMap COutPoint CInPoint) (op : COutPoint) (ip : CInPoint)
    (h : (addInputs hash vin i m).find op = some ip) :
    m.find op = some ip ∨
      (ip.ptx = hash ∧ ∃ j txin, ip.n = i + j ∧ vin[j]? = some txin ∧ txin.prevout = op) := by
  induction vin generalizing i m with
  | nil => exact Or.inl h
  | cons t rest ih =>
    simp only [addInputs] at h
    rcases ih _ _ h with h1 | ⟨h1, j, txin, h2, h3, h4⟩
    · rw [StdMap.find_insert] at h1
      by_cases hk : t.prevout = op
      · rw [if_pos hk] at h1
        cases h1
        exact Or.inr ⟨rfl, 0, t, rfl, by simp, hk⟩
      · rw [if_neg hk] at h1
        exact Or.inl h1
    · exact Or.inr ⟨h1, j + 1, txin, by omega, by simpa using h3, h4⟩

theorem find_addInputs_of_nodup (hash : uint256) (vin : List CTxIn) (i : Nat)
    (m : StdMap COutPoint CInPoint) (hnd : (vin.map (fun t => t.prevout)).Nodup)
    (j : Nat) (txin : CTxIn) (hj : vin[j]? = some txin) :
    (addInputs hash vin i m).find txin.prevout = some ⟨hash, i + j⟩ := by
  induction vin generalizing i m j with
  | nil => simp at hj
  | cons t rest ih =>
    simp only [List.map_cons, List.nodup_cons] at hnd
    simp only [addInputs]
    cases j with
    | zero =>
      simp only [List.getElem?_cons_zero, Option.some.injEq] at hj
      subst hj
      rw [find_addInputs_of_not_mem _ _ _ _ _ hnd.1, StdMap.find_insert]
      simp
    | succ j =>
      simp only [List.getElem?_cons_succ] at hj
      rw [ih _ _ hnd.2 j hj]
      congr 2
      omega

theorem size_addInputs (hash : uint256) (vin : List CTxIn) (i : Nat)
    (m : StdMap COutPoint CInPoint) (hnd : (vin.map (fun t => t.prevout)).Nodup)
    (hfresh : ∀ t ∈ vin, m.find t.prevout = none) :
    (addInputs hash vin i m).size = m.size + vin.length := by
  induction vin generalizing i m with
  | nil => rfl
  | cons t rest ih =>
    simp only [List.map_cons, List.nodup_cons] at hnd
    simp only [addInputs]
    rw [ih _ _ hnd.2, StdMap.size_insert_of_none _ _ _ (hfresh t (List.mem_cons_self _ _))]
    · simp only [List.length_cons]; omega
    · intro t2 ht2
      rw [StdMap.find_insert]
      have hne : ¬ t.prevout = t2.prevout := by
        intro hh
        exact hnd.1 (List.mem_map.mpr ⟨t2, ht2, hh.symm⟩)
      simp only [if_neg hne]
      exact hfresh t2 (List.mem_cons_of_mem _ ht2)

theorem size_eraseInputs (vin : List CTxIn) (m : StdMap COutPoint CInPoint)
    (hnd : (vin.map (fun t => t.prevout)).Nodup)
    (hpresent : ∀ t ∈ vin, ∃ ip, m.find t.prevout = some ip) :
    (eraseInputs vin m).size + vin.length = m.size := by
  induction vin generalizing m with
  | nil => rfl
  | cons t rest ih =>
    simp only [List.map_cons, List.nodup_cons] at hnd
    obtain ⟨ip, hip⟩ := hpresent t (List.mem_cons_self _ _)
    have h1 := StdMap.size_erase_of_some m t.prevout ip hip
    have h2 : (eraseInputs rest (m.erase t.prevout)).size + rest.length =
        (m.erase t.prevout).size := by
      apply ih _ hnd.2
      intro t2 ht2
      obtain ⟨ip2, hip2⟩ := hpresent t2 (List.mem_cons_of_mem _ ht2)
      refine ⟨ip2, ?_⟩
      rw [StdMap.find_erase]
      have hne : ¬ t.prevout = t2.prevout := by
        intro hh
        exact hnd.1 (List.mem_map.mpr ⟨t2, ht2, hh.symm⟩)
      simp only [if_neg hne]
      exact hip2
    have h3 : eraseInputs (t :: rest) m = eraseInputs rest (m.erase t.prevout) := rfl
    rw [h3]
    simp only [List.length_cons]
    omega

end CTxMemPool

namespace StdMap

variable {K V : Type} [LinearOrder K]

theorem sum_eraseL_of_some (f : K × V → Nat) {k : K} {v : V} {l : List (K × V)}
    (hl : l.Pairwise (fun a b => a.1 < b.1)) (h : findL k l = some v) :
    ((eraseL k l).map f).sum + f (k, v) = (l.map f).sum := by
  induction l with
  | nil => simp [findL] at h
  | cons p rest ih =>
    obtain ⟨a, b⟩ := p
    rw [List.pairwise_cons] at hl
    by_cases hak : a = k
    · subst hak
      have hrest : eraseL a rest = rest := by
        unfold eraseL
        rw [List.filter_eq_self]
        intro x hx
        simpa using (ne_of_gt (hl.1 x hx))
      have hcons : eraseL a ((a, b) :: rest) = eraseL a rest := by
        simp [eraseL]
      simp only [findL, if_true, Option.some.injEq] at h
      subst h
      rw [hcons, hrest, List.map_cons, List.sum_cons]
      omega
    · simp only [findL, if_neg hak] at h
      have hcons : eraseL k ((a, b) :: rest) = (a, b) :: eraseL k rest := by
        simp [eraseL, hak]
      have := ih hl.2 h
      rw [hcons, List.map_cons, List.sum_cons, List.map_cons, List.sum_cons]
      omega

theorem sum_insertL_of_none (f : K × V → Nat) (k : K) (v : V) (l : List (K × V))
    (h : findL k l = none) :
    ((insertL k v l).map f).sum = (l.map f).sum + f (k, v) := by
  induction l with
  | nil => simp [insertL]
  | cons p rest ih =>
    obtain ⟨a, b⟩ := p
    simp only [findL] at h
    split_ifs at h with h1
    simp only [insertL]
    split_ifs with h2 h3
    · simp only [List.map_cons, List.sum_cons]; omega
    · simp only [List.map_cons, List.sum_cons, ih h]; omega
    · exact absurd (le_antisymm (not_lt.mp h2) (not_lt.mp h3)) h1

end StdMap

namespace CTxMemPool

variable {D : Type}

theorem sub_refl (p : CTxMemPool D) : Sub p p := ⟨fun _ _ h => h, fun _ _ h => h⟩

theorem sub_trans {p2 p1 p : CTxMemPool D} (h2 : Sub p2 p1) (h1 : Sub p1 p) : Sub p2 p :=
  ⟨fun k e h => h1.1 k e (h2.1 k e h), fun op ip h => h1.2 op ip (h2.2 op ip h)⟩

theorem sub_tx_none {p1 p : CTxMemPool D} (h : Sub p1 p) {k : uint256}
    (hk : p.mapTx.find k = none) : p1.mapTx.find k = none := by
  cases hx : p1.mapTx.find k with
  | none => rfl
  | some e => rw [h.1 k e hx] at hk; cases hk

theorem sub_next_none {p1 p : CTxMemPool D} (h : Sub p1 p) {op : COutPoint}
    (hk : p.mapNextTx.find op = none) : p1.mapNextTx.find op = none := by
  cases hx : p1.mapNextTx.find op with
  | none => rfl
  | some e => rw [h.2 op e hx] at hk; cases hk

theorem namesTx_of_sub {p1 p : CTxMemPool D} (h : Sub p1 p) {tx : CTransaction}
    (hn : NamesTx p tx) : NamesTx p1 tx :=
  fun e he => hn e (h.1 _ e he)

theorem remFacts_refl (st : CTxMemPool D × List CTransaction) : RemFacts st st [] where
  removed_eq := rfl
  sub := sub_refl _
  stored := by intro t ht; cases ht
  gone := by intro t ht; cases ht
  dropped := by intro k e h1 h2; rw [h1] at h2; cases h2

theorem remFacts_trans {st st1 st2 : CTxMemPool D × List CTransaction}
    {new1 new2 : List CTransaction} (h1 : RemFacts st st1 new1) (h2 : RemFacts st1 st2 new2) :
    RemFacts st st2 (new2 ++ new1) where
  removed_eq := by rw [h2.removed_eq, h1.removed_eq, List.append_assoc]
  sub := sub_trans h2.sub h1.sub
  stored := by
    intro t ht
    rcases List.mem_append.mp ht with ht | ht
    · obtain ⟨e, he, het⟩ := h2.stored t ht
      exact ⟨e, h1.sub.1 _ _ he, het⟩
    · exact h1.stored t ht
  gone := by
    intro t ht
    rcases List.mem_append.mp ht with ht | ht
    · exact h2.gone t ht
    · exact sub_tx_none h2.sub (h1.gone t ht)
  dropped := by
    intro k e hk hk2
    cases hx : st1.1.mapTx.find k with
    | none =>
      obtain ⟨hm, hh⟩ := h1.dropped k e hk hx
      exact ⟨List.mem_append_right _ hm, hh⟩
    | some e1 =>
      have : e1 = e := by
        have := h1.sub.1 k e1 hx
        rw [hk] at this
        cases this
        rfl
      subst this
      obtain ⟨hm, hh⟩ := h2.dropped k e1 hx hk2
      exact ⟨List.mem_append_left _ hm, hh⟩

theorem remClosed_nil (st : CTxMemPool D × List CTransaction) : RemClosed st [] where
  closed := by intro t ht; cases ht
  order := List.Pairwise.nil
  irrefl := by intro t ht; cases ht

theorem remClosed_trans {st st1 st2 : CTxMemPool D × List CTransaction}
    {new1 new2 : List CTransaction} (_h1 : RemFacts st st1 new1) (h2 : RemFacts st1 st2 new2)
    (c1 : RemClosed st1 new1) (c2 : RemClosed st2 new2) : RemClosed st2 (new2 ++ new1) where
  closed := by
    intro t ht k e he
    rcases List.mem_append.mp ht with ht | ht
    · exact c2.closed t ht k e he
    · exact c1.closed t ht k e (h2.sub.1 k e he)
  order := by
    rw [List.pairwise_append]
    refine ⟨c2.order, c1.order, ?_⟩
    intro a ha b hb
    obtain ⟨e, he, het⟩ := h2.stored a ha
    have := c1.closed b hb _ e he
    rwa [het] at this
  irrefl := by
    intro t ht
    rcases List.mem_append.mp ht with ht | ht
    · exact c2.irrefl t ht
    · exact c1.irrefl t ht

theorem nodup_prevouts_of_inv1 {pool : CTxMemPool D} (h1 : Inv1 pool) {k : uint256}
    {e : CTxMemPoolEntry D} (he : pool.mapTx.find k = some e) :
    (e.tx.vin.map (fun t => t.prevout)).Nodup := by
  rw [List.nodup_iff_getElem?_ne_getElem?]
  intro i j hij hj hEq
  simp only [List.length_map] at hj
  have hi : i < e.tx.vin.length := by omega
  have hgi : e.tx.vin[i]? = some e.tx.vin[i] := List.getElem?_eq_getElem hi
  have hgj : e.tx.vin[j]? = some e.tx.vin[j] := List.getElem?_eq_getElem hj
  have r1 := h1 k e he i _ hgi
  have r2 := h1 k e he j _ hgj
  simp only [List.getElem?_map, hgi, hgj, Option.map_some', Option.some.injEq] at hEq
  rw [hEq, r2] at r1
  simp only [Option.some.injEq, CInPoint.mk.injEq, true_and] at r1
  omega

theorem no_spender {pool : CTxMemPool D} (h1 : Inv1 pool) {t : CTransaction}
    (hgone : ∀ i, i < t.vout.length → pool.mapNextTx.find ⟨t.GetHash, i⟩ = none)
    {k : uint256} {e : CTxMemPoolEntry D} (he : pool.mapTx.find k = some e) :
    ¬ SpendsFrom e.tx t := by
  rintro ⟨txin, hmem, hh, hn⟩
  obtain ⟨i, hi⟩ := List.mem_iff_getElem?.mp hmem
  have r := h1 k e he i txin hi
  have hp : txin.prevout = ⟨t.GetHash, txin.prevout.n⟩ := by
    rw [← hh]
  rw [hp, hgone _ hn] at r
  cases r

theorem removeEntry_spec (tx : CTransaction) (st : CTxMemPool D × List CTransaction)
    (h2 : Inv2 st.1) (hn : NamesTx st.1 tx) :
    ∃ new, RemFacts st (removeEntry tx st) new ∧ Inv2 (removeEntry tx st).1 ∧
      (removeEntry tx st).1.mapTx.find tx.GetHash = none ∧
      (Inv1 st.1 → Inv1 (removeEntry tx st).1 ∧
        (InvCount st.1 → InvCount (removeEntry tx st).1) ∧
        ((∀ i, i < tx.vout.length → st.1.mapNextTx.find ⟨tx.GetHash, i⟩ = none) →
          RemClosed (removeEntry tx st) new)) := by
  cases hf : st.1.mapTx.find tx.GetHash with
  | none =>
    have hre : removeEntry tx st = st := by
      simp [removeEntry, StdMap.count, hf]
    rw [hre]
    exact ⟨[], remFacts_refl st, h2, hf, fun h1 => ⟨h1, fun hc => hc, fun _ => remClosed_nil st⟩⟩
  | some e =>
    have het : e.tx = tx := hn e hf
    have hre : removeEntry tx st =
        ({ mapTx := st.1.mapTx.erase tx.GetHash
           mapNextTx := eraseInputs tx.vin st.1.mapNextTx
           nTransactionsUpdated := (st.1.nTransactionsUpdated + 1) % UINT_MOD },
         tx :: st.2) := by
      simp [removeEntry, StdMap.count, hf]
    rw [hre]
    have hsub : Sub
        ({ mapTx := st.1.mapTx.erase tx.GetHash
           mapNextTx := eraseInputs tx.vin st.1.mapNextTx
           nTransactionsUpdated := (st.1.nTransactionsUpdated + 1) % UINT_MOD } : CTxMemPool D)
        st.1 := by
      constructor
      · intro k e1 hk
        simp only [StdMap.find_erase] at hk
        split_ifs at hk
        exact hk
      · intro op ip hk
        simp only [find_eraseInputs] at hk
        split_ifs at hk
        exact hk
    have hfacts : RemFacts st
        (({ mapTx := st.1.mapTx.erase tx.GetHash
            mapNextTx := eraseInputs tx.vin st.1.mapNextTx
            nTransactionsUpdated := (st.1.nTransactionsUpdated + 1) % UINT_MOD } : CTxMemPool D),
         tx :: st.2) [tx] := by
      refine ⟨rfl, hsub, ?_, ?_, ?_⟩
      · intro t ht
        simp only [List.mem_singleton] at ht
        subst ht
        exact ⟨e, hf, het⟩
      · intro t ht
        simp only [List.mem_singleton] at ht
        subst ht
        simp [StdMap.find_erase]
      · intro k e1 hk hk1
        simp only [StdMap.find_erase] at hk1
        split_ifs at hk1 with hkk
        · subst hkk
          rw [hf] at hk
          cases hk
          exact ⟨by simp [het], by rw [het]⟩
        · rw [hk] at hk1; cases hk1
    refine ⟨[tx], hfacts, ?_, by simp [StdMap.find_erase], ?_⟩
    · intro op ip hk
      simp only [find_eraseInputs] at hk
      split_ifs at hk with hmem
      obtain ⟨e1, txin, hf1, hh1, hv1, hp1⟩ := h2 op ip hk
      refine ⟨e1, txin, ?_, hh1, hv1, hp1⟩
      simp only [StdMap.find_erase]
      split_ifs with hkk
      · exfalso
        rw [← hkk, hf] at hf1
        cases hf1
        apply hmem
        rw [het] at hv1
        exact List.mem_map.mpr ⟨txin, List.mem_iff_getElem?.mpr ⟨_, hv1⟩, hp1⟩
      · exact hf1
    · intro h1
      refine ⟨?_, ?_, ?_⟩
      · intro k e1 hk i txin hi
        simp only [StdMap.find_erase] at hk
        split_ifs at hk with hkk
        have r := h1 k e1 hk i txin hi
        simp only [find_eraseInputs]
        split_ifs with hmem
        · exfalso
          obtain ⟨t, ht, htp⟩ := List.mem_map.mp hmem
          obtain ⟨j, hj⟩ := List.mem_iff_getElem?.mp ht
          rw [← het] at hj
          have r2 := h1 _ e hf j t hj
          rw [htp, r] at r2
          simp only [Option.some.injEq, CInPoint.mk.injEq] at r2
          exact hkk r2.1.symm
        · exact r
      · intro hc
        unfold InvCount at hc ⊢
        have hnd := nodup_prevouts_of_inv1 h1 hf
        rw [het] at hnd
        have hsz := size_eraseInputs tx.vin st.1.mapNextTx hnd (by
          intro t ht
          obtain ⟨j, hj⟩ := List.mem_iff_getElem?.mp ht
          rw [← het] at hj
          exact ⟨_, h1 _ e hf j t hj⟩)
        have hsum := StdMap.sum_eraseL_of_some (fun p => p.2.tx.vin.length) st.1.mapTx.sorted hf
        simp only [het] at hsum
        simp only [totalInputs, StdMap.erase] at hc ⊢
        omega
      · intro hgone
        refine ⟨?_, List.pairwise_singleton _ _, ?_⟩
        · intro t ht k e1 hk
          simp only [List.mem_singleton] at ht
          subst ht
          exact no_spender h1 hgone (hsub.1 k e1 hk)
        · intro t ht
          simp only [List.mem_singleton] at ht
          subst ht
          have := no_spender h1 hgone hf
          rwa [het] at this

theorem removeLoopWith_spec
    (rec : CTransaction → CTxMemPool D × List CTransaction →
      Except Fault (CTxMemPool D × List CTransaction))
    (hrec : RemoveSpec rec true) (hash : uint256) :
    ∀ (is : List Nat) (st st1 : CTxMemPool D × List CTransaction), Inv2 st.1 →
      removeLoopWith rec hash is st = .ok st1 →
      ∃ new, RemFacts st st1 new ∧ Inv2 st1.1 ∧
        (∀ i ∈ is, st1.1.mapNextTx.find ⟨hash, i⟩ = none) ∧
        (Inv1 st.1 → Inv1 st1.1 ∧ (InvCount st.1 → InvCount st1.1) ∧ RemClosed st1 new) := by
  intro is
  induction is with
  | nil =>
    intro st st1 h2 hrun
    simp only [removeLoopWith, Except.ok.injEq] at hrun
    subst hrun
    exact ⟨[], remFacts_refl st, h2, by simp, fun h1 => ⟨h1, fun hc => hc, remClosed_nil st⟩⟩
  | cons i is ih =>
    intro st st1 h2 hrun
    simp only [removeLoopWith] at hrun
    cases hf : st.1.mapNextTx.find ⟨hash, i⟩ with
    | none =>
      simp only [hf] at hrun
      obtain ⟨new, hfacts, h2', hgone, hrest⟩ := ih st st1 h2 hrun
      refine ⟨new, hfacts, h2', ?_, hrest⟩
      intro j hj
      rcases List.mem_cons.mp hj with hj | hj
      · subst hj; exact sub_next_none hfacts.sub hf
      · exact hgone j hj
    | some ip =>
      simp only [hf] at hrun
      obtain ⟨e, txin, hfe, hhe, _, _⟩ := h2 _ ip hf
      simp only [hfe] at hrun
      cases hr : rec e.tx st with
      | error f => simp only [hr] at hrun; cases hrun
      | ok st0 =>
        simp only [hr] at hrun
        have hn : NamesTx st.1 e.tx := by
          intro e1 he1
          rw [hhe, hfe] at he1
          cases he1
          rfl
        obtain ⟨new0, hfacts0, h20, hgone0, _, hrest0⟩ := hrec e.tx st st0 h2 hn hr
        obtain ⟨new1, hfacts1, h21, hgone1, hrest1⟩ := ih st0 st1 h20 hrun
        refine ⟨new1 ++ new0, remFacts_trans hfacts0 hfacts1, h21, ?_, ?_⟩
        · intro j hj
          rcases List.mem_cons.mp hj with hj | hj
          · subst hj
            apply sub_next_none hfacts1.sub
            cases hx : st0.1.mapNextTx.find ⟨hash, j⟩ with
            | none => rfl
            | some ip0 =>
              exfalso
              have := hfacts0.sub.2 _ _ hx
              rw [hf] at this
              cases this
              obtain ⟨e1, _, hfe1, _, _, _⟩ := h20 _ ip hx
              rw [← hhe, hgone0] at hfe1
              cases hfe1
          · exact hgone1 j hj
        · intro h1
          obtain ⟨h10, hc0, hcl0⟩ := hrest0 h1
          obtain ⟨h11, hc1, hcl1⟩ := hrest1 h10
          exact ⟨h11, fun hc => hc1 (hc0 hc), remClosed_trans hfacts0 hfacts1 (hcl0 rfl) hcl1⟩

theorem remove_spec (fuel : Nat) (fRecursive : Bool) :
    RemoveSpec (fun t (s : CTxMemPool D × List CTransaction) => remove fuel t fRecursive s)
      fRecursive := by
  induction fuel generalizing fRecursive with
  | zero =>
    intro tx st st1 _ _ hrun
    simp [remove] at hrun
  | succ fuel ih =>
    intro tx st st1 h2 hn hrun
    simp only [remove] at hrun
    cases fRecursive with
    | false =>
      simp only [Bool.false_eq_true, if_false, Except.ok.injEq] at hrun
      subst hrun
      obtain ⟨new, hfacts, h2', hnone, hrest⟩ := removeEntry_spec tx st h2 hn
      refine ⟨new, hfacts, h2', hnone, by simp, ?_⟩
      intro h1
      obtain ⟨h1', hc, _⟩ := hrest h1
      exact ⟨h1', hc, by simp⟩
    | true =>
      simp only [if_true] at hrun
      cases hl : removeLoopWith (fun t s => remove fuel t true s) tx.GetHash
          (List.range tx.vout.length) st with
      | error f => simp only [hl] at hrun; cases hrun
      | ok st0 =>
        simp only [hl, Except.ok.injEq] at hrun
        subst hrun
        obtain ⟨new0, hfacts0, h20, hgone0, hrest0⟩ :=
          removeLoopWith_spec _ (ih true) tx.GetHash _ st st0 h2 hl
        have hn0 : NamesTx st0.1 tx := namesTx_of_sub hfacts0.sub hn
        obtain ⟨new1, hfacts1, h21, hnone1, hrest1⟩ := removeEntry_spec tx st0 h20 hn0
        have hg0 : ∀ i, i < tx.vout.length → st0.1.mapNextTx.find ⟨tx.GetHash, i⟩ = none :=
          fun i hi => hgone0 i (List.mem_range.mpr hi)
        refine ⟨new1 ++ new0, remFacts_trans hfacts0 hfacts1, h21, hnone1, ?_, ?_⟩
        · intro _ i hi
          exact sub_next_none hfacts1.sub (hg0 i hi)
        · intro h1
          obtain ⟨h10, hc0, hcl0⟩ := hrest0 h1
          obtain ⟨h11, hc1, hcl1⟩ := hrest1 h10
          exact ⟨h11, fun hc => hc1 (hc0 hc), fun _ =>
            remClosed_trans hfacts0 hfacts1 hcl0 (hcl1 hg0)⟩

theorem rankFind_of_entries {rank : uint256 → Nat} {pool : CTxMemPool D}
    (h : RankDecreases rank pool) : RankFind rank pool := by
  intro op ip hf
  exact h (op, ip) ((StdMap.find_eq_some_iff _ _ _).mp hf)

theorem rankFind_of_sub {rank : uint256 → Nat} {p1 p : CTxMemPool D} (hs : Sub p1 p)
    (h : RankFind rank p) : RankFind rank p1 :=
  fun op ip hf => h op ip (hs.2 op ip hf)

theorem removeLoopWith_terminates (rank : uint256 → Nat)
    (rec : CTransaction → CTxMemPool D × List CTransaction →
      Except Fault (CTxMemPool D × List CTransaction))
    (hrec : RemoveSpec rec true) (bound : Nat)
    (hterm : ∀ t st, Inv2 st.1 → RankFind rank st.1 → rank t.GetHash < bound →
      ∃ st1, rec t st = .ok st1)
    (hash : uint256) (hb : rank hash ≤ bound) :
    ∀ (is : List Nat) (st : CTxMemPool D × List CTransaction), Inv2 st.1 →
      RankFind rank st.1 → ∃ st1, removeLoopWith rec hash is st = .ok st1 := by
  intro is
  induction is with
  | nil => intro st _ _; exact ⟨st, rfl⟩
  | cons i is ih =>
    intro st h2 hr
    simp only [removeLoopWith]
    cases hf : st.1.mapNextTx.find ⟨hash, i⟩ with
    | none => exact ih st h2 hr
    | some ip =>
      obtain ⟨e, txin, hfe, hhe, _, _⟩ := h2 _ ip hf
      simp only [hfe]
      have hlt : rank e.tx.GetHash < bound := by
        have := hr _ ip hf
        rw [hhe]
        exact lt_of_lt_of_le this hb
      obtain ⟨st0, hst0⟩ := hterm e.tx st h2 hr hlt
      simp only [hst0]
      have hn : NamesTx st.1 e.tx := by
        intro e1 he1
        rw [hhe, hfe] at he1
        cases he1
        rfl
      obtain ⟨new0, hfacts0, h20, _⟩ := hrec e.tx st st0 h2 hn hst0
      exact ih st0 h20 (rankFind_of_sub hfacts0.sub hr)

theorem remove_terminates (rank : uint256 → Nat) :
    ∀ (fuel : Nat) (tx : CTransaction) (fRecursive : Bool)
      (st : CTxMemPool D × List CTransaction), Inv2 st.1 → RankFind rank st.1 →
      rank tx.GetHash < fuel → ∃ st1, remove fuel tx fRecursive st = .ok st1 := by
  intro fuel
  induction fuel with
  | zero => intro tx _ st _ _ h; omega
  | succ fuel ih =>
    intro tx fRecursive st h2 hr hlt
    simp only [remove]
    cases fRecursive with
    | false => simp
    | true =>
      simp only [if_true]
      obtain ⟨st0, hst0⟩ := removeLoopWith_terminates rank _ (remove_spec fuel true) fuel
        (fun t s hs2 hsr hl => ih t true s hs2 hsr hl) tx.GetHash (by omega)
        (List.range tx.vout.length) st h2 hr
      simp only [hst0]
      exact ⟨_, rfl⟩

theorem checkInputs_true {IsNull : CTxOut → Bool} {pcoins : COutPoint → Bool}
    {pool : CTxMemPool D} {key : uint256} :
    ∀ (vin : List CTxIn) (i : Nat), checkInputs IsNull pcoins pool key vin i = true →
      ∀ j txin, vin[j]? = some txin →
        checkCoins IsNull pcoins pool txin = true ∧ checkMarked pool key (i + j) txin = true := by
  intro vin
  induction vin with
  | nil => intro i _ j txin hj; simp at hj
  | cons t rest ih =>
    intro i h j txin hj
    simp only [checkInputs, Bool.and_eq_true] at h
    cases j with
    | zero =>
      simp only [List.getElem?_cons_zero, Option.some.injEq] at hj
      subst hj
      exact ⟨h.1.1, h.1.2⟩
    | succ j =>
      simp only [List.getElem?_cons_succ] at hj
      have := ih (i + 1) h.2 j txin hj
      rw [show i + (j + 1) = i + 1 + j by omega]
      exact this

theorem inv1_of_check {IsNull : CTxOut → Bool} {pcoins : COutPoint → Bool}
    {pool : CTxMemPool D} (h : pool.check IsNull pcoins = true) : Inv1 pool := by
  intro k e he i txin hi
  simp only [check, Bool.and_eq_true, List.all_eq_true] at h
  have hmem := (StdMap.find_eq_some_iff _ _ _).mp he
  have := (checkInputs_true _ _ (h.1 _ hmem) i txin hi).2
  simp only [checkMarked, Nat.zero_add] at this
  cases hf : pool.mapNextTx.find txin.prevout with
  | none => simp [hf] at this
  | some ip =>
    simp only [hf, Bool.and_eq_true, decide_eq_true_eq] at this
    obtain ⟨a, b⟩ := ip
    simp only at this
    rw [this.1, this.2]

theorem inv3_of_check {IsNull : CTxOut → Bool} {pcoins : COutPoint → Bool}
    {pool : CTxMemPool D} (h : pool.check IsNull pcoins = true) : Inv3 pool := by
  intro k e he txin hmemin e2 he2
  simp only [check, Bool.and_eq_true, List.all_eq_true] at h
  have hmem := (StdMap.find_eq_some_iff _ _ _).mp he
  obtain ⟨i, hi⟩ := List.mem_iff_getElem?.mp hmemin
  have := (checkInputs_true _ _ (h.1 _ hmem) i txin hi).1
  simp only [checkCoins, he2] at this
  cases hv : e2.tx.vout[txin.prevout.n]? with
  | none => simp [hv] at this
  | some o =>
    by_contra hlt
    rw [List.getElem?_eq_none (by omega)] at hv
    cases hv

theorem inv2_of_check {IsNull : CTxOut → Bool} {pcoins : COutPoint → Bool}
    {pool : CTxMemPool D} (h : pool.check IsNull pcoins = true) : Inv2 pool := by
  intro op ip hf
  simp only [check, Bool.and_eq_true, List.all_eq_true] at h
  have hmem := (StdMap.find_eq_some_iff _ _ _).mp hf
  have := h.2 _ hmem
  simp only [checkNext] at this
  cases h0 : pool.mapTx.find ip.ptx with
  | none => simp [h0] at this
  | some e0 =>
    simp only [h0] at this
    cases h1 : pool.mapTx.find e0.tx.GetHash with
    | none => simp [h1] at this
    | some e1 =>
      simp only [h1, Bool.and_eq_true, decide_eq_true_eq] at this
      cases hv : e0.tx.vin[ip.n]? with
      | none => simp [hv] at this
      | some txin =>
        simp only [hv, decide_eq_true_eq] at this
        exact ⟨e0, txin, rfl, this.1.1, hv, this.2.symm⟩

theorem namesTx_of_lookup {pool : CTxMemPool D} {tx : CTransaction}
    (h : pool.lookup tx.GetHash = some tx) : NamesTx pool tx := by
  intro e he
  simp only [lookup, he, Option.some.injEq] at h
  exact h

theorem find_of_lookup {pool : CTxMemPool D} {k : uint256} {tx : CTransaction}
    (h : pool.lookup k = some tx) : ∃ e, pool.mapTx.find k = some e ∧ e.tx = tx := by
  unfold lookup at h
  cases hf : pool.mapTx.find k with
  | none => simp [hf] at h
  | some e =>
    simp only [hf, Option.some.injEq] at h
    exact ⟨e, rfl, h⟩

theorem removeEntry_sub (tx : CTransaction) (st : CTxMemPool D × List CTransaction) :
    Sub (removeEntry tx st).1 st.1 ∧ (removeEntry tx st).1.mapTx.find tx.GetHash = none := by
  cases hf : st.1.mapTx.find tx.GetHash with
  | none =>
    have hre : removeEntry tx st = st := by
      simp [removeEntry, StdMap.count, hf]
    rw [hre]
    exact ⟨sub_refl _, hf⟩
  | some e =>
    have hre : removeEntry tx st =
        ({ mapTx := st.1.mapTx.erase tx.GetHash
           mapNextTx := eraseInputs tx.vin st.1.mapNextTx
           nTransactionsUpdated := (st.1.nTransactionsUpdated + 1) % UINT_MOD },
         tx :: st.2) := by
      simp [removeEntry, StdMap.count, hf]
    rw [hre]
    refine ⟨⟨?_, ?_⟩, by simp [StdMap.find_erase]⟩
    · intro k e1 hk
      simp only [StdMap.find_erase] at hk
      split_ifs at hk
      exact hk
    · intro op ip hk
      simp only [find_eraseInputs] at hk
      split_ifs at hk
      exact hk

theorem reaches_mono {p1 p : CTxMemPool D} (hs : Sub p1 p) {root x : CTransaction}
    (h : Reaches p1 root x) : Reaches p root x := by
  induction h with
  | direct x hx => exact Reaches.direct x hx
  | step x txin e hmem hf _ ih => exact Reaches.step x txin e hmem (hs.1 _ _ hf) ih

/-- After the loop of a recursive `remove` of `root`, no stored transaction
reaches `root`. -/
theorem not_reaches_of_loop {pool : CTxMemPool D} {st0 : CTxMemPool D × List CTransaction}
    {removed new0 : List CTransaction} {root : CTransaction}
    (h3 : Inv3 pool) (hfacts : RemFacts (pool, removed) st0 new0) (h1 : Inv1 st0.1)
    (hcl : RemClosed st0 new0)
    (hgone : ∀ i, i < root.vout.length → st0.1.mapNextTx.find ⟨root.GetHash, i⟩ = none)
    {x : CTransaction} (hx : Reaches pool root x) :
    ∀ k e, st0.1.mapTx.find k = some e → e.tx = x → False := by
  induction hx with
  | direct x hsp =>
    intro k e he hex
    rw [← hex] at hsp
    exact no_spender h1 hgone he hsp
  | step x txin ep hmem hf _ ih =>
    intro k e he hex
    cases hx0 : st0.1.mapTx.find txin.prevout.hash with
    | some e1 =>
      have := hfacts.sub.1 _ _ hx0
      simp only at this
      rw [hf] at this
      cases this
      exact ih _ ep hx0 rfl
    | none =>
      obtain ⟨hm, hh⟩ := hfacts.dropped _ ep hf hx0
      apply hcl.closed _ hm k e he
      rw [hex]
      refine ⟨txin, hmem, hh.symm, ?_⟩
      have hep := hfacts.sub.1 _ _ he
      exact h3 k e hep txin (by rw [hex]; exact hmem) ep hf

/-- Claim C2. For every pool that passes `check` (invariants 1 to 3) and every
transaction `root`: whenever `remove(root, removed, true)` returns, the id of
`root` is no longer in `mapTx`, no stored transaction reaches `root` through
a chain of inputs resolved in the transaction table (before or after the
call), and, when `root` was stored, no stored transaction has an input that
names the id of `root`; and the call returns, with any fuel above the rank of
`root`, when the recorded spending relation has no cycle. -/
theorem C2_recursive_remove_leaves_no_descendant (IsNull : CTxOut → Bool)
    (pcoins : COutPoint → Bool) (pool : CTxMemPool D) (root : CTransaction)
    (removed : List CTransaction) (hcheck : pool.check IsNull pcoins = true) :
    (∀ fuel st1, remove fuel root true (pool, removed) = .ok st1 →
      st1.1.exists_ root.GetHash = false ∧
      (∀ k e, st1.1.mapTx.find k = some e →
        ¬ Reaches pool root e.tx ∧ ¬ Reaches st1.1 root e.tx) ∧
      (pool.lookup root.GetHash = some root → ∀ k e, st1.1.mapTx.find k = some e →
        ∀ txin ∈ e.tx.vin, txin.prevout.hash ≠ root.GetHash)) ∧
    (∀ rank, RankDecreases rank pool → ∀ fuel, rank root.GetHash < fuel →
      ∃ st1, remove fuel root true (pool, removed) = .ok st1) := by
  have h1 := inv1_of_check hcheck
  have h2 := inv2_of_check hcheck
  have h3 := inv3_of_check hcheck
  constructor
  · intro fuel st1 hrun
    cases fuel with
    | zero => simp [remove] at hrun
    | succ fuel =>
      simp only [remove, if_true] at hrun
      cases hl : removeLoopWith (fun t s => remove fuel t true s) root.GetHash
          (List.range root.vout.length) (pool, removed) with
      | error f => simp only [hl] at hrun; cases hrun
      | ok st0 =>
        simp only [hl, Except.ok.injEq] at hrun
        subst hrun
        obtain ⟨new0, hfacts0, _, hgone0, hrest0⟩ :=
          removeLoopWith_spec _ (remove_spec fuel true) root.GetHash _ (pool, removed) st0 h2 hl
        obtain ⟨h10, _, hcl0⟩ := hrest0 h1
        have hg0 : ∀ i, i < root.vout.length →
            st0.1.mapNextTx.find ⟨root.GetHash, i⟩ = none :=
          fun i hi => hgone0 i (List.mem_range.mpr hi)
        obtain ⟨hsub, hnone⟩ := removeEntry_sub root st0
        have hnot : ∀ k e, (removeEntry root st0).1.mapTx.find k = some e →
            ¬ Reaches pool root e.tx := fun k e he hr =>
          not_reaches_of_loop h3 hfacts0 h10 hcl0 hg0 hr k e (hsub.1 k e he) rfl
        refine ⟨by simp [exists_, StdMap.count, hnone], ?_, ?_⟩
        · intro k e he
          exact ⟨hnot k e he, fun hr =>
            hnot k e he (reaches_mono (sub_trans hsub hfacts0.sub) hr)⟩
        · intro hroot k e he txin hm hh
          obtain ⟨er, hfr, her⟩ := find_of_lookup hroot
          have hpool := (sub_trans hsub hfacts0.sub).1 k e he
          have hlt := h3 k e hpool txin hm er (by rw [hh]; exact hfr)
          rw [her] at hlt
          exact hnot k e he (Reaches.direct e.tx ⟨txin, hm, hh, hlt⟩)
  · intro rank hrank fuel hlt
    exact remove_terminates rank fuel root true (pool, removed) h2 (rankFind_of_entries hrank) hlt

/-- A run of claim C2 on the chain of scenario 3: removing T1 returns and
leaves neither T1 nor a transaction that reaches it. -/
theorem C2_witness :
    chainPool.check (fun _ => false) (fun _ => true) = true ∧
    ∃ st1, remove 4 chainTx1 true (chainPool, []) = .ok st1 ∧
      st1.1.exists_ chainTx1.GetHash = false ∧
      ∀ k e, st1.1.mapTx.find k = some e → ¬ Reaches chainPool chainTx1 e.tx :=
  have h := C2_recursive_remove_leaves_no_descendant (fun _ => false) (fun _ => true)
    chainPool chainTx1 [] (by decide)
  ⟨by decide,
    (h.2 chainRank (by decide) 4 (by decide)).elim fun st1 hst1 =>
      ⟨st1, hst1, (h.1 4 st1 hst1).1, fun k e he => ((h.1 4 st1 hst1).2.1 k e he).1⟩⟩

/-- The claim C1 fails on scenario 3: the chain T1, T2, T3 is held in the
pool, and the recursive removal of T1 lists T1 first and T3 last. -/
theorem C1_counterexample :
    chainPool.lookup 1 = some chainTx1 ∧ chainPool.lookup 2 = some chainTx2 ∧
    chainPool.lookup 3 = some chainTx3 ∧
    SpendsFrom chainTx2 chainTx1 ∧ SpendsFrom chainTx3 chainTx2 ∧
    remove 4 chainTx1 true (chainPool, []) =
      .ok (emptyPool 6, [chainTx1, chainTx2, chainTx3]) ∧
    [chainTx1, chainTx2, chainTx3] ≠ [chainTx3, chainTx2, chainTx1] := by
  decide

/-- Claim C1, amended. For every pool that passes `check` and every stored
transaction T1: whenever `remove(T1, removed, true)` returns from an empty
list `removed`, every transaction of `removed` that spends an output of another
one stands behind it (ancestors first), and for every chain T1, T2, T3 held in
the pool the three are listed with T1 before T2 before T3; the call returns
when the recorded spending relation has no cycle; on scenario 3 the list is
T1, T2, T3 and the pool is left empty. -/
theorem C1_removed_lists_ancestors_first (IsNull : CTxOut → Bool) (pcoins : COutPoint → Bool)
    (pool : CTxMemPool D) (T1 : CTransaction) (hcheck : pool.check IsNull pcoins = true)
    (hT1 : pool.lookup T1.GetHash = some T1) :
    (∀ fuel st1, remove fuel T1 true (pool, []) = .ok st1 →
      (∀ (i j : Nat) d a, st1.2[i]? = some d → st1.2[j]? = some a → SpendsFrom d a → j < i) ∧
      (∀ T2 T3, pool.lookup T2.GetHash = some T2 → pool.lookup T3.GetHash = some T3 →
        SpendsFrom T2 T1 → SpendsFrom T3 T2 →
        ∃ i1 i2 i3 : Nat, i1 < i2 ∧ i2 < i3 ∧ st1.2[i1]? = some T1 ∧ st1.2[i2]? = some T2 ∧
          st1.2[i3]? = some T3)) ∧
    (∀ rank, RankDecreases rank pool → ∀ fuel, rank T1.GetHash < fuel →
      ∃ st1, remove fuel T1 true (pool, []) = .ok st1) ∧
    remove 4 chainTx1 true (chainPool, []) =
      .ok (emptyPool 6, [chainTx1, chainTx2, chainTx3]) := by
  have h1 := inv1_of_check hcheck
  have h2 := inv2_of_check hcheck
  refine ⟨?_, ?_, by decide⟩
  · intro fuel st1 hrun
    obtain ⟨new, hfacts, _, hnone, _, hrest⟩ :=
      remove_spec fuel true T1 (pool, []) st1 h2 (namesTx_of_lookup hT1) hrun
    obtain ⟨_, _, hcl⟩ := hrest h1
    have hcl := hcl rfl
    have hlist : st1.2 = new := by rw [hfacts.removed_eq]; simp
    have horder : ∀ (i j : Nat) d a, st1.2[i]? = some d → st1.2[j]? = some a → SpendsFrom d a →
        j < i := by
      intro i j d a hi hj hsp
      rw [hlist] at hi hj
      by_contra hij
      obtain ⟨hil, hid⟩ := List.getElem?_eq_some.mp hi
      obtain ⟨hjl, hja⟩ := List.getElem?_eq_some.mp hj
      rcases Nat.lt_or_eq_of_le (Nat.le_of_not_lt hij) with hlt | heq
      · have := List.pairwise_iff_getElem.mp hcl.order i j hil hjl hlt
        rw [hid, hja] at this
        exact this hsp
      · subst heq
        rw [hid] at hja
        subst hja
        exact hcl.irrefl d (List.mem_iff_getElem?.mpr ⟨i, hi⟩) hsp
    refine ⟨horder, ?_⟩
    intro T2 T3 hT2 hT3 hs21 hs32
    obtain ⟨e1, hf1, he1⟩ := find_of_lookup hT1
    obtain ⟨e2, hf2, he2⟩ := find_of_lookup hT2
    obtain ⟨e3, hf3, he3⟩ := find_of_lookup hT3
    have hm1 : T1 ∈ new := by
      have := (hfacts.dropped _ e1 hf1 hnone).1
      rwa [he1] at this
    have hm2 : T2 ∈ new := by
      cases hx : st1.1.mapTx.find T2.GetHash with
      | none =>
        have := (hfacts.dropped _ e2 hf2 hx).1
        rwa [he2] at this
      | some e =>
        exfalso
        have hsame := hfacts.sub.1 _ _ hx
        simp only at hsame
        rw [hf2] at hsame
        cases hsame
        apply hcl.closed T1 hm1 _ e2 hx
        rw [he2]
        exact hs21
    have hm3 : T3 ∈ new := by
      cases hx : st1.1.mapTx.find T3.GetHash with
      | none =>
        have := (hfacts.dropped _ e3 hf3 hx).1
        rwa [he3] at this
      | some e =>
        exfalso
        have hsame := hfacts.sub.1 _ _ hx
        simp only at hsame
        rw [hf3] at hsame
        cases hsame
        apply hcl.closed T2 hm2 _ e3 hx
        rw [he3]
        exact hs32
    rw [← hlist] at hm1 hm2 hm3
    obtain ⟨i1, hi1⟩ := List.mem_iff_getElem?.mp hm1
    obtain ⟨i2, hi2⟩ := List.mem_iff_getElem?.mp hm2
    obtain ⟨i3, hi3⟩ := List.mem_iff_getElem?.mp hm3
    exact ⟨i1, i2, i3, horder i2 i1 T2 T1 hi2 hi1 hs21, horder i3 i2 T3 T2 hi3 hi2 hs32,
      hi1, hi2, hi3⟩
  · intro rank hrank fuel hlt
    exact remove_terminates rank fuel T1 true (pool, []) h2 (rankFind_of_entries hrank) hlt

/-- A run of the amended claim C1 on scenario 3. -/
theorem C1_witness :
    chainPool.check (fun _ => false) (fun _ => true) = true ∧
    chainPool.lookup chainTx1.GetHash = some chainTx1 ∧
    ∃ st1, remove 4 chainTx1 true (chainPool, []) = .ok st1 ∧
      ∀ (i j : Nat) d a, st1.2[i]? = some d → st1.2[j]? = some a → SpendsFrom d a → j < i :=
  have h := C1_removed_lists_ancestors_first (fun _ => false) (fun _ => true)
    chainPool chainTx1 (by decide) (by decide)
  ⟨by decide, by decide,
    (h.2.1 chainRank (by decide) 4 (by decide)).elim fun st1 hst1 =>
      ⟨st1, hst1, (h.1 4 st1 hst1).1⟩⟩

theorem removeConflictsLoop_spec (fuel : Nat) (tx : CTransaction) :
    ∀ (rest : List CTxIn) (st st1 : CTxMemPool D × List CTransaction), Inv2 st.1 →
      removeConflictsLoop fuel tx rest st = .ok st1 →
      ∃ new, RemFacts st st1 new ∧ Inv2 st1.1 ∧
        (st.1.mapTx.find tx.GetHash = none →
          ∀ txin ∈ rest, st1.1.mapNextTx.find txin.prevout = none) ∧
        (Inv1 st.1 → Inv1 st1.1 ∧ (InvCount st.1 → InvCount st1.1)) := by
  intro rest
  induction rest with
  | nil =>
    intro st st1 h2 hrun
    simp only [removeConflictsLoop, Except.ok.injEq] at hrun
    subst hrun
    exact ⟨[], remFacts_refl st, h2, by simp, fun h1 => ⟨h1, fun hc => hc⟩⟩
  | cons t rest ih =>
    intro st st1 h2 hrun
    simp only [removeConflictsLoop] at hrun
    cases hf : st.1.mapNextTx.find t.prevout with
    | none =>
      simp only [hf] at hrun
      obtain ⟨new, hfacts, h2', hgone, hrest⟩ := ih st st1 h2 hrun
      refine ⟨new, hfacts, h2', ?_, hrest⟩
      intro hnot txin hmem
      rcases List.mem_cons.mp hmem with hmem | hmem
      · subst hmem; exact sub_next_none hfacts.sub hf
      · exact hgone hnot txin hmem
    | some ip =>
      simp only [hf] at hrun
      obtain ⟨e, txin0, hfe, hhe, _, _⟩ := h2 _ ip hf
      simp only [hfe] at hrun
      by_cases hne : e.tx = tx
      · simp only [hne, ne_eq, not_true_eq_false, if_false] at hrun
        obtain ⟨new, hfacts, h2', hgone, hrest⟩ := ih st st1 h2 hrun
        refine ⟨new, hfacts, h2', ?_, hrest⟩
        intro hnot txin hmem
        exfalso
        rw [← hne, hhe, hfe] at hnot
        cases hnot
      · simp only [ne_eq, hne, not_false_eq_true, if_true] at hrun
        cases hr : remove fuel e.tx true st with
        | error f => simp only [hr] at hrun; cases hrun
        | ok st0 =>
          simp only [hr] at hrun
          have hn : NamesTx st.1 e.tx := by
            intro e1 he1
            rw [hhe, hfe] at he1
            cases he1
            rfl
          obtain ⟨new0, hfacts0, h20, hgone0, _, hrest0⟩ :=
            remove_spec fuel true e.tx st st0 h2 hn hr
          obtain ⟨new1, hfacts1, h21, hgone1, hrest1⟩ := ih st0 st1 h20 hrun
          refine ⟨new1 ++ new0, remFacts_trans hfacts0 hfacts1, h21, ?_, ?_⟩
          · intro hnot txin hmem
            rcases List.mem_cons.mp hmem with hmem | hmem
            · subst hmem
              apply sub_next_none hfacts1.sub
              cases hx : st0.1.mapNextTx.find txin.prevout with
              | none => rfl
              | some ip0 =>
                exfalso
                have := hfacts0.sub.2 _ _ hx
                rw [hf] at this
                cases this
                obtain ⟨e1, _, hfe1, _, _, _⟩ := h20 _ ip hx
                rw [← hhe, hgone0] at hfe1
                cases hfe1
            · exact hgone1 (sub_tx_none hfacts0.sub hnot) txin hmem
          · intro h1
            obtain ⟨h10, hc0, _⟩ := hrest0 h1
            obtain ⟨h11, hc1⟩ := hrest1 h10
            exact ⟨h11, fun hc => hc1 (hc0 hc)⟩

theorem removeConflictsLoop_terminates (rank : uint256 → Nat) (fuel : Nat) (tx : CTransaction) :
    ∀ (rest : List CTxIn) (st : CTxMemPool D × List CTransaction), Inv2 st.1 →
      RankFind rank st.1 → (∀ k e, st.1.mapTx.find k = some e → rank k < fuel) →
      ∃ st1, removeConflictsLoop fuel tx rest st = .ok st1 := by
  intro rest
  induction rest with
  | nil => intro st _ _ _; exact ⟨st, rfl⟩
  | cons t rest ih =>
    intro st h2 hr hb
    simp only [removeConflictsLoop]
    cases hf : st.1.mapNextTx.find t.prevout with
    | none => exact ih st h2 hr hb
    | some ip =>
      obtain ⟨e, txin0, hfe, hhe, _, _⟩ := h2 _ ip hf
      simp only [hfe]
      by_cases hne : e.tx = tx
      · simp only [hne, ne_eq, not_true_eq_false, if_false]
        exact ih st h2 hr hb
      · simp only [ne_eq, hne, not_false_eq_true, if_true]
        have hlt : rank e.tx.GetHash < fuel := by
          rw [hhe]; exact hb _ e hfe
        obtain ⟨st0, hst0⟩ := remove_terminates rank fuel e.tx true st h2 hr hlt
        simp only [hst0]
        have hn : NamesTx st.1 e.tx := by
          intro e1 he1
          rw [hhe, hfe] at he1
          cases he1
          rfl
        obtain ⟨new0, hfacts0, h20, _⟩ := remove_spec fuel true e.tx st st0 h2 hn hst0
        exact ih st0 h20 (rankFind_of_sub hfacts0.sub hr)
          (fun k e1 he1 => hb k e1 (hfacts0.sub.1 k e1 he1))

/-- Claim C3. For every pool that passes `check` and every transaction `tx`
whose id is not in the pool: whenever `removeConflicts(tx, removed)` returns,
no stored transaction has an input that spends the outpoint of an input of
`tx`, and every transaction dropped from `mapTx` is in `removed`; the call
returns, with any fuel above the ranks of the stored ids, when the recorded
spending relation has no cycle; on scenario 2 the result is `removed == [T1]`
and an empty pool. -/
theorem C3_removeConflicts_evicts_conflicts (IsNull : CTxOut → Bool)
    (pcoins : COutPoint → Bool) (pool : CTxMemPool D) (tx : CTransaction)
    (removed : List CTransaction) (hcheck : pool.check IsNull pcoins = true)
    (hnot : pool.exists_ tx.GetHash = false) :
    (∀ fuel st1, removeConflicts fuel tx (pool, removed) = .ok st1 →
      (∀ k e, st1.1.mapTx.find k = some e → ∀ txin ∈ e.tx.vin, ∀ txin2 ∈ tx.vin,
        txin.prevout ≠ txin2.prevout) ∧
      (∀ k e, pool.mapTx.find k = some e → st1.1.mapTx.find k = none → e.tx ∈ st1.2)) ∧
    (∀ rank, RankDecreases rank pool → ∀ fuel,
      (∀ p ∈ pool.mapTx.entries, rank p.1 < fuel) →
      ∃ st1, removeConflicts fuel tx (pool, removed) = .ok st1) ∧
    removeConflicts 1 conflictTx2 (conflictPool, []) = .ok (emptyPool 2, [conflictTx1]) := by
  have h1 := inv1_of_check hcheck
  have h2 := inv2_of_check hcheck
  have hnone : pool.mapTx.find tx.GetHash = none := by
    simp only [exists_, StdMap.count] at hnot
    cases hf : pool.mapTx.find tx.GetHash with
    | none => rfl
    | some e => simp [hf] at hnot
  refine ⟨?_, ?_, by decide⟩
  · intro fuel st1 hrun
    obtain ⟨new, hfacts, _, hgone, hrest⟩ :=
      removeConflictsLoop_spec fuel tx tx.vin (pool, removed) st1 h2 hrun
    obtain ⟨h11, _⟩ := hrest h1
    constructor
    · intro k e he txin hmem txin2 hmem2 heq
      obtain ⟨i, hi⟩ := List.mem_iff_getElem?.mp hmem
      have r := h11 k e he i txin hi
      rw [heq, hgone hnone txin2 hmem2] at r
      cases r
    · intro k e he hk
      have := (hfacts.dropped k e he hk).1
      rw [hfacts.removed_eq]
      exact List.mem_append_left _ this
  · intro rank hrank fuel hb
    exact removeConflictsLoop_terminates rank fuel tx tx.vin (pool, removed) h2
      (rankFind_of_entries hrank)
      (fun k e he => hb (k, e) ((StdMap.find_eq_some_iff _ _ _).mp he))

/-- A run of claim C3 on scenario 2. -/
theorem C3_witness :
    conflictPool.check (fun _ => false) (fun _ => true) = true ∧
    conflictPool.exists_ conflictTx2.GetHash = false ∧
    ∃ st1, removeConflicts 4 conflictTx2 (conflictPool, []) = .ok st1 ∧
      ∀ k e, st1.1.mapTx.find k = some e → ∀ txin ∈ e.tx.vin, ∀ txin2 ∈ conflictTx2.vin,
        txin.prevout ≠ txin2.prevout :=
  have h := C3_removeConflicts_evicts_conflicts (fun _ => false) (fun _ => true)
    conflictPool conflictTx2 [] (by decide) (by decide)
  ⟨by decide, by decide,
    (h.2.1 chainRank (by decide) 4 (by decide)).elim fun st1 hst1 =>
      ⟨st1, hst1, (h.1 4 st1 hst1).1⟩⟩

theorem namesTx_of_namesTxB {pool : CTxMemPool D} {tx : CTransaction}
    (h : namesTxB pool tx = true) : NamesTx pool tx := by
  intro e he
  simpa [namesTxB, he] using h

theorem inv1_empty (n : Nat) : Inv1 (emptyPool n : CTxMemPool D) := by
  intro k e he
  simp [emptyPool, StdMap.find_empty] at he

theorem inv2_empty (n : Nat) : Inv2 (emptyPool n : CTxMemPool D) := by
  intro op ip he
  simp [emptyPool, StdMap.find_empty] at he

theorem invCount_empty (n : Nat) : InvCount (emptyPool n : CTxMemPool D) := rfl

theorem inv1_clear (pool : CTxMemPool D) : Inv1 pool.clear := by
  intro k e he
  simp [clear, StdMap.find_empty] at he

theorem inv2_clear (pool : CTxMemPool D) : Inv2 pool.clear := by
  intro op ip he
  simp [clear, StdMap.find_empty] at he

theorem invCount_clear (pool : CTxMemPool D) : InvCount pool.clear := rfl

theorem inv2_add {pool : CTxMemPool D} (h2 : Inv2 pool) (hash : uint256)
    (entry : CTxMemPoolEntry D) (hid : hash = entry.tx.GetHash) (hn : NamesTx pool entry.tx) :
    Inv2 (pool.addUnchecked hash entry).2 := by
  intro op ip hf
  simp only [addUnchecked] at hf ⊢
  rcases find_addInputs_cases _ _ _ _ _ _ hf with hold | ⟨hp, j, txin, hj, hv, hpo⟩
  · obtain ⟨e1, txin, hf1, hh1, hv1, hp1⟩ := h2 op ip hold
    by_cases hk : hash = ip.ptx
    · have he1 : e1.tx = entry.tx := by
        apply hn
        rw [← hid, hk]
        exact hf1
      refine ⟨entry, txin, ?_, ?_, ?_, hp1⟩
      · rw [StdMap.find_insert, if_pos hk]
      · rw [← hid, hk]
      · rw [← he1]; exact hv1
    · refine ⟨e1, txin, ?_, hh1, hv1, hp1⟩
      rw [StdMap.find_insert, if_neg hk]
      exact hf1
  · refine ⟨entry, txin, ?_, ?_, ?_, hpo⟩
    · rw [StdMap.find_insert, if_pos hp.symm]
    · rw [hp, hid]
    · rw [hj, Nat.zero_add]; exact hv

theorem addContract_iff {pool : CTxMemPool D} {hash : uint256} {entry : CTxMemPoolEntry D}
    (h : addContract pool hash entry = true) :
    hash = entry.tx.GetHash ∧ pool.mapTx.find hash = none ∧
    (entry.tx.vin.map (fun t => t.prevout)).Nodup ∧
    ∀ t ∈ entry.tx.vin, pool.mapNextTx.find t.prevout = none := by
  simp only [addContract, Bool.and_eq_true, decide_eq_true_eq, Bool.not_eq_true',
    List.all_eq_true, Option.isNone_iff_eq_none] at h
  obtain ⟨⟨⟨ha, hb⟩, hc⟩, hd⟩ := h
  refine ⟨ha, ?_, hc, hd⟩
  simp only [exists_, StdMap.count] at hb
  cases hf : pool.mapTx.find hash with
  | none => rfl
  | some e => simp [hf] at hb

theorem inv1_add {pool : CTxMemPool D} (h1 : Inv1 pool) (hash : uint256)
    (entry : CTxMemPoolEntry D) (hnd : (entry.tx.vin.map (fun t => t.prevout)).Nodup)
    (hfresh : ∀ t ∈ entry.tx.vin, pool.mapNextTx.find t.prevout = none) :
    Inv1 (pool.addUnchecked hash entry).2 := by
  intro k e he i txin hi
  simp only [addUnchecked] at he ⊢
  rw [StdMap.find_insert] at he
  by_cases hk : hash = k
  · rw [if_pos hk] at he
    simp only [Option.some.injEq] at he
    subst he
    have := find_addInputs_of_nodup hash entry.tx.vin 0 pool.mapNextTx hnd i txin hi
    rw [Nat.zero_add] at this
    subst hk
    exact this
  · rw [if_neg hk] at he
    have r := h1 k e he i txin hi
    rw [find_addInputs_of_not_mem]
    · exact r
    · intro hmem
      obtain ⟨t, ht, htp⟩ := List.mem_map.mp hmem
      rw [← htp, hfresh t ht] at r
      cases r

theorem invCount_add {pool : CTxMemPool D} (hc : InvCount pool) (hash : uint256)
    (entry : CTxMemPoolEntry D) (hnew : pool.mapTx.find hash = none)
    (hnd : (entry.tx.vin.map (fun t => t.prevout)).Nodup)
    (hfresh : ∀ t ∈ entry.tx.vin, pool.mapNextTx.find t.prevout = none) :
    InvCount (pool.addUnchecked hash entry).2 := by
  unfold InvCount at hc ⊢
  simp only [addUnchecked, totalInputs, StdMap.insert]
  rw [size_addInputs hash entry.tx.vin 0 pool.mapNextTx hnd hfresh,
    StdMap.sum_insertL_of_none (fun p => p.2.tx.vin.length) hash entry _ hnew, hc]
  rfl

/-- Under the condition of claim C6, a sequence of calls keeps invariant 2. -/
theorem runOps_inv2 (fuel : Nat) :
    ∀ (ops : List (PoolOp D)) (st st1 : CTxMemPool D × List CTransaction), Inv2 st.1 →
      runContract ownIdContract fuel ops st = true → runOps fuel ops st = .ok st1 →
      Inv2 st1.1 := by
  intro ops
  induction ops with
  | nil =>
    intro st st1 h2 _ hrun
    simp only [runOps, Except.ok.injEq] at hrun
    subst hrun
    exact h2
  | cons op ops ih =>
    intro st st1 h2 hc hrun
    simp only [runOps] at hrun
    simp only [runContract, Bool.and_eq_true] at hc
    cases hap : applyOp fuel op st with
    | error f => simp only [hap] at hrun; cases hrun
    | ok st0 =>
      simp only [hap] at hrun hc
      refine ih st0 st1 ?_ hc.2 hrun
      cases op with
      | add hash entry =>
        simp only [applyOp, Except.ok.injEq] at hap
        subst hap
        simp only [ownIdContract, Bool.and_eq_true, decide_eq_true_eq] at hc
        exact inv2_add h2 hash entry hc.1.1 (namesTx_of_namesTxB hc.1.2)
      | remove tx fRecursive =>
        simp only [applyOp] at hap
        simp only [ownIdContract] at hc
        obtain ⟨_, _, h20, _⟩ :=
          remove_spec fuel fRecursive tx st st0 h2 (namesTx_of_namesTxB hc.1) hap
        exact h20
      | removeConflicts tx =>
        simp only [applyOp, removeConflicts] at hap
        obtain ⟨_, _, h20, _⟩ := removeConflictsLoop_spec fuel tx tx.vin st st0 h2 hap
        exact h20
      | clear =>
        simp only [applyOp, Except.ok.injEq] at hap
        subst hap
        exact inv2_clear _

/-- Under the caller's contract, a sequence of calls keeps invariants 1 and 2
and the count P3. -/
theorem runOps_inv (fuel : Nat) :
    ∀ (ops : List (PoolOp D)) (st st1 : CTxMemPool D × List CTransaction),
      Inv1 st.1 ∧ Inv2 st.1 ∧ InvCount st.1 →
      runContract callerContract fuel ops st = true → runOps fuel ops st = .ok st1 →
      Inv1 st1.1 ∧ Inv2 st1.1 ∧ InvCount st1.1 := by
  intro ops
  induction ops with
  | nil =>
    intro st st1 h _ hrun
    simp only [runOps, Except.ok.injEq] at hrun
    subst hrun
    exact h
  | cons op ops ih =>
    intro st st1 h hc hrun
    obtain ⟨h1, h2, h3⟩ := h
    simp only [runOps] at hrun
    simp only [runContract, Bool.and_eq_true] at hc
    cases hap : applyOp fuel op st with
    | error f => simp only [hap] at hrun; cases hrun
    | ok st0 =>
      simp only [hap] at hrun hc
      refine ih st0 st1 ?_ hc.2 hrun
      cases op with
      | add hash entry =>
        simp only [applyOp, Except.ok.injEq] at hap
        subst hap
        simp only [callerContract] at hc
        obtain ⟨hid, hnew, hnd, hfresh⟩ := addContract_iff hc.1
        refine ⟨inv1_add h1 hash entry hnd hfresh, inv2_add h2 hash entry hid ?_,
          invCount_add h3 hash entry hnew hnd hfresh⟩
        intro e he
        rw [← hid, hnew] at he
        cases he
      | remove tx fRecursive =>
        simp only [applyOp] at hap
        simp only [callerContract] at hc
        obtain ⟨_, _, h20, _, _, hrest⟩ :=
          remove_spec fuel fRecursive tx st st0 h2 (namesTx_of_namesTxB hc.1) hap
        obtain ⟨h10, hc0, _⟩ := hrest h1
        exact ⟨h10, h20, hc0 h3⟩
      | removeConflicts tx =>
        simp only [applyOp, removeConflicts] at hap
        obtain ⟨_, _, h20, _, hrest⟩ := removeConflictsLoop_spec fuel tx tx.vin st st0 h2 hap
        obtain ⟨h10, hc0⟩ := hrest h1
        exact ⟨h10, h20, hc0 h3⟩
      | clear =>
        simp only [applyOp, Except.ok.injEq] at hap
        subst hap
        exact ⟨inv1_clear _, inv2_clear _, invCount_clear _⟩

theorem counted_refl (st : CTxMemPool D × List CTransaction) : Counted st st 0 :=
  ⟨rfl, rfl, fun _ => rfl, fun h => absurd h (Nat.lt_irrefl 0)⟩

theorem counted_trans {st st1 st2 : CTxMemPool D × List CTransaction} {a b : Nat}
    (h1 : Counted st st1 a) (h2 : Counted st1 st2 b) : Counted st st2 (a + b) := by
  obtain ⟨s1, l1, z1, p1⟩ := h1
  obtain ⟨s2, l2, z2, p2⟩ := h2
  refine ⟨by omega, by omega, ?_, ?_⟩
  · intro h
    rw [z2 (by omega), z1 (by omega)]
  · intro h
    rcases Nat.eq_zero_or_pos a with ha | ha
    · rcases Nat.eq_zero_or_pos b with hb | hb
      · omega
      · rw [p2 hb, z1 ha, ha, Nat.zero_add]
    · rcases Nat.eq_zero_or_pos b with hb | hb
      · rw [z2 hb, p1 ha, hb, Nat.add_zero]
      · rw [p2 hb, p1 ha]
        unfold UINT_MOD
        omega

theorem removeEntry_counted (tx : CTransaction) (st : CTxMemPool D × List CTransaction) :
    ∃ k, Counted st (removeEntry tx st) k := by
  cases hf : st.1.mapTx.find tx.GetHash with
  | none =>
    have hre : removeEntry tx st = st := by
      simp [removeEntry, StdMap.count, hf]
    rw [hre]
    exact ⟨0, counted_refl st⟩
  | some e =>
    have hre : removeEntry tx st =
        ({ mapTx := st.1.mapTx.erase tx.GetHash
           mapNextTx := eraseInputs tx.vin st.1.mapNextTx
           nTransactionsUpdated := (st.1.nTransactionsUpdated + 1) % UINT_MOD },
         tx :: st.2) := by
      simp [removeEntry, StdMap.count, hf]
    rw [hre]
    refine ⟨1, StdMap.size_erase_of_some _ _ _ hf, rfl, fun h => absurd h (by decide),
      fun _ => rfl⟩

theorem removeLoopWith_counted
    (rec : CTransaction → CTxMemPool D × List CTransaction →
      Except Fault (CTxMemPool D × List CTransaction))
    (hrec : ∀ t st st1, rec t st = .ok st1 → ∃ k, Counted st st1 k) (hash : uint256) :
    ∀ (is : List Nat) (st st1 : CTxMemPool D × List CTransaction),
      removeLoopWith rec hash is st = .ok st1 → ∃ k, Counted st st1 k := by
  intro is
  induction is with
  | nil =>
    intro st st1 hrun
    simp only [removeLoopWith, Except.ok.injEq] at hrun
    subst hrun
    exact ⟨0, counted_refl st⟩
  | cons i is ih =>
    intro st st1 hrun
    simp only [removeLoopWith] at hrun
    cases hf : st.1.mapNextTx.find ⟨hash, i⟩ with
    | none =>
      simp only [hf] at hrun
      exact ih st st1 hrun
    | some ip =>
      simp only [hf] at hrun
      cases hfe : st.1.mapTx.find ip.ptx with
      | none => simp only [hfe] at hrun; cases hrun
      | some e =>
        simp only [hfe] at hrun
        cases hr : rec e.tx st with
        | error f => simp only [hr] at hrun; cases hrun
        | ok st0 =>
          simp only [hr] at hrun
          obtain ⟨a, ha⟩ := hrec e.tx st st0 hr
          obtain ⟨b, hb⟩ := ih st0 st1 hrun
          exact ⟨a + b, counted_trans ha hb⟩

theorem remove_counted (fuel : Nat) :
    ∀ (tx : CTransaction) (fRecursive : Bool) (st st1 : CTxMemPool D × List CTransaction),
      remove fuel tx fRecursive st = .ok st1 → ∃ k, Counted st st1 k := by
  induction fuel with
  | zero =>
    intro tx fRecursive st st1 hrun
    simp [remove] at hrun
  | succ fuel ih =>
    intro tx fRecursive st st1 hrun
    simp only [remove] at hrun
    cases fRecursive with
    | false =>
      simp only [Bool.false_eq_true, if_false, Except.ok.injEq] at hrun
      subst hrun
      exact removeEntry_counted tx st
    | true =>
      simp only [if_true] at hrun
      cases hl : removeLoopWith (fun t s => remove fuel t true s) tx.GetHash
          (List.range tx.vout.length) st with
      | error f => simp only [hl] at hrun; cases hrun
      | ok st0 =>
        simp only [hl, Except.ok.injEq] at hrun
        subst hrun
        obtain ⟨a, ha⟩ := removeLoopWith_counted _ (fun t s s1 h => ih t true s s1 h)
          tx.GetHash _ st st0 hl
        obtain ⟨b, hb⟩ := removeEntry_counted tx st0
        exact ⟨a + b, counted_trans ha hb⟩

/-- Claim C4. For every pool, every id `h` and every entry `e` whose inputs
name pairwise distinct outpoints, `addUnchecked(h, e)` returns true and
afterwards `exists(h)` holds, `lookup(h)` returns the transaction of `e`,
`mapNextTx` maps the outpoint of every input `i` to the node of `h` and the
index `i`, and `lookup` of every other id is what it was. -/
theorem C4_addUnchecked_indexes_entry (pool : CTxMemPool D) (h : uint256)
    (e : CTxMemPoolEntry D) (hnd : (e.tx.vin.map (fun t => t.prevout)).Nodup) :
    (pool.addUnchecked h e).1 = true ∧
    (pool.addUnchecked h e).2.exists_ h = true ∧
    (pool.addUnchecked h e).2.lookup h = some e.tx ∧
    (∀ (i : Nat) txin, e.tx.vin[i]? = some txin →
      (pool.addUnchecked h e).2.mapNextTx.find txin.prevout = some ⟨h, i⟩) ∧
    (∀ h2, h2 ≠ h → (pool.addUnchecked h e).2.lookup h2 = pool.lookup h2) := by
  refine ⟨rfl, ?_, ?_, ?_, ?_⟩
  · simp [addUnchecked, exists_, StdMap.count, StdMap.find_insert]
  · simp [addUnchecked, lookup, StdMap.find_insert]
  · intro i txin hi
    have := find_addInputs_of_nodup h e.tx.vin 0 pool.mapNextTx hnd i txin hi
    rw [Nat.zero_add] at this
    exact this
  · intro h2 hne
    have : ¬ h = h2 := fun hh => hne hh.symm
    simp [addUnchecked, lookup, StdMap.find_insert, this]

/-- A run of claim C4: scenario 1, a transaction with the one input (100, 0)
added to the empty pool. -/
theorem C4_witness :
    (chainTx1.vin.map (fun t => t.prevout)).Nodup ∧
    ((emptyPool 0).addUnchecked 1 (plainEntry chainTx1)).2.exists_ 1 = true ∧
    ((emptyPool 0).addUnchecked 1 (plainEntry chainTx1)).2.lookup 1 = some chainTx1 ∧
    ((emptyPool 0).addUnchecked 1 (plainEntry chainTx1)).2.mapNextTx.find ⟨100, 0⟩ =
      some ⟨1, 0⟩ :=
  have h := C4_addUnchecked_indexes_entry (emptyPool 0) 1 (plainEntry chainTx1) (by decide)
  ⟨by decide, h.2.1, h.2.2.1, h.2.2.2.1 0 ⟨⟨100, 0⟩⟩ rfl⟩

/-- The claim C5 fails after two calls of `add`, each with the id of its own
transaction: both transactions spend (100, 0), the record of that outpoint
points at the second one, and the first one is stored with its input
unindexed. -/
theorem C5_counterexample :
    ∃ st1, runOps 0 doubleSpendOps (emptyPool 0, []) = .ok st1 ∧
      st1.1.mapTx.find 1 = some (plainEntry conflictTx1) ∧
      (plainEntry conflictTx1).tx.vin[0]? = some ⟨⟨100, 0⟩⟩ ∧
      st1.1.mapNextTx.find ⟨100, 0⟩ = some ⟨2, 0⟩ ∧
      ¬ Inv1 st1.1 := by
  refine ⟨_, rfl, by decide, by decide, by decide, ?_⟩
  intro h
  have := h 1 (plainEntry conflictTx1) (by decide) 0 ⟨⟨100, 0⟩⟩ (by decide)
  revert this
  decide

/-- Claim C5, amended. After any sequence of calls applied to an empty pool in
which every call is within the caller's contract (`callerContract`), every
input `i` of every stored transaction is a key of `mapNextTx`, recorded under
the node of the transaction and the index `i`. -/
theorem C5_inputs_indexed_under_contract (fuel : Nat) (ops : List (PoolOp D)) (n0 : Nat)
    (st1 : CTxMemPool D × List CTransaction)
    (hc : runContract callerContract fuel ops (emptyPool n0, []) = true)
    (hrun : runOps fuel ops (emptyPool n0, []) = .ok st1) :
    ∀ k e, st1.1.mapTx.find k = some e → ∀ (i : Nat) txin, e.tx.vin[i]? = some txin →
      st1.1.mapNextTx.find txin.prevout = some ⟨k, i⟩ :=
  (runOps_inv fuel ops (emptyPool n0, []) st1
    ⟨inv1_empty n0, inv2_empty n0, invCount_empty n0⟩ hc hrun).1

/-- A run of the amended claim C5 on `contractOps`. -/
theorem C5_witness :
    runContract callerContract 4 contractOps (emptyPool 0, []) = true ∧
    ∃ st1, runOps 4 contractOps (emptyPool 0, []) = .ok st1 ∧
      ∀ k e, st1.1.mapTx.find k = some e → ∀ (i : Nat) txin, e.tx.vin[i]? = some txin →
        st1.1.mapNextTx.find txin.prevout = some ⟨k, i⟩ :=
  ⟨by decide, _, rfl,
    C5_inputs_indexed_under_contract 4 contractOps 0 _ (by decide) rfl⟩

/-- Claim C6. After any sequence of calls applied to an empty pool in which
every `add` is called with the id of the entry's own transaction (and an id
names one transaction, `ownIdContract`), every record of `mapNextTx` points at
a node of `mapTx` stored under the id of its transaction, its index is an
input index of that transaction, and that input spends the key of the
record. -/
theorem C6_records_point_at_stored_inputs (fuel : Nat) (ops : List (PoolOp D)) (n0 : Nat)
    (st1 : CTxMemPool D × List CTransaction)
    (hc : runContract ownIdContract fuel ops (emptyPool n0, []) = true)
    (hrun : runOps fuel ops (emptyPool n0, []) = .ok st1) :
    ∀ op ip, st1.1.mapNextTx.find op = some ip →
      ∃ e txin, st1.1.mapTx.find ip.ptx = some e ∧ e.tx.GetHash = ip.ptx ∧
        e.tx.vin[ip.n]? = some txin ∧ txin.prevout = op :=
  runOps_inv2 fuel ops (emptyPool n0, []) st1 (inv2_empty n0) hc hrun

/-- A run of claim C6 on `ownIdOps`: two double-spending calls of `add`, then
the second transaction is removed and its conflicts are looked for. -/
theorem C6_witness :
    runContract ownIdContract 2 ownIdOps (emptyPool 0, []) = true ∧
    ∃ st1, runOps 2 ownIdOps (emptyPool 0, []) = .ok st1 ∧
      ∀ op ip, st1.1.mapNextTx.find op = some ip →
        ∃ e txin, st1.1.mapTx.find ip.ptx = some e ∧ e.tx.GetHash = ip.ptx ∧
          e.tx.vin[ip.n]? = some txin ∧ txin.prevout = op :=
  ⟨by decide, _, rfl, C6_records_point_at_stored_inputs 2 ownIdOps 0 _ (by decide) rfl⟩

/-- The claim C7 fails after two calls of `add` of transactions that spend the
same outpoint: `mapNextTx` has one record, the stored transactions have two
inputs. -/
theorem C7_counterexample :
    ∃ st1, runOps 0 doubleSpendOps (emptyPool 0, []) = .ok st1 ∧
      st1.1.mapNextTx.size = 1 ∧ st1.1.totalInputs = 2 :=
  ⟨_, rfl, by decide, by decide⟩

/-- Claim C7, amended. After any sequence of calls applied to an empty pool in
which every call is within the caller's contract (`callerContract`), the
number of records of `mapNextTx` is the total number of inputs of the stored
transactions. -/
theorem C7_count_under_contract (fuel : Nat) (ops : List (PoolOp D)) (n0 : Nat)
    (st1 : CTxMemPool D × List CTransaction)
    (hc : runContract callerContract fuel ops (emptyPool n0, []) = true)
    (hrun : runOps fuel ops (emptyPool n0, []) = .ok st1) :
    st1.1.mapNextTx.size = st1.1.totalInputs :=
  (runOps_inv fuel ops (emptyPool n0, []) st1
    ⟨inv1_empty n0, inv2_empty n0, invCount_empty n0⟩ hc hrun).2.2

/-- A run of the amended claim C7 on the first seven calls of `contractOps`. -/
theorem C7_witness :
    runContract callerContract 4 (contractOps.take 7) (emptyPool 0, []) = true ∧
    ∃ st1, runOps 4 (contractOps.take 7) (emptyPool 0, []) = .ok st1 ∧
      st1.1.mapNextTx.size = st1.1.totalInputs ∧ st1.1.totalInputs = 1 :=
  ⟨by decide, _, rfl,
    C7_count_under_contract 4 (contractOps.take 7) 0 _ (by decide) rfl, by decide⟩

/-- The claim C10 fails when the counter holds the largest `unsigned int`:
`add` and `clear` wrap it to 0, which is not greater than it was. -/
theorem C10_counterexample :
    fullCounterPool.nTransactionsUpdated = 4294967295 ∧
    (fullCounterPool.addUnchecked 1 (plainEntry chainTx1)).2.nTransactionsUpdated = 0 ∧
    fullCounterPool.clear.nTransactionsUpdated = 0 ∧
    ¬ (fullCounterPool.nTransactionsUpdated <
        (fullCounterPool.addUnchecked 1 (plainEntry chainTx1)).2.nTransactionsUpdated) := by
  decide

/-- Claim C10, amended. For every pool, `add` and `clear` (also on an empty
pool) set the counter to the old value plus 1 modulo 2^32, and a call of
`remove` that returns sets it to the old value plus `k` modulo 2^32, where `k`
is the number of nodes it erased from `mapTx` (and leaves it as it was when
`k` is 0); the new value is strictly greater than the old one whenever a
node was added, cleared or erased and the sum does not reach 2^32. -/
theorem C10_counter_increments_modulo (pool : CTxMemPool D) :
    (∀ h e, (pool.addUnchecked h e).2.nTransactionsUpdated =
      (pool.nTransactionsUpdated + 1) % UINT_MOD) ∧
    pool.clear.nTransactionsUpdated = (pool.nTransactionsUpdated + 1) % UINT_MOD ∧
    (∀ n, (emptyPool n : CTxMemPool D).clear.nTransactionsUpdated = (n + 1) % UINT_MOD) ∧
    (pool.nTransactionsUpdated + 1 < UINT_MOD →
      (∀ h e, pool.nTransactionsUpdated < (pool.addUnchecked h e).2.nTransactionsUpdated) ∧
      pool.nTransactionsUpdated < pool.clear.nTransactionsUpdated) ∧
    (∀ fuel tx fRecursive removed st1, remove fuel tx fRecursive (pool, removed) = .ok st1 →
      st1.1.mapTx.size ≤ pool.mapTx.size ∧
      (pool.mapTx.size - st1.1.mapTx.size = 0 →
        st1.1.nTransactionsUpdated = pool.nTransactionsUpdated) ∧
      (0 < pool.mapTx.size - st1.1.mapTx.size →
        st1.1.nTransactionsUpdated =
          (pool.nTransactionsUpdated + (pool.mapTx.size - st1.1.mapTx.size)) % UINT_MOD) ∧
      (0 < pool.mapTx.size - st1.1.mapTx.size →
        pool.nTransactionsUpdated + (pool.mapTx.size - st1.1.mapTx.size) < UINT_MOD →
        pool.nTransactionsUpdated < st1.1.nTransactionsUpdated)) := by
  refine ⟨fun _ _ => rfl, rfl, fun _ => rfl, ?_, ?_⟩
  · intro hlt
    have : (pool.nTransactionsUpdated + 1) % UINT_MOD = pool.nTransactionsUpdated + 1 :=
      Nat.mod_eq_of_lt hlt
    refine ⟨fun h e => ?_, ?_⟩
    · show pool.nTransactionsUpdated < (pool.nTransactionsUpdated + 1) % UINT_MOD
      omega
    · show pool.nTransactionsUpdated < (pool.nTransactionsUpdated + 1) % UINT_MOD
      omega
  · intro fuel tx fRecursive removed st1 hrun
    obtain ⟨k, hs, _, hz, hp⟩ := remove_counted fuel tx fRecursive (pool, removed) st1 hrun
    simp only at hs hz hp
    have hk : pool.mapTx.size - st1.1.mapTx.size = k := by omega
    rw [hk]
    refine ⟨by omega, hz, hp, ?_⟩
    intro hpos hlt
    rw [hp hpos, Nat.mod_eq_of_lt hlt]
    omega

/-- A run of the amended claim C10: three transactions erased by one call of
`remove` raise the counter from 3 to 6. -/
theorem C10_witness :
    ∃ st1, remove 4 chainTx1 true (chainPool, []) = .ok st1 ∧
      chainPool.mapTx.size - st1.1.mapTx.size = 3 ∧
      chainPool.nTransactionsUpdated = 3 ∧ st1.1.nTransactionsUpdated = 6 ∧
      chainPool.nTransactionsUpdated < st1.1.nTransactionsUpdated :=
  ⟨_, rfl, by decide, by decide, by decide,
    ((C10_counter_increments_modulo chainPool).2.2.2.2 4 chainTx1 true [] _ rfl).2.2.2
      (by decide) (by decide)⟩

theorem writeFacts_refl (F : DoubleOps D) (pool : CTxMemPool D)
    (st : List (Item D) × List uint256) : WriteFacts F pool st st [] where
  file_eq := by simp
  marked := by simp
  nodup := by simp
  fresh := by simp
  stored := by simp

theorem writeFacts_trans {F : DoubleOps D} {pool : CTxMemPool D}
    {st st1 st2 : List (Item D) × List uint256} {es1 es2 : List (uint256 × CTxMemPoolEntry D)}
    (h1 : WriteFacts F pool st st1 es1) (h2 : WriteFacts F pool st1 st2 es2) :
    WriteFacts F pool st st2 (es1 ++ es2) where
  file_eq := by
    rw [h2.file_eq, h1.file_eq, List.flatMap_append, List.append_assoc]
  marked := by
    intro x
    rw [h2.marked, h1.marked, List.map_append, List.mem_append, or_assoc]
  nodup := by
    rw [List.map_append, List.nodup_append]
    refine ⟨h1.nodup, h2.nodup, ?_⟩
    intro x hx1 hx2
    exact h2.fresh x hx2 ((h1.marked x).mpr (Or.inr hx1))
  fresh := by
    intro x hx hst
    rw [List.map_append, List.mem_append] at hx
    rcases hx with hx | hx
    · exact h1.fresh x hx hst
    · exact h2.fresh x hx ((h1.marked x).mpr (Or.inl hst))
  stored := by
    intro p hp
    rcases List.mem_append.mp hp with hp | hp
    · exact h1.stored p hp
    · exact h2.stored p hp

theorem countP_lt_of_mem {α : Type} (p q : α → Bool) (l : List α) (a : α) (ha : a ∈ l)
    (hq : q a = true) (hp : p a = false) (hpq : ∀ x, p x = true → q x = true) :
    l.countP p < l.countP q := by
  induction l with
  | nil => cases ha
  | cons b rest ih =>
    have hle : rest.countP p ≤ rest.countP q := List.countP_mono_left (fun x _ => hpq x)
    rcases List.mem_cons.mp ha with hab | hmem
    · subst hab
      rw [List.countP_cons_of_pos _ _ hq, List.countP_cons_of_neg _ _ (by simp [hp])]
      omega
    · have := ih hmem
      by_cases hpb : p b = true
      · rw [List.countP_cons_of_pos _ _ hpb, List.countP_cons_of_pos _ _ (hpq b hpb)]
        omega
      · rw [List.countP_cons_of_neg _ _ hpb]
        by_cases hqb : q b = true
        · rw [List.countP_cons_of_pos _ _ hqb]; omega
        · rw [List.countP_cons_of_neg _ _ hqb]; omega

theorem unwritten_le (pool : CTxMemPool D) {aw aw1 : List uint256}
    (h : ∀ x ∈ aw, x ∈ aw1) : unwritten pool aw1 ≤ unwritten pool aw := by
  unfold unwritten
  apply List.countP_mono_left
  intro x _ hx
  simp only [decide_eq_true_eq] at hx ⊢
  exact fun hm => hx (h x hm)

theorem mem_txids_of_find {pool : CTxMemPool D} {k : uint256} {e : CTxMemPoolEntry D}
    (h : pool.mapTx.find k = some e) : k ∈ pool.txids :=
  List.mem_map.mpr ⟨(k, e), (StdMap.find_eq_some_iff _ _ _).mp h, rfl⟩

theorem unwritten_lt (pool : CTxMemPool D) {aw : List uint256} {k : uint256}
    {e : CTxMemPoolEntry D} (hk : pool.mapTx.find k = some e) (hnot : k ∉ aw) :
    unwritten pool (k :: aw) < unwritten pool aw := by
  unfold unwritten
  apply countP_lt_of_mem _ _ _ k (mem_txids_of_find hk)
  · simpa using hnot
  · simp
  · intro x hx
    simp only [List.mem_cons, not_or, decide_eq_true_eq] at hx ⊢
    exact hx.2

theorem topo_snoc {pool : CTxMemPool D} {E : List uint256} (k : uint256) (hE : Topo pool E)
    (hk : ∀ e, pool.mapTx.find k = some e → ∀ txin ∈ e.tx.vin,
      pool.mapTx.count txin.prevout.hash = true → txin.prevout.hash ∈ E) :
    Topo pool (E ++ [k]) := by
  intro i k1 hi e he txin hmem hc
  by_cases hlt : i < E.length
  · rw [List.getElem?_append_left hlt] at hi
    obtain ⟨j, hj, hjE⟩ := hE i k1 hi e he txin hmem hc
    refine ⟨j, hj, ?_⟩
    rw [List.getElem?_append_left (by omega)]
    exact hjE
  · rw [List.getElem?_append_right (by omega)] at hi
    have hi0 : i - E.length = 0 := by
      by_contra hne
      rw [List.getElem?_eq_none (by simp; omega)] at hi
      cases hi
    rw [hi0] at hi
    simp only [List.getElem?_cons_zero, Option.some.injEq] at hi
    subst hi
    obtain ⟨j, hj⟩ := List.mem_iff_getElem?.mp (hk e he txin hmem hc)
    have hjl : j < E.length := (List.getElem?_eq_some.mp hj).1
    refine ⟨j, by omega, ?_⟩
    rw [List.getElem?_append_left hjl]
    exact hj

theorem writeDepsWith_spec (F : DoubleOps D) (pool : CTxMemPool D) (rank : uint256 → Nat)
    (bound : Nat)
    (rec : uint256 → List (Item D) × List uint256 →
      Except Fault (List (Item D) × List uint256))
    (hrec : WriteSpec F pool rank bound rec) (parent : uint256) :
    ∀ (vin : List CTxIn) (st : List (Item D) × List uint256), unwritten pool st.2 < bound →
      ∃ st1 es, writeDepsWith rec pool vin st = .ok st1 ∧ WriteFacts F pool st st1 es ∧
        (DepRankDecreases rank pool → ∀ E, (∀ x ∈ st.2, x ∈ E ∨ rank parent ≤ rank x) →
          (∀ txin ∈ vin, pool.mapTx.count txin.prevout.hash = true →
            rank txin.prevout.hash < rank parent) →
          Topo pool E →
          Topo pool (E ++ es.map (fun p => p.1)) ∧
          ∀ txin ∈ vin, pool.mapTx.count txin.prevout.hash = true →
            txin.prevout.hash ∈ E ++ es.map (fun p => p.1)) := by
  intro vin
  induction vin with
  | nil =>
    intro st _
    refine ⟨st, [], rfl, writeFacts_refl F pool st, ?_⟩
    intro _ E _ _ hE
    simp only [List.map_nil, List.append_nil]
    exact ⟨hE, by simp⟩
  | cons t rest ih =>
    intro st hU
    simp only [writeDepsWith]
    cases hc : pool.mapTx.count t.prevout.hash with
    | false =>
      simp only [Bool.false_eq_true, if_false]
      obtain ⟨st1, es, hrun, hfacts, htopo⟩ := ih st hU
      refine ⟨st1, es, hrun, hfacts, ?_⟩
      intro hrk E hpre hdeps hE
      obtain ⟨hT, hin⟩ := htopo hrk E hpre
        (fun txin hm hcc => hdeps txin (List.mem_cons_of_mem _ hm) hcc) hE
      refine ⟨hT, ?_⟩
      intro txin hm hcc
      rcases List.mem_cons.mp hm with hm | hm
      · subst hm; rw [hc] at hcc; cases hcc
      · exact hin txin hm hcc
    | true =>
      simp only [if_true]
      have hex : ∃ e, pool.mapTx.find t.prevout.hash = some e := by
        simp only [StdMap.count] at hc
        exact Option.isSome_iff_exists.mp hc
      obtain ⟨st0, es0, hrun0, hfacts0, _, htopo0⟩ := hrec t.prevout.hash st hex hU
      simp only [hrun0]
      have hU0 : unwritten pool st0.2 < bound :=
        lt_of_le_of_lt (unwritten_le pool (fun x hx => (hfacts0.marked x).mpr (Or.inl hx))) hU
      obtain ⟨st1, es1, hrun1, hfacts1, htopo1⟩ := ih st0 hU0
      refine ⟨st1, es0 ++ es1, hrun1, writeFacts_trans hfacts0 hfacts1, ?_⟩
      intro hrk E hpre hdeps hE
      have hlt := hdeps t (List.mem_cons_self _ _) hc
      obtain ⟨hT0, hin0⟩ := htopo0 hrk E (fun x hx => by
        rcases hpre x hx with h | h
        · exact Or.inl h
        · exact Or.inr (lt_of_lt_of_le hlt h)) hE
      obtain ⟨hT1, hin1⟩ := htopo1 hrk (E ++ es0.map (fun p => p.1)) (fun x hx => by
        rcases (hfacts0.marked x).mp hx with h | h
        · rcases hpre x h with h | h
          · exact Or.inl (List.mem_append_left _ h)
          · exact Or.inr h
        · exact Or.inl (List.mem_append_right _ h))
        (fun txin hm hcc => hdeps txin (List.mem_cons_of_mem _ hm) hcc) hT0
      rw [List.map_append, ← List.append_assoc]
      refine ⟨hT1, ?_⟩
      intro txin hm hcc
      rcases List.mem_cons.mp hm with hm | hm
      · subst hm
        exact List.mem_append_left _ hin0
      · exact hin1 txin hm hcc

theorem writeEntry_spec (F : DoubleOps D) (pool : CTxMemPool D) (rank : uint256 → Nat) :
    ∀ fuel, WriteSpec F pool rank fuel (fun txid st => writeEntry F pool fuel txid st) := by
  intro fuel
  induction fuel with
  | zero =>
    intro txid st _ hU
    omega
  | succ fuel ih =>
    intro txid st hex hU
    obtain ⟨entry, hentry⟩ := hex
    simp only [writeEntry]
    by_cases hmem : txid ∈ st.2
    · simp only [hmem, if_true]
      refine ⟨st, [], rfl, writeFacts_refl F pool st, hmem, ?_⟩
      intro _ E hpre hE
      simp only [List.map_nil, List.append_nil]
      refine ⟨hE, ?_⟩
      rcases hpre txid hmem with h | h
      · exact h
      · omega
    · simp only [hmem, if_false, hentry]
      have hU1 : unwritten pool (txid :: st.2) < fuel := by
        have := unwritten_lt pool hentry hmem
        omega
      obtain ⟨st0, es0, hrun0, hfacts0, htopo0⟩ :=
        writeDepsWith_spec F pool rank fuel _ ih txid entry.tx.vin (st.1, txid :: st.2) hU1
      simp only [hrun0]
      have hm0 : txid ∈ st0.2 := (hfacts0.marked txid).mpr (Or.inl (List.mem_cons_self _ _))
      have hnot0 : txid ∉ es0.map (fun p => p.1) := fun h =>
        hfacts0.fresh txid h (List.mem_cons_self _ _)
      refine ⟨_, es0 ++ [(txid, entry)], rfl, ?_, hm0, ?_⟩
      · refine ⟨?_, ?_, ?_, ?_, ?_⟩
        · simp only [List.flatMap_append, List.flatMap_cons, List.flatMap_nil, List.append_nil]
          rw [hfacts0.file_eq, List.append_assoc]
        · intro x
          simp only [List.map_append, List.map_cons, List.map_nil, List.mem_append,
            List.mem_singleton]
          rw [hfacts0.marked x]
          simp only [List.mem_cons]
          tauto
        · rw [List.map_append, List.nodup_append]
          refine ⟨hfacts0.nodup, by simp, ?_⟩
          intro x hx1 hx2
          simp only [List.map_cons, List.map_nil, List.mem_singleton] at hx2
          subst hx2
          exact hnot0 hx1
        · intro x hx hst
          simp only [List.map_append, List.map_cons, List.map_nil, List.mem_append,
            List.mem_singleton] at hx
          rcases hx with hx | hx
          · exact hfacts0.fresh x hx (List.mem_cons_of_mem _ hst)
          · subst hx; exact hmem hst
        · intro p hp
          rcases List.mem_append.mp hp with hp | hp
          · exact hfacts0.stored p hp
          · simp only [List.mem_singleton] at hp
            subst hp
            exact hentry
      · intro hrk E hpre hE
        obtain ⟨hT0, hin0⟩ := htopo0 hrk E (fun x hx => by
          rcases List.mem_cons.mp hx with h | h
          · subst h; exact Or.inr (le_refl _)
          · rcases hpre x h with h | h
            · exact Or.inl h
            · exact Or.inr (le_of_lt h))
          (fun txin hm hcc =>
            hrk (txid, entry) ((StdMap.find_eq_some_iff _ _ _).mp hentry) txin hm hcc) hE
        have hsnoc := topo_snoc txid hT0 (fun e he txin hm hcc => by
          rw [hentry] at he
          cases he
          exact hin0 txin hm hcc)
        simp only [List.map_append, List.map_cons, List.map_nil]
        rw [← List.append_assoc]
        exact ⟨hsnoc, by simp⟩

theorem writeAll_spec (F : DoubleOps D) (pool : CTxMemPool D) (rank : uint256 → Nat)
    (fuel : Nat) :
    ∀ (ks : List uint256) (st : List (Item D) × List uint256),
      (∀ k ∈ ks, ∃ e, pool.mapTx.find k = some e) → unwritten pool st.2 < fuel →
      ∃ st1 es, writeAll F pool fuel ks st = .ok st1 ∧ WriteFacts F pool st st1 es ∧
        (∀ k ∈ ks, k ∈ st1.2) ∧
        (DepRankDecreases rank pool → ∀ E, (∀ x ∈ st.2, x ∈ E) → Topo pool E →
          Topo pool (E ++ es.map (fun p => p.1))) := by
  intro ks
  induction ks with
  | nil =>
    intro st _ _
    refine ⟨st, [], rfl, writeFacts_refl F pool st, by simp, ?_⟩
    intro _ E _ hE
    simp only [List.map_nil, List.append_nil]
    exact hE
  | cons k ks ih =>
    intro st hks hU
    simp only [writeAll]
    obtain ⟨st0, es0, hrun0, hfacts0, hk0, htopo0⟩ :=
      writeEntry_spec F pool rank fuel k st (hks k (List.mem_cons_self _ _)) hU
    simp only at hrun0
    simp only [hrun0]
    have hU0 : unwritten pool st0.2 < fuel :=
      lt_of_le_of_lt (unwritten_le pool (fun x hx => (hfacts0.marked x).mpr (Or.inl hx))) hU
    obtain ⟨st1, es1, hrun1, hfacts1, hks1, htopo1⟩ :=
      ih st0 (fun k1 hk1 => hks k1 (List.mem_cons_of_mem _ hk1)) hU0
    refine ⟨st1, es0 ++ es1, hrun1, writeFacts_trans hfacts0 hfacts1, ?_, ?_⟩
    · intro k1 hk1
      rcases List.mem_cons.mp hk1 with h | h
      · subst h
        exact (hfacts1.marked k1).mpr (Or.inl hk0)
      · exact hks1 k1 h
    · intro hrk E hpre hE
      obtain ⟨hT0, _⟩ := htopo0 hrk E (fun x hx => Or.inl (hpre x hx)) hE
      have hT1 := htopo1 hrk (E ++ es0.map (fun p => p.1)) (fun x hx => by
        rcases (hfacts0.marked x).mp hx with h | h
        · exact List.mem_append_left _ (hpre x h)
        · exact List.mem_append_right _ h) hT0
      rw [List.map_append, ← List.append_assoc]
      exact hT1

theorem nodup_entries (pool : CTxMemPool D) : pool.mapTx.entries.Nodup := by
  have h := pool.mapTx.sorted
  exact h.imp (fun {a b} hab heq => by rw [heq] at hab; exact lt_irrefl _ hab)

/-- The function `Write` with enough fuel returns the header followed by the
records of a permutation `es` of the entries, and `es` is in topological order
when the dependency relation has no cycle. -/
theorem Write_spec (F : DoubleOps D) (CLIENT_VERSION : Int) (pool : CTxMemPool D)
    (rank : uint256 → Nat) (fuel : Nat) (hfuel : pool.mapTx.size < fuel) :
    ∃ es : List (uint256 × CTxMemPoolEntry D),
      Write F CLIENT_VERSION fuel pool =
        .ok (snapshotHeader CLIENT_VERSION pool ++ es.flatMap (fun p => entryItems F p.2)) ∧
      es.Perm pool.mapTx.entries ∧
      (DepRankDecreases rank pool → Topo pool (es.map (fun p => p.1))) := by
  have hU : unwritten pool [] < fuel := by
    have : unwritten pool [] ≤ pool.mapTx.size := by
      unfold unwritten StdMap.size txids
      calc List.countP (fun k => decide (k ∉ ([] : List uint256)))
            (pool.mapTx.entries.map (fun p => p.1))
          ≤ (pool.mapTx.entries.map (fun p => p.1)).length := List.countP_le_length _
        _ = pool.mapTx.entries.length := List.length_map _ _
    omega
  obtain ⟨st1, es, hrun, hfacts, hall, htopo⟩ :=
    writeAll_spec F pool rank fuel (pool.mapTx.entries.map (fun p => p.1))
      (snapshotHeader CLIENT_VERSION pool, []) (by
        intro k hk
        obtain ⟨p, hp, hpk⟩ := List.mem_map.mp hk
        exact ⟨p.2, by rw [← hpk]; exact (StdMap.find_eq_some_iff _ _ _).mpr hp⟩) hU
  refine ⟨es, ?_, ?_, ?_⟩
  · simp only [Write]
    have hrun1 : writeAll F pool fuel (pool.mapTx.entries.map (fun p => p.1))
        ([Item.int32 CLIENT_VERSION, Item.int32 CLIENT_VERSION, Item.size pool.mapTx.size], [])
        = .ok st1 := hrun
    rw [hrun1]
    simp only
    rw [hfacts.file_eq]
  · have hnd : es.Nodup := List.Nodup.of_map _ hfacts.nodup
    rw [List.perm_ext_iff_of_nodup hnd (nodup_entries pool)]
    intro p
    constructor
    · intro hp
      exact (StdMap.find_eq_some_iff _ _ _).mp (hfacts.stored p hp)
    · intro hp
      have hk : p.1 ∈ st1.2 := hall p.1 (List.mem_map.mpr ⟨p, hp, rfl⟩)
      rcases (hfacts.marked p.1).mp hk with h | h
      · cases h
      · obtain ⟨q, hq, hqk⟩ := List.mem_map.mp h
        have h1 := hfacts.stored q hq
        have h2 := (StdMap.find_eq_some_iff _ _ _).mpr hp
        rw [hqk, h2] at h1
        have : q = p := by
          cases q; cases p
          simp only at hqk h1
          simp only [Option.some.injEq] at h1
          rw [hqk, h1]
        rw [← this]
        exact hq
  · intro hrk
    have := htopo hrk [] (by simp) (by intro i k hi; simp at hi)
    simpa using this

theorem exists_replay (es : List (uint256 × CTxMemPoolEntry D)) (k : uint256) :
    (replay es).exists_ k = true ↔ k ∈ es.map (fun p => p.1) := by
  have key : ∀ (l : List (uint256 × CTxMemPoolEntry D)) (init : CTxMemPool D),
      (l.foldl (fun acc p => (acc.addUnchecked p.1 p.2).2) init).exists_ k = true ↔
        init.exists_ k = true ∨ k ∈ l.map (fun p => p.1) := by
    intro l
    induction l with
    | nil => intro init; simp
    | cons p rest ih =>
      intro init
      simp only [List.foldl_cons, List.map_cons, List.mem_cons]
      rw [ih]
      have : (init.addUnchecked p.1 p.2).2.exists_ k = true ↔
          init.exists_ k = true ∨ k = p.1 := by
        simp only [exists_, StdMap.count, addUnchecked, StdMap.find_insert]
        by_cases hk : p.1 = k
        · simp [hk]
        · have : ¬ k = p.1 := fun h => hk h.symm
          simp [hk, this]
      rw [this]
      tauto
  rw [replay, key]
  simp [emptyPool, exists_, StdMap.count, StdMap.find_empty]

theorem readEntries_records (F : DoubleOps D) (GetSerializeSize : CTransaction → Nat) :
    ∀ (es : List (uint256 × CTxMemPoolEntry D)) (rest : List (Item D))
      (vecEntries : List (CTxMemPoolEntry D)),
      readEntries GetSerializeSize es.length
          (es.flatMap (fun p => entryItems F p.2) ++ rest) vecEntries =
        (true, vecEntries ++ es.map (fun p => restored F GetSerializeSize p.2)) := by
  intro es
  induction es with
  | nil => intro rest vecEntries; simp [readEntries]
  | cons p es ih =>
    intro rest vecEntries
    have hcons : (p :: es).flatMap (fun p => entryItems F p.2) ++ rest =
        Item.tx p.2.tx :: Item.int64 p.2.nFee :: Item.int64 p.2.nTime ::
          Item.double (p.2.GetPriority F p.2.nHeight) :: Item.uint32 p.2.nHeight ::
          (es.flatMap (fun p => entryItems F p.2) ++ rest) := by
      simp [List.flatMap_cons, entryItems]
    rw [hcons, List.length_cons]
    simp only [readEntries]
    rw [ih]
    simp [restored]

/-- Claim C8. For every pool whose in-pool dependency relation has no cycle,
`Write` with enough fuel returns the header followed by the records of the
entries in an order `es` that is a permutation of `mapTx` and topological: for
every emitted entry and every input whose spent id is a key of `mapTx`, the
entry of that key is emitted strictly before; hence replaying `es` with
successive calls of `add` into an empty pool finds every such key already
added. -/
theorem C8_write_topological_order (F : DoubleOps D) (CLIENT_VERSION : Int)
    (pool : CTxMemPool D) (rank : uint256 → Nat) (hacyc : DepRankDecreases rank pool)
    (fuel : Nat) (hfuel : pool.mapTx.size < fuel) :
    ∃ es : List (uint256 × CTxMemPoolEntry D),
      Write F CLIENT_VERSION fuel pool =
        .ok (snapshotHeader CLIENT_VERSION pool ++ es.flatMap (fun p => entryItems F p.2)) ∧
      es.Perm pool.mapTx.entries ∧
      (∀ (i : Nat) p, es[i]? = some p → ∀ txin ∈ p.2.tx.vin,
        pool.exists_ txin.prevout.hash = true →
        ∃ (j : Nat) (q : uint256 × CTxMemPoolEntry D),
          j < i ∧ es[j]? = some q ∧ q.1 = txin.prevout.hash) ∧
      (∀ (i : Nat) p, es[i]? = some p → ∀ txin ∈ p.2.tx.vin,
        pool.exists_ txin.prevout.hash = true →
        (replay (es.take i)).exists_ txin.prevout.hash = true) := by
  obtain ⟨es, hrun, hperm, htopo⟩ := Write_spec F CLIENT_VERSION pool rank fuel hfuel
  have hT := htopo hacyc
  have hprec : ∀ (i : Nat) p, es[i]? = some p → ∀ txin ∈ p.2.tx.vin,
      pool.exists_ txin.prevout.hash = true →
      ∃ (j : Nat) (q : uint256 × CTxMemPoolEntry D),
        j < i ∧ es[j]? = some q ∧ q.1 = txin.prevout.hash := by
    intro i p hi txin hm hc
    have hpmem : p ∈ pool.mapTx.entries :=
      hperm.subset (List.mem_iff_getElem?.mpr ⟨i, hi⟩)
    have hfind : pool.mapTx.find p.1 = some p.2 :=
      (StdMap.find_eq_some_iff _ _ _).mpr hpmem
    have hik : (es.map (fun p => p.1))[i]? = some p.1 := by
      rw [List.getElem?_map, hi]; rfl
    obtain ⟨j, hj, hjk⟩ := hT i p.1 hik p.2 hfind txin hm hc
    rw [List.getElem?_map] at hjk
    cases hq : es[j]? with
    | none => rw [hq] at hjk; cases hjk
    | some q =>
      rw [hq] at hjk
      simp only [Option.map_some', Option.some.injEq] at hjk
      exact ⟨j, q, hj, hq, hjk⟩
  refine ⟨es, hrun, hperm, hprec, ?_⟩
  intro i p hi txin hm hc
  obtain ⟨j, q, hj, hq, hqk⟩ := hprec i p hi txin hm hc
  rw [exists_replay]
  refine List.mem_map.mpr ⟨q, ?_, hqk⟩
  apply List.mem_iff_getElem?.mpr
  exact ⟨j, by rw [List.getElem?_take_of_lt hj]; exact hq⟩

/-- A run of claim C8 on `reversePool`: the entry of id 2 is written before
the entry of id 1 that spends from it. -/
theorem C8_witness :
    DepRankDecreases (fun h => 3 - h) reversePool ∧ reversePool.mapTx.size < 3 ∧
    (∃ es : List (uint256 × CTxMemPoolEntry Nat),
      Write natOps 90000 3 reversePool =
        .ok (snapshotHeader 90000 reversePool ++ es.flatMap (fun p => entryItems natOps p.2)) ∧
      ∀ (i : Nat) p, es[i]? = some p → ∀ txin ∈ p.2.tx.vin,
        reversePool.exists_ txin.prevout.hash = true →
        ∃ (j : Nat) (q : uint256 × CTxMemPoolEntry Nat),
          j < i ∧ es[j]? = some q ∧ q.1 = txin.prevout.hash) ∧
    Write natOps 90000 3 reversePool =
      .ok (snapshotHeader 90000 reversePool ++
        entryItems natOps (plainEntry ⟨2, [⟨⟨100, 0⟩⟩], [⟨5, []⟩]⟩) ++
        entryItems natOps (plainEntry ⟨1, [⟨⟨2, 0⟩⟩], [⟨4, []⟩]⟩)) :=
  ⟨by decide, by decide,
    (C8_write_topological_order natOps 90000 reversePool (fun h => 3 - h) (by decide) 3
      (by decide)).elim fun es h => ⟨es, h.1, h.2.2.1⟩,
    by decide⟩

/-- Claim C9. For every pool whose entries cache the serialized size of their
transaction, `Write` with enough fuel returns a file whose count header is the
number of records and whose records are those of the entries, each once;
`Read` of that file returns true and appends, in the order of the file, one
entry per record, and these are, up to order, the entries of the pool with
the fee replaced by 0 and the priority replaced by the priority at the
entry's own height (transaction, time, height and size unchanged). -/
theorem C9_read_of_write_restores_entries (F : DoubleOps D)
    (GetSerializeSize : CTransaction → Nat) (CLIENT_VERSION : Int) (pool : CTxMemPool D)
    (fuel : Nat) (hfuel : pool.mapTx.size < fuel)
    (hsize : ∀ p ∈ pool.mapTx.entries, p.2.nTxSize = GetSerializeSize p.2.tx)
    (vecEntries : List (CTxMemPoolEntry D)) :
    ∃ es : List (uint256 × CTxMemPoolEntry D),
      Write F CLIENT_VERSION fuel pool =
        .ok (snapshotHeader CLIENT_VERSION pool ++ es.flatMap (fun p => entryItems F p.2)) ∧
      es.Perm pool.mapTx.entries ∧ es.length = pool.mapTx.size ∧
      Read GetSerializeSize CLIENT_VERSION
          (some (snapshotHeader CLIENT_VERSION pool ++ es.flatMap (fun p => entryItems F p.2)))
          vecEntries =
        (true, vecEntries ++ es.map (fun p => restored F GetSerializeSize p.2)) ∧
      (es.map (fun p => restored F GetSerializeSize p.2)).Perm
        (pool.mapTx.entries.map (fun p =>
          { p.2 with nFee := 0, dPriority := p.2.GetPriority F p.2.nHeight })) := by
  obtain ⟨es, hrun, hperm, _⟩ := Write_spec F CLIENT_VERSION pool (fun _ => 0) fuel hfuel
  have hlen : es.length = pool.mapTx.size := hperm.length_eq
  refine ⟨es, hrun, hperm, hlen, ?_, ?_⟩
  · have h := readEntries_records F GetSerializeSize es [] vecEntries
    rw [List.append_nil, hlen] at h
    simp only [Read, snapshotHeader, List.cons_append, List.nil_append, gt_iff_lt,
      lt_self_iff_false, if_false]
    exact h
  · have h1 := hperm.map (fun p => restored F GetSerializeSize p.2)
    have h2 : pool.mapTx.entries.map (fun p => restored F GetSerializeSize p.2) =
        pool.mapTx.entries.map (fun p =>
          { p.2 with nFee := 0, dPriority := p.2.GetPriority F p.2.nHeight }) := by
      apply List.map_congr_left
      intro p hp
      simp only [restored, CTxMemPoolEntry.create]
      rw [← hsize p hp]
    rw [h2] at h1
    exact h1

/-- A run of claim C9 on `reversePool`. -/
theorem C9_witness :
    reversePool.mapTx.size < 3 ∧
    (∀ p ∈ reversePool.mapTx.entries,
      p.2.nTxSize = (fun t => 10 + t.vin.length + t.vout.length) p.2.tx) ∧
    ∃ es : List (uint256 × CTxMemPoolEntry Nat),
      Write natOps 90000 3 reversePool =
        .ok (snapshotHeader 90000 reversePool ++ es.flatMap (fun p => entryItems natOps p.2)) ∧
      es.length = reversePool.mapTx.size ∧
      Read (fun t => 10 + t.vin.length + t.vout.length) 90000
          (some (snapshotHeader 90000 reversePool ++
            es.flatMap (fun p => entryItems natOps p.2))) [] =
        (true, [] ++ es.map (fun p =>
          restored natOps (fun t => 10 + t.vin.length + t.vout.length) p.2)) :=
  ⟨by decide, by decide,
    (C9_read_of_write_restores_entries natOps (fun t => 10 + t.vin.length + t.vout.length)
      90000 reversePool 3 (by decide) (by decide) []).elim
      fun es h => ⟨es, h.1, h.2.2.1, h.2.2.2.1⟩⟩

end CTxMemPool

/-! ### Coins, consensus limits and reading snapshots -/

namespace CTxMemPool

variable {D : Type}

/-- Claim C12. For every pool and every transaction whose id is not a key of
`mapTx`, `remove(tx, removed, false)` returns and leaves `mapTx`, `mapNextTx`,
the counter and the list `removed` exactly as they were. -/
theorem C12_remove_absent_nonrecursive_is_noop (pool : CTxMemPool D) (tx : CTransaction)
    (removed : List CTransaction) (hnot : pool.exists_ tx.GetHash = false) (fuel : Nat) :
    remove (fuel + 1) tx false (pool, removed) = .ok (pool, removed) := by
  simp only [exists_] at hnot
  simp [remove, removeEntry, hnot]

/-- A run of claim C12: T3 is not in the pool that holds T1 only. -/
theorem C12_witness :
    conflictPool.exists_ chainTx3.GetHash = false ∧
    remove 1 chainTx3 false (conflictPool, [chainTx2]) = .ok (conflictPool, [chainTx2]) :=
  ⟨by decide, C12_remove_absent_nonrecursive_is_noop conflictPool chainTx3 [chainTx2]
    (by decide) 0⟩

end CTxMemPool

namespace CCoinsViewMemPool

variable {D : Type}

/-- Claim C13. For every base view, every pool and every id, the overlay's
`GetCoins` returns the coins of the base view whenever the base view has them
(also when the pool holds the id); otherwise, when the pool holds the id, the
coins built from the stored transaction with height `MEMPOOL_HEIGHT`, whose
outputs are the outputs of that transaction; otherwise nothing. -/
theorem C13_overlay_GetCoins (MEMPOOL_HEIGHT : Nat) (base : CCoinsView)
    (mempool : CTxMemPool D) (txid : uint256) :
    (∀ coins, base.GetCoins txid = some coins →
      GetCoins MEMPOOL_HEIGHT base mempool txid = some coins) ∧
    (∀ tx, base.GetCoins txid = none → mempool.lookup txid = some tx →
      GetCoins MEMPOOL_HEIGHT base mempool txid = some (CCoins.fromTx tx MEMPOOL_HEIGHT) ∧
      (CCoins.fromTx tx MEMPOOL_HEIGHT).nHeight = MEMPOOL_HEIGHT ∧
      (CCoins.fromTx tx MEMPOOL_HEIGHT).vout = tx.vout.map some ∧
      ∀ n, (CCoins.fromTx tx MEMPOOL_HEIGHT).IsAvailable n = decide (n < tx.vout.length)) ∧
    (base.GetCoins txid = none → mempool.lookup txid = none →
      GetCoins MEMPOOL_HEIGHT base mempool txid = none) := by
  refine ⟨?_, ?_, ?_⟩
  · intro coins h
    simp [GetCoins, h]
  · intro tx h1 h2
    refine ⟨by simp [GetCoins, h1, h2], rfl, rfl, ?_⟩
    intro n
    simp only [CCoins.IsAvailable, CCoins.fromTx, List.getElem?_map]
    by_cases hn : n < tx.vout.length
    · simp [List.getElem?_eq_getElem hn, hn]
    · simp [List.getElem?_eq_none (Nat.le_of_not_lt hn), hn]
  · intro h1 h2
    simp [GetCoins, h1, h2]

/-- A run of claim C13 over the pool of scenario 3: the id 1 is answered by
the base view, the id 2 by the pool, the id 9 by neither. -/
theorem C13_witness :
    GetCoins 2147483647 CTxMemPool.baseViewOne CTxMemPool.chainPool 1 =
      some ⟨[some ⟨9, []⟩], 3⟩ ∧
    GetCoins 2147483647 CTxMemPool.baseViewOne CTxMemPool.chainPool 2 =
      some (CCoins.fromTx CTxMemPool.chainTx2 2147483647) ∧
    GetCoins 2147483647 CTxMemPool.baseViewOne CTxMemPool.chainPool 9 = none :=
  have h1 := C13_overlay_GetCoins 2147483647 CTxMemPool.baseViewOne CTxMemPool.chainPool 1
  have h2 := C13_overlay_GetCoins 2147483647 CTxMemPool.baseViewOne CTxMemPool.chainPool 2
  have h9 := C13_overlay_GetCoins 2147483647 CTxMemPool.baseViewOne CTxMemPool.chainPool 9
  ⟨h1.1 _ (by decide), (h2.2.1 _ (by decide) (by decide)).1, h9.2.2 (by decide) (by decide)⟩

/-- Claim C14. For every base view, every pool and every id, the overlay's
`HaveCoins` is true if and only if the pool contains the id or the base view
has coins for it. -/
theorem C14_overlay_HaveCoins (base : CCoinsView) (mempool : CTxMemPool D) (txid : uint256) :
    HaveCoins base mempool txid = true ↔
      mempool.exists_ txid = true ∨ base.HaveCoins txid = true := by
  simp [HaveCoins]

end CCoinsViewMemPool

/-- Claim C15. For every timestamp, `MaxBlockSize` is 1,000,000 before
`TWENTY_MEG_FORK_TIME` (1,456,790,400) and 20,000,000 from it on; so, a block
of size `s` being valid at `ts` when `s <= MaxBlockSize(ts)`, one second before
the fork the size 1,000,000 is valid and 1,000,001 and 20,000,000 are not, and
at the fork 20,000,000 is valid and 20,000,001 is not. -/
theorem C15_MaxBlockSize_values (ts : Nat) :
    TWENTY_MEG_FORK_TIME = 1456790400 ∧
    MaxBlockSize ts = (if ts < 1456790400 then 1000000 else 20000000) ∧
    (1000000 ≤ MaxBlockSize (TWENTY_MEG_FORK_TIME - 1) ∧
      ¬ 1000001 ≤ MaxBlockSize (TWENTY_MEG_FORK_TIME - 1) ∧
      ¬ 20000000 ≤ MaxBlockSize (TWENTY_MEG_FORK_TIME - 1)) ∧
    (20000000 ≤ MaxBlockSize TWENTY_MEG_FORK_TIME ∧
      ¬ 20000001 ≤ MaxBlockSize TWENTY_MEG_FORK_TIME) := by
  refine ⟨rfl, ?_, by decide, by decide⟩
  unfold MaxBlockSize TWENTY_MEG_FORK_TIME
  split_ifs <;> rfl

/-- Claim C16. For every timestamp, `MaxBlockSigops` is `MaxBlockSize` divided
by 50, the division leaves no remainder and both values fit in 32 bits: 20,000
before the fork time and 400,000 from it on. -/
theorem C16_MaxBlockSigops_values (ts : Nat) :
    MaxBlockSigops ts = MaxBlockSize ts / 50 ∧
    MaxBlockSize ts % 50 = 0 ∧ MaxBlockSigops ts * 50 = MaxBlockSize ts ∧
    MaxBlockSize ts < 2 ^ 32 ∧ MaxBlockSigops ts < 2 ^ 32 ∧
    MaxBlockSigops ts = (if ts < TWENTY_MEG_FORK_TIME then 20000 else 400000) := by
  unfold MaxBlockSigops MaxBlockSize
  split_ifs <;> decide

/-- Claim C17. For timestamps `t <= t1`, `MaxBlockSize t <= MaxBlockSize t1`, so
a size that is valid at `t` is valid at `t1`; a block of 1,000,000 bytes is valid
before the fork, at the fork time and a year after it; and from the fork time
on the limit is 20,000,000. -/
theorem C17_MaxBlockSize_monotone (t t1 : Nat) (h : t ≤ t1) :
    MaxBlockSize t ≤ MaxBlockSize t1 ∧
    (∀ s, s ≤ MaxBlockSize t → s ≤ MaxBlockSize t1) ∧
    (1000000 ≤ MaxBlockSize (TWENTY_MEG_FORK_TIME - 1) ∧
      1000000 ≤ MaxBlockSize TWENTY_MEG_FORK_TIME ∧
      1000000 ≤ MaxBlockSize (TWENTY_MEG_FORK_TIME + 60 * 60 * 24 * 365)) ∧
    (TWENTY_MEG_FORK_TIME ≤ t → MaxBlockSize t1 = 20000000 ∧ MaxBlockSize t = 20000000) := by
  have hmono : MaxBlockSize t ≤ MaxBlockSize t1 := by
    unfold MaxBlockSize
    split_ifs <;> omega
  refine ⟨hmono, fun s hs => le_trans hs hmono, by decide, ?_⟩
  intro hf
  unfold MaxBlockSize
  have h1 : ¬ t < TWENTY_MEG_FORK_TIME := by omega
  have h2 : ¬ t1 < TWENTY_MEG_FORK_TIME := by omega
  simp [h1, h2]

/-- A run of claim C17 from one second before the fork to a year after it. -/
theorem C17_witness :
    TWENTY_MEG_FORK_TIME - 1 ≤ TWENTY_MEG_FORK_TIME + 60 * 60 * 24 * 365 ∧
    MaxBlockSize (TWENTY_MEG_FORK_TIME - 1) ≤
      MaxBlockSize (TWENTY_MEG_FORK_TIME + 60 * 60 * 24 * 365) :=
  ⟨by decide,
    (C17_MaxBlockSize_monotone (TWENTY_MEG_FORK_TIME - 1)
      (TWENTY_MEG_FORK_TIME + 60 * 60 * 24 * 365) (by decide)).1⟩

theorem outPoint_lt_iff (a b : COutPoint) :
    a < b ↔ a.hash < b.hash ∨ (a.hash = b.hash ∧ a.n < b.n) := by
  show toLex (a.hash, a.n) < toLex (b.hash, b.n) ↔ _
  rw [Prod.Lex.lt_iff]

theorem takeWhile_eq_filter_of_initial {α : Type} (p : α → Bool) (l : List α)
    (h : l.Pairwise (fun a b => p b = true → p a = true)) : l.takeWhile p = l.filter p := by
  induction l with
  | nil => rfl
  | cons a rest ih =>
    rw [List.pairwise_cons] at h
    by_cases hp : p a = true
    · rw [List.takeWhile_cons_of_pos hp, List.filter_cons_of_pos hp, ih h.2]
    · rw [List.takeWhile_cons_of_neg hp, List.filter_cons_of_neg hp]
      symm
      rw [List.filter_eq_nil_iff]
      intro b hb hpb
      exact hp (h.1 b hb hpb)

theorem dropWhile_eq_filter_of_initial {α : Type} (p : α → Bool) (l : List α)
    (h : l.Pairwise (fun a b => p b = true → p a = true)) :
    l.dropWhile p = l.filter (fun x => !p x) := by
  induction l with
  | nil => rfl
  | cons a rest ih =>
    rw [List.pairwise_cons] at h
    by_cases hp : p a = true
    · rw [List.dropWhile_cons_of_pos hp, List.filter_cons_of_neg (by simp [hp]), ih h.2]
    · rw [List.dropWhile_cons_of_neg hp, List.filter_cons_of_pos (by simp [hp])]
      congr 1
      symm
      rw [List.filter_eq_self]
      intro b hb
      by_contra hpb
      simp only [Bool.not_eq_true', Bool.not_eq_false] at hpb
      exact hp (h.1 b hb hpb)

namespace CTxMemPool

variable {D : Type}

theorem pruneLoop_eq_foldl (hashTx : uint256) :
    ∀ (l : List (COutPoint × CInPoint)) (coins : CCoins),
      pruneLoop hashTx l coins =
        (l.takeWhile (fun p => decide (p.1.hash = hashTx))).foldl
          (fun c p => c.Spend p.1.n) coins := by
  intro l
  induction l with
  | nil => intro coins; rfl
  | cons p rest ih =>
    intro coins
    by_cases hp : p.1.hash = hashTx
    · simp only [pruneLoop, hp, if_true, List.takeWhile_cons, decide_True, List.foldl_cons]
      exact ih _
    · simp [pruneLoop, hp, List.takeWhile_cons]

/-- The records `pruneSpent` visits are exactly the records whose key has the
hash `hashTx`. -/
theorem pruneSpent_eq_foldl (pool : CTxMemPool D) (hashTx : uint256) (coins : CCoins) :
    pool.pruneSpent hashTx coins =
      (pool.mapNextTx.entries.filter (fun p => decide (p.1.hash = hashTx))).foldl
        (fun c p => c.Spend p.1.n) coins := by
  unfold pruneSpent
  rw [pruneLoop_eq_foldl]
  have hs := pool.mapNextTx.sorted
  have h1 : pool.mapNextTx.entries.Pairwise (fun a b =>
      (fun p : COutPoint × CInPoint => decide (p.1 < (⟨hashTx, 0⟩ : COutPoint))) b = true →
      (fun p : COutPoint × CInPoint => decide (p.1 < (⟨hashTx, 0⟩ : COutPoint))) a = true) := by
    refine hs.imp ?_
    intro a b hab hb
    simp only [decide_eq_true_eq] at hb ⊢
    exact lt_trans hab hb
  rw [dropWhile_eq_filter_of_initial _ _ h1]
  have hf : (fun x : COutPoint × CInPoint =>
      !(fun p : COutPoint × CInPoint => decide (p.1 < (⟨hashTx, 0⟩ : COutPoint))) x) =
      (fun x => decide (¬ x.1 < (⟨hashTx, 0⟩ : COutPoint))) := by
    funext x
    by_cases hx : x.1 < (⟨hashTx, 0⟩ : COutPoint) <;> simp [hx]
  rw [hf]
  have h2 : (pool.mapNextTx.entries.filter
      (fun x => decide (¬ x.1 < (⟨hashTx, 0⟩ : COutPoint)))).Pairwise
      (fun a b =>
      (fun p : COutPoint × CInPoint => decide (p.1.hash = hashTx)) b = true →
      (fun p : COutPoint × CInPoint => decide (p.1.hash = hashTx)) a = true) := by
    rw [List.pairwise_filter]
    refine hs.imp ?_
    intro a b hab ha _ hb
    simp only [decide_eq_true_eq] at hb ⊢
    rw [outPoint_lt_iff] at hab ha
    have ha1 : ¬ a.1.hash < hashTx := fun h => ha (Or.inl h)
    rcases hab with hlt | ⟨heq, _⟩
    · exfalso
      apply ha1
      rw [← hb]
      exact hlt
    · rw [heq]
      exact hb
  rw [takeWhile_eq_filter_of_initial _ _ h2, List.filter_filter]
  congr 2
  funext p
  by_cases hp : p.1.hash = hashTx
  · simp [hp, outPoint_lt_iff]
  · simp [hp]

theorem spendAll_facts :
    ∀ (L : List (COutPoint × CInPoint)) (coins : CCoins),
      (L.foldl (fun c p => c.Spend p.1.n) coins).nHeight = coins.nHeight ∧
      (L.foldl (fun c p => c.Spend p.1.n) coins).vout.length = coins.vout.length ∧
      ∀ n, (L.foldl (fun c p => c.Spend p.1.n) coins).vout[n]? =
        if (∃ p ∈ L, p.1.n = n) ∧ n < coins.vout.length then some none else coins.vout[n]? := by
  intro L
  induction L with
  | nil => intro coins; simp
  | cons p rest ih =>
    intro coins
    obtain ⟨hh, hl, hv⟩ := ih (coins.Spend p.1.n)
    simp only [List.foldl_cons]
    refine ⟨by rw [hh]; rfl, by rw [hl]; simp [CCoins.Spend], ?_⟩
    intro n
    rw [hv n]
    simp only [CCoins.Spend, List.length_set, List.mem_cons, exists_eq_or_imp, List.getElem?_set]
    by_cases hn : n < coins.vout.length
    · by_cases hr : ∃ a ∈ rest, a.1.n = n
      · simp [hn, hr]
      · by_cases hpn : p.1.n = n
        · simp [hn, hr, hpn]
        · simp [hn, hr, hpn]
    · have hnone : coins.vout[n]? = none := List.getElem?_eq_none (Nat.le_of_not_lt hn)
      by_cases hpn : p.1.n = n
      · subst hpn
        simp [hn, hnone]
      · simp [hn, hpn]

theorem count_next_iff (pool : CTxMemPool D) (txid : uint256) (n : Nat) :
    pool.mapNextTx.count ⟨txid, n⟩ = true ↔
      ∃ p ∈ pool.mapNextTx.entries.filter (fun p => decide (p.1.hash = txid)), p.1.n = n := by
  simp only [StdMap.count, Option.isSome_iff_exists, StdMap.find_eq_some_iff, List.mem_filter,
    decide_eq_true_eq]
  constructor
  · rintro ⟨ip, hip⟩
    exact ⟨(⟨txid, n⟩, ip), ⟨hip, rfl⟩, rfl⟩
  · rintro ⟨p, ⟨hp, hh⟩, hn⟩
    refine ⟨p.2, ?_⟩
    have : p = (⟨txid, n⟩, p.2) := by
      obtain ⟨⟨a, b⟩, c⟩ := p
      simp only at hh hn
      subst hh hn
      rfl
    rw [← this]
    exact hp

/-- Claim C11. For every pool, every id and every coin record, `pruneSpent`
marks as spent exactly the outputs `n` for which `mapNextTx` has a record with
key `(txid, n)`: such an output ends spent, every other output and the height
are as they were; when no record has the hash `txid` the coins are returned
unmodified; the lower-bound seek followed by the loop visits the records whose
key has the hash `txid` and no other. -/
theorem C11_pruneSpent_marks_recorded_outputs (pool : CTxMemPool D) (txid : uint256)
    (coins : CCoins) :
    (∀ n, pool.mapNextTx.count ⟨txid, n⟩ = true →
      (pool.pruneSpent txid coins).IsAvailable n = false ∧
      (n < coins.vout.length → (pool.pruneSpent txid coins).vout[n]? = some none)) ∧
    (∀ n, pool.mapNextTx.count ⟨txid, n⟩ = false →
      (pool.pruneSpent txid coins).vout[n]? = coins.vout[n]? ∧
      (pool.pruneSpent txid coins).IsAvailable n = coins.IsAvailable n) ∧
    (pool.pruneSpent txid coins).vout.length = coins.vout.length ∧
    (pool.pruneSpent txid coins).nHeight = coins.nHeight ∧
    ((∀ r ∈ pool.mapNextTx.entries, r.1.hash ≠ txid) → pool.pruneSpent txid coins = coins) ∧
    pool.pruneSpent txid coins =
      (pool.mapNextTx.entries.filter (fun p => decide (p.1.hash = txid))).foldl
        (fun c p => c.Spend p.1.n) coins := by
  have heq := pruneSpent_eq_foldl pool txid coins
  obtain ⟨hh, hl, hv⟩ :=
    spendAll_facts (pool.mapNextTx.entries.filter (fun p => decide (p.1.hash = txid))) coins
  rw [← heq] at hh hl hv
  refine ⟨?_, ?_, hl, hh, ?_, heq⟩
  · intro n hc
    have hex := (count_next_iff pool txid n).mp hc
    have hvn := hv n
    by_cases hn : n < coins.vout.length
    · rw [if_pos ⟨hex, hn⟩] at hvn
      exact ⟨by simp [CCoins.IsAvailable, hvn], fun _ => hvn⟩
    · rw [if_neg (fun h => hn h.2), List.getElem?_eq_none (Nat.le_of_not_lt hn)] at hvn
      exact ⟨by simp [CCoins.IsAvailable, hvn], fun h => absurd h hn⟩
  · intro n hc
    have hex : ¬ ∃ p ∈ pool.mapNextTx.entries.filter (fun p => decide (p.1.hash = txid)),
        p.1.n = n := by
      intro h
      rw [(count_next_iff pool txid n).mpr h] at hc
      cases hc
    have hvn := hv n
    rw [if_neg (fun h => hex h.1)] at hvn
    exact ⟨hvn, by simp [CCoins.IsAvailable, hvn]⟩
  · intro hno
    rw [heq]
    have : pool.mapNextTx.entries.filter (fun p => decide (p.1.hash = txid)) = [] := by
      rw [List.filter_eq_nil_iff]
      intro r hr
      simpa using hno r hr
    rw [this]
    rfl

end CTxMemPool

namespace CTxMemPool

variable {D : Type}

/-- A run of claim C11 on the pool of scenario 3: output 0 of T1 is spent by
T2, and no record spends an output of the id 7. -/
theorem C11_witness :
    chainPool.mapNextTx.count ⟨1, 0⟩ = true ∧
    (chainPool.pruneSpent 1 (CCoins.fromTx chainTx1 5)).IsAvailable 0 = false ∧
    chainPool.pruneSpent 7 (CCoins.fromTx chainTx1 5) = CCoins.fromTx chainTx1 5 :=
  ⟨by decide,
    ((C11_pruneSpent_marks_recorded_outputs chainPool 1 (CCoins.fromTx chainTx1 5)).1 0
      (by decide)).1,
    (C11_pruneSpent_marks_recorded_outputs chainPool 7 (CCoins.fromTx chainTx1 5)).2.2.2.2.1
      (by decide)⟩

/-- The claim C18 fails when the query height is below the entry height: the
difference of the two `unsigned int` wraps around. For an entry of height 1
queried at height 0, `GetPriority` is 4294967295 where the formula with the
difference -1 gives -1. -/
theorem C18_counterexample :
    heightOneEntry.GetPriority intOps 0 = 4294967295 ∧
    specPriority intOps heightOneEntry 0 = -1 ∧
    heightOneEntry.GetPriority intOps 0 ≠ specPriority intOps heightOneEntry 0 := by
  decide

/-- Claim C18, amended. For every entry and every query height `h`,
`GetPriority(h)` is `dPriority + ((double)d * nValueIn) / nTxSize`, where `d`
is the difference of the two heights as `unsigned int`, `h - nHeight` when
`nHeight <= h` and `2^32 + h - nHeight` when `h < nHeight` (heights below
2^32), and `nValueIn` is the sum of the output values plus the fee as
`int64_t`: a number between -2^63 and 2^63 - 1 that differs from the exact sum
by a multiple of 2^64, and is the exact sum when that lies in this range. -/
theorem C18_GetPriority_unsigned_difference (F : DoubleOps D) (e : CTxMemPoolEntry D)
    (h : Nat) (hh : h < UINT_MOD) (he : e.nHeight < UINT_MOD) :
    (e.nHeight ≤ h →
      e.GetPriority F h = F.add e.dPriority
        (F.div (F.mul (F.ofUInt (h - e.nHeight))
          (F.ofInt64 (wrapInt64 (e.tx.GetValueOut + e.nFee)))) (F.ofUInt e.nTxSize))) ∧
    (h < e.nHeight →
      e.GetPriority F h = F.add e.dPriority
        (F.div (F.mul (F.ofUInt (UINT_MOD + h - e.nHeight))
          (F.ofInt64 (wrapInt64 (e.tx.GetValueOut + e.nFee)))) (F.ofUInt e.nTxSize))) ∧
    (-9223372036854775808 ≤ wrapInt64 (e.tx.GetValueOut + e.nFee) ∧
      wrapInt64 (e.tx.GetValueOut + e.nFee) ≤ 9223372036854775807 ∧
      ∃ k : Int, wrapInt64 (e.tx.GetValueOut + e.nFee) =
        e.tx.GetValueOut + e.nFee + k * 18446744073709551616) ∧
    (-9223372036854775808 ≤ e.tx.GetValueOut + e.nFee →
      e.tx.GetValueOut + e.nFee ≤ 9223372036854775807 →
      wrapInt64 (e.tx.GetValueOut + e.nFee) = e.tx.GetValueOut + e.nFee ∧
      (e.nHeight ≤ h →
        e.GetPriority F h = F.add e.dPriority
          (F.div (F.mul (F.ofUInt (h - e.nHeight)) (F.ofInt64 (e.tx.GetValueOut + e.nFee)))
            (F.ofUInt e.nTxSize)))) := by
  unfold UINT_MOD at hh he
  have hle1 : e.nHeight ≤ h →
      (((h : Int) - (e.nHeight : Int)) % (UINT_MOD : Int)).toNat = h - e.nHeight := by
    intro hle
    unfold UINT_MOD
    omega
  refine ⟨?_, ?_, ⟨?_, ?_, ?_⟩, ?_⟩
  · intro hle
    simp only [CTxMemPoolEntry.GetPriority, hle1 hle]
  · intro hlt
    have hd : (((h : Int) - (e.nHeight : Int)) % (UINT_MOD : Int)).toNat =
        UINT_MOD + h - e.nHeight := by
      unfold UINT_MOD
      omega
    simp only [CTxMemPoolEntry.GetPriority, hd]
  · unfold wrapInt64
    omega
  · unfold wrapInt64
    omega
  · refine ⟨-((e.tx.GetValueOut + e.nFee + 9223372036854775808) / 18446744073709551616), ?_⟩
    unfold wrapInt64
    omega
  · intro hlo hhi
    have hw : wrapInt64 (e.tx.GetValueOut + e.nFee) = e.tx.GetValueOut + e.nFee := by
      unfold wrapInt64
      omega
    refine ⟨hw, fun hle => ?_⟩
    simp only [CTxMemPoolEntry.GetPriority, hle1 hle, hw]

/-- A run of the amended claim C18. On an entry of height 1 the difference is
2 at height 3 and 4294967295 at height 0. On an entry with one output of value
5 and the fee 2^63 - 1 the sum held by `nValueIn` is 4 - 2^63, and the
priority computed from it in the exact arithmetic `intOps` is negative. -/
theorem C18_witness :
    (3 < UINT_MOD ∧ heightOneEntry.nHeight < UINT_MOD ∧ heightOneEntry.nHeight ≤ 3 ∧
      heightOneEntry.GetPriority intOps 3 = 2) ∧
    ((0 : Nat) < heightOneEntry.nHeight ∧ heightOneEntry.GetPriority intOps 0 = 4294967295) ∧
    (maxFeeEntry.tx.GetValueOut + maxFeeEntry.nFee = 9223372036854775812 ∧
      wrapInt64 (maxFeeEntry.tx.GetValueOut + maxFeeEntry.nFee) = -9223372036854775804 ∧
      maxFeeEntry.GetPriority intOps 2 = -2305843009213693951) :=
  ⟨⟨by decide, by decide, by decide,
      ((C18_GetPriority_unsigned_difference intOps heightOneEntry 3 (by decide)
        (by decide)).1 (by decide)).trans (by decide)⟩,
    ⟨by decide,
      ((C18_GetPriority_unsigned_difference intOps heightOneEntry 0 (by decide)
        (by decide)).2.1 (by decide)).trans (by decide)⟩,
    ⟨by decide, by decide,
      ((C18_GetPriority_unsigned_difference intOps maxFeeEntry 2 (by decide)
        (by decide)).1 (by decide)).trans (by decide)⟩⟩

theorem readEntries_complete (GetSerializeSize : CTransaction → Nat) :
    ∀ (records : List (SnapshotRecord D)) (n : Nat) (rest : List (Item D))
      (vecEntries : List (CTxMemPoolEntry D)),
      readEntries GetSerializeSize (records.length + n)
          (records.flatMap recordItems ++ rest) vecEntries =
        readEntries GetSerializeSize n rest
          (vecEntries ++ records.map (recordEntry GetSerializeSize)) := by
  intro records
  induction records with
  | nil => intro n rest vecEntries; simp
  | cons r records ih =>
    intro n rest vecEntries
    have hcons : (r :: records).flatMap recordItems ++ rest =
        Item.tx r.tx :: Item.int64 r.nFee :: Item.int64 r.nTime :: Item.double r.dPriority ::
          Item.uint32 r.nHeight :: (records.flatMap recordItems ++ rest) := by
      simp [List.flatMap_cons, recordItems]
    have hlen : (r :: records).length + n = (records.length + n) + 1 := by
      simp only [List.length_cons]; omega
    rw [hcons, hlen]
    simp only [readEntries]
    rw [ih]
    simp [recordEntry]

theorem readEntries_fails (GetSerializeSize : CTransaction → Nat) (n : Nat)
    (items : List (Item D)) (vecEntries : List (CTxMemPoolEntry D))
    (h : startsRecord items = false) :
    readEntries GetSerializeSize (n + 1) items vecEntries = (false, vecEntries) := by
  unfold readEntries
  split
  · rename_i heq
    cases heq
  · simp [startsRecord] at h
  · rfl

/-- Claim C19. For every snapshot whose first value, the version required to
read, is greater than the local version, `Read` returns false and leaves the
caller's list as it was, whatever follows; for every well-formed snapshot
whose required version is at most the local version, `Read` returns true (and
appends the entries of its records, whatever follows them). -/
theorem C19_read_rejects_newer_version (GetSerializeSize : CTransaction → Nat)
    (CLIENT_VERSION : Int) (vecEntries : List (CTxMemPoolEntry D)) :
    (∀ nVersionRequired rest, nVersionRequired > CLIENT_VERSION →
      Read GetSerializeSize CLIENT_VERSION (some (Item.int32 nVersionRequired :: rest))
        vecEntries = (false, vecEntries)) ∧
    (∀ nVersionRequired nVersionThatWrote (records : List (SnapshotRecord D)) trailing,
      nVersionRequired ≤ CLIENT_VERSION →
      Read GetSerializeSize CLIENT_VERSION
          (some (snapshotOf nVersionRequired nVersionThatWrote records ++ trailing))
          vecEntries =
        (true, vecEntries ++ records.map (recordEntry GetSerializeSize))) := by
  constructor
  · intro vr rest hgt
    rcases rest with _ | ⟨b, rest⟩
    · rfl
    · cases b <;> simp [Read, hgt]
  · intro vr vw records trailing hle
    have hnot : ¬ vr > CLIENT_VERSION := not_lt.mpr hle
    have h := readEntries_complete GetSerializeSize records 0 trailing vecEntries
    simp only [Nat.add_zero, readEntries] at h
    simp only [Read, snapshotOf, List.cons_append, hnot, if_false]
    exact h

/-- A run of claim C19 with the local version 90000: a snapshot that requires
version 90001 is refused, the snapshot of `chainRecords` that requires 90000
is read. -/
theorem C19_witness :
    (90001 : Int) > 90000 ∧
    Read (fun _ => 10) 90000 (some (snapshotOf 90001 90001 chainRecords))
      ([] : List (CTxMemPoolEntry Nat)) = (false, []) ∧
    (90000 : Int) ≤ 90000 ∧
    (Read (fun _ => 10) 90000 (some (snapshotOf 90000 80000 chainRecords ++ []))
      ([] : List (CTxMemPoolEntry Nat))).1 = true :=
  have h := C19_read_rejects_newer_version (fun _ => 10) 90000
    ([] : List (CTxMemPoolEntry Nat))
  ⟨by decide, h.1 90001 _ (by decide), by decide,
    congrArg Prod.fst (h.2 90000 80000 chainRecords [] (by decide))⟩

/-- The claim C20 fails on a snapshot that announces two records and is cut in
the second one: `Read` returns false, and the caller's list, empty before the
call, holds the entry of the first record. -/
theorem C20_counterexample :
    Read (fun _ => 10) 90000 (some truncatedSnapshot) ([] : List (CTxMemPoolEntry Nat)) =
      (false, [recordEntry (fun _ => 10) ⟨chainTx1, 5, 11, 0, 1⟩]) ∧
    (Read (fun _ => 10) 90000 (some truncatedSnapshot)
      ([] : List (CTxMemPoolEntry Nat))).2 ≠ [] := by
  decide

/-- Claim C20, amended. When deserialization fails, `Read` returns false and
the caller's list is the list before the call followed by the entries of the
records read before the failure: it is unchanged when the header or the count
cannot be read, and when the values after `k` complete records (fewer than the
count announces) do not begin with a complete record, the `k` entries of
those records have been appended. -/
theorem C20_read_failure_keeps_read_entries (GetSerializeSize : CTransaction → Nat)
    (CLIENT_VERSION : Int) (vecEntries : List (CTxMemPoolEntry D)) :
    Read GetSerializeSize CLIENT_VERSION (some []) vecEntries = (false, vecEntries) ∧
    (∀ v, Read GetSerializeSize CLIENT_VERSION (some [Item.int32 v]) vecEntries =
      (false, vecEntries)) ∧
    (∀ v w, Read GetSerializeSize CLIENT_VERSION (some [Item.int32 v, Item.int32 w])
      vecEntries = (false, vecEntries)) ∧
    (∀ nVersionRequired nVersionThatWrote nTx (records : List (SnapshotRecord D)) cut,
      nVersionRequired ≤ CLIENT_VERSION → records.length < nTx → startsRecord cut = false →
      Read GetSerializeSize CLIENT_VERSION
          (some (Item.int32 nVersionRequired :: Item.int32 nVersionThatWrote ::
            Item.size nTx :: (records.flatMap recordItems ++ cut)))
          vecEntries =
        (false, vecEntries ++ records.map (recordEntry GetSerializeSize))) ∧
    (∀ (r : SnapshotRecord D) j, j < 5 → startsRecord ((recordItems r).take j) = false) := by
  refine ⟨rfl, fun _ => rfl, ?_, ?_, ?_⟩
  · intro v w
    simp only [Read]
    split_ifs <;> rfl
  · intro vr vw nTx records cut hle hlt hcut
    have hnot : ¬ vr > CLIENT_VERSION := not_lt.mpr hle
    obtain ⟨m, hm⟩ : ∃ m, nTx = records.length + (m + 1) := ⟨nTx - records.length - 1, by omega⟩
    have h := readEntries_complete GetSerializeSize records (m + 1) cut vecEntries
    rw [readEntries_fails GetSerializeSize m cut _ hcut] at h
    simp only [Read, hnot, if_false, hm]
    exact h
  · intro r j hj
    have : j = 0 ∨ j = 1 ∨ j = 2 ∨ j = 3 ∨ j = 4 := by omega
    rcases this with h | h | h | h | h <;> subst h <;> rfl

/-- A run of the amended claim C20 on `truncatedSnapshot`: one complete
record, then a cut record. -/
theorem C20_witness :
    (90000 : Int) ≤ 90000 ∧
    ([⟨chainTx1, 5, 11, 0, 1⟩] : List (SnapshotRecord Nat)).length < 2 ∧
    startsRecord ([Item.tx chainTx2] : List (Item Nat)) = false ∧
    Read (fun _ => 10) 90000
        (some (Item.int32 90000 :: Item.int32 90000 :: Item.size 2 ::
          (([⟨chainTx1, 5, 11, 0, 1⟩] : List (SnapshotRecord Nat)).flatMap recordItems ++
            [Item.tx chainTx2])))
        ([] : List (CTxMemPoolEntry Nat)) =
      (false, [] ++ ([⟨chainTx1, 5, 11, 0, 1⟩] : List (SnapshotRecord Nat)).map
        (recordEntry (fun _ => 10))) :=
  ⟨by decide, by decide, by decide,
    (C20_read_failure_keeps_read_entries (fun _ => 10) 90000
      ([] : List (CTxMemPoolEntry Nat))).2.2.2.1 90000 90000 2 [⟨chainTx1, 5, 11, 0, 1⟩]
      [Item.tx chainTx2] (by decide) (by decide) (by decide)⟩

end CTxMemPool

/-! ### Termination of the traversals and preservation of the invariants -/

namespace CTxMemPool

variable {D : Type}

/-- The claim C22 fails for `remove`: `foreignKeyPool` satisfies P1, P2 and
P3, and removing `foreignKeyTx`, whose id is the key of another transaction,
erases the record of the input of the stored transaction 2: P1 and P3 no
longer hold. No two transactions of the run share an id. -/
theorem C22_counterexample :
    (Inv1 foreignKeyPool ∧ Inv2 foreignKeyPool ∧ InvCount foreignKeyPool) ∧
    ∃ st1, remove 1 foreignKeyTx false (foreignKeyPool, []) = .ok st1 ∧
      st1.1.mapTx.find 2 = some (plainEntry ⟨2, [⟨⟨100, 0⟩⟩], [⟨5, []⟩]⟩) ∧
      st1.1.mapNextTx.find ⟨100, 0⟩ = none ∧
      ¬ Inv1 st1.1 ∧ ¬ InvCount st1.1 := by
  have hc : foreignKeyPool.check (fun _ => false) (fun _ => true) = true := by decide
  refine ⟨⟨inv1_of_check hc, inv2_of_check hc, by unfold InvCount; decide⟩, _, rfl,
    by decide, by decide, ?_, by unfold InvCount; decide⟩
  intro h
  have := h 2 (plainEntry ⟨2, [⟨⟨100, 0⟩⟩], [⟨5, []⟩]⟩) (by decide) 0 ⟨⟨100, 0⟩⟩ (by decide)
  revert this
  decide

/-- Claim C22, amended. The conjunction of P1, P2 and P3 holds for the empty
pool; `add` preserves it under its contract (`addContract`); `remove`,
recursive or not, preserves it when the transaction stored under the id of
`tx`, if any, is `tx` itself; `removeConflicts` and `clear` preserve it with
no further condition; so every sequence of calls within the caller's contract
preserves it. Under P2 the calls of `remove` and `removeConflicts` return when
the recorded spending relation has no cycle. -/
theorem C22_invariants_preserved_under_contract :
    (∀ n, Inv1 (emptyPool n : CTxMemPool D) ∧ Inv2 (emptyPool n : CTxMemPool D) ∧
      InvCount (emptyPool n : CTxMemPool D)) ∧
    (∀ (pool : CTxMemPool D) hash entry, Inv1 pool ∧ Inv2 pool ∧ InvCount pool →
      addContract pool hash entry = true →
      Inv1 (pool.addUnchecked hash entry).2 ∧ Inv2 (pool.addUnchecked hash entry).2 ∧
        InvCount (pool.addUnchecked hash entry).2) ∧
    (∀ fuel tx fRecursive (st st1 : CTxMemPool D × List CTransaction),
      Inv1 st.1 ∧ Inv2 st.1 ∧ InvCount st.1 → NamesTx st.1 tx →
      remove fuel tx fRecursive st = .ok st1 → Inv1 st1.1 ∧ Inv2 st1.1 ∧ InvCount st1.1) ∧
    (∀ fuel tx (st st1 : CTxMemPool D × List CTransaction),
      Inv1 st.1 ∧ Inv2 st.1 ∧ InvCount st.1 →
      removeConflicts fuel tx st = .ok st1 → Inv1 st1.1 ∧ Inv2 st1.1 ∧ InvCount st1.1) ∧
    (∀ pool : CTxMemPool D, Inv1 pool.clear ∧ Inv2 pool.clear ∧ InvCount pool.clear) ∧
    (∀ fuel (ops : List (PoolOp D)) (st st1 : CTxMemPool D × List CTransaction),
      Inv1 st.1 ∧ Inv2 st.1 ∧ InvCount st.1 →
      runContract callerContract fuel ops st = true → runOps fuel ops st = .ok st1 →
      Inv1 st1.1 ∧ Inv2 st1.1 ∧ InvCount st1.1) ∧
    (∀ (rank : uint256 → Nat) fuel tx fRecursive (st : CTxMemPool D × List CTransaction),
      Inv2 st.1 → RankDecreases rank st.1 →
      (rank tx.GetHash < fuel → ∃ st1, remove fuel tx fRecursive st = .ok st1) ∧
      ((∀ k e, st.1.mapTx.find k = some e → rank k < fuel) →
        ∃ st1, removeConflicts fuel tx st = .ok st1)) := by
  refine ⟨fun n => ⟨inv1_empty n, inv2_empty n, invCount_empty n⟩, ?_, ?_, ?_,
    fun pool => ⟨inv1_clear pool, inv2_clear pool, invCount_clear pool⟩,
    fun fuel ops st st1 h hc hrun => runOps_inv fuel ops st st1 h hc hrun,
    fun rank fuel tx fRecursive st h2 hr =>
      ⟨fun hlt => remove_terminates rank fuel tx fRecursive st h2 (rankFind_of_entries hr) hlt,
        fun hb => removeConflictsLoop_terminates rank fuel tx tx.vin st h2
          (rankFind_of_entries hr) hb⟩⟩
  · rintro pool hash entry ⟨h1, h2, h3⟩ hc
    obtain ⟨hid, hnew, hnd, hfresh⟩ := addContract_iff hc
    refine ⟨inv1_add h1 hash entry hnd hfresh, inv2_add h2 hash entry hid ?_,
      invCount_add h3 hash entry hnew hnd hfresh⟩
    intro e he
    rw [← hid, hnew] at he
    cases he
  · rintro fuel tx fRecursive st st1 ⟨h1, h2, h3⟩ hn hrun
    obtain ⟨new, _, h2', _, _, hrest⟩ := remove_spec fuel fRecursive tx st st1 h2 hn hrun
    obtain ⟨h1', h3', _⟩ := hrest h1
    exact ⟨h1', h2', h3' h3⟩
  · rintro fuel tx st st1 ⟨h1, h2, h3⟩ hrun
    obtain ⟨new, _, h2', _, hrest⟩ := removeConflictsLoop_spec fuel tx tx.vin st st1 h2 hrun
    obtain ⟨h1', h3'⟩ := hrest h1
    exact ⟨h1', h2', h3' h3⟩

/-- A run of the amended claim C22 on the chain of scenario 3: the recursive
removal of T2, which is stored under its id, leaves a pool that satisfies P1,
P2 and P3, with the one input of T1. -/
theorem C22_witness :
    chainPool.check (fun _ => false) (fun _ => true) = true ∧
    chainPool.mapNextTx.size = chainPool.totalInputs ∧
    namesTxB chainPool chainTx2 = true ∧
    ∃ st1, remove 4 chainTx2 true (chainPool, []) = .ok st1 ∧
      (Inv1 st1.1 ∧ Inv2 st1.1 ∧ InvCount st1.1) ∧ st1.1.totalInputs = 1 :=
  have hc : chainPool.check (fun _ => false) (fun _ => true) = true := by decide
  have h3 : chainPool.mapNextTx.size = chainPool.totalInputs := by decide
  ⟨hc, h3, by decide, _, rfl,
    C22_invariants_preserved_under_contract.2.2.1 4 chainTx2 true (chainPool, []) _
      ⟨inv1_of_check hc, inv2_of_check hc, h3⟩ (namesTx_of_namesTxB (by decide)) rfl,
    by decide⟩

theorem removeConflictsLoop_own (fuel : Nat) (tx : CTransaction) :
    ∀ (rest : List CTxIn) (st : CTxMemPool D × List CTransaction),
      (∀ txin ∈ rest, ∃ ip e, st.1.mapNextTx.find txin.prevout = some ip ∧
        st.1.mapTx.find ip.ptx = some e ∧ e.tx = tx) →
      removeConflictsLoop fuel tx rest st = .ok st := by
  intro rest
  induction rest with
  | nil => intro st _; rfl
  | cons t rest ih =>
    intro st h
    obtain ⟨ip, e, hf, he, hetx⟩ := h t (List.mem_cons_self _ _)
    simp only [removeConflictsLoop, hf, he, hetx, ne_eq, not_true_eq_false, if_false]
    exact ih st (fun txin hm => h txin (List.mem_cons_of_mem _ hm))

/-- Claim C23. For every pool satisfying P1 and every transaction `tx` that is
stored in `mapTx`, every input of `tx` is a key of `mapNextTx` whose record
points at the node of `tx`, and `removeConflicts(tx, removed)` returns, with
any recursion bound, leaving `mapTx`, `mapNextTx`, the counter and `removed`
as they were: no `remove` is issued. -/
theorem C23_removeConflicts_of_stored_changes_nothing (pool : CTxMemPool D)
    (removed : List CTransaction) (tx : CTransaction) (k : uint256) (e : CTxMemPoolEntry D)
    (h1 : Inv1 pool) (hk : pool.mapTx.find k = some e) (he : e.tx = tx) (fuel : Nat) :
    (∀ (i : Nat) txin, tx.vin[i]? = some txin →
      pool.mapNextTx.find txin.prevout = some ⟨k, i⟩) ∧
    removeConflicts fuel tx (pool, removed) = .ok (pool, removed) := by
  subst he
  refine ⟨fun i txin hi => h1 k e hk i txin hi, ?_⟩
  apply removeConflictsLoop_own
  intro txin hm
  obtain ⟨i, hi⟩ := List.mem_iff_getElem?.mp hm
  exact ⟨⟨k, i⟩, e, h1 k e hk i txin hi, hk, rfl⟩

/-- A run of claim C23 on the chain of scenario 3: the conflicts of the stored
T2 are looked for with no recursion allowed at all, and nothing changes. -/
theorem C23_witness :
    chainPool.check (fun _ => false) (fun _ => true) = true ∧
    chainPool.mapTx.find 2 = some (plainEntry chainTx2) ∧
    removeConflicts 0 chainTx2 (chainPool, [chainTx3]) = .ok (chainPool, [chainTx3]) :=
  have hc : chainPool.check (fun _ => false) (fun _ => true) = true := by decide
  ⟨hc, by decide,
    (C23_removeConflicts_of_stored_changes_nothing chainPool [chainTx3] chainTx2 2
      (plainEntry chainTx2) (inv1_of_check hc) (by decide) rfl 0).2⟩

theorem rank_of_acyclic (pool : CTxMemPool D) (h : Acyclic pool) :
    ∃ rank : uint256 → Nat, RankDecreases rank pool ∧ ∀ a, rank a ≤ pool.mapNextTx.size := by
  classical
  refine ⟨fun a => (((pool.mapNextTx.entries.map (fun r => r.2.ptx)).toFinset).filter
    (fun b => Relation.TransGen (RecordedSpend pool) b a)).card, ?_, ?_⟩
  · intro r hr
    apply Finset.card_lt_card
    rw [Finset.ssubset_iff_of_subset]
    · refine ⟨r.2.ptx, ?_, ?_⟩
      · simp only [Finset.mem_filter, List.mem_toFinset, List.mem_map]
        exact ⟨⟨r, hr, rfl⟩, Relation.TransGen.single ⟨r, hr, rfl, rfl⟩⟩
      · simp only [Finset.mem_filter, not_and]
        intro _
        exact h _
    · intro c hc
      simp only [Finset.mem_filter] at hc ⊢
      exact ⟨hc.1, Relation.TransGen.tail hc.2 ⟨r, hr, rfl, rfl⟩⟩
  · intro a
    calc (((pool.mapNextTx.entries.map (fun r => r.2.ptx)).toFinset).filter
          (fun b => Relation.TransGen (RecordedSpend pool) b a)).card
        ≤ ((pool.mapNextTx.entries.map (fun r => r.2.ptx)).toFinset).card :=
          Finset.card_filter_le _ _
      _ ≤ (pool.mapNextTx.entries.map (fun r => r.2.ptx)).length := List.toFinset_card_le _
      _ = pool.mapNextTx.size := by simp [StdMap.size]

theorem acyclic_of_rank {rank : uint256 → Nat} {pool : CTxMemPool D}
    (h : RankDecreases rank pool) : Acyclic pool := by
  intro t ht
  have key : ∀ a b, Relation.TransGen (RecordedSpend pool) a b → rank a < rank b := by
    intro a b hab
    induction hab with
    | single hr =>
      obtain ⟨r, hr, h1, h2⟩ := hr
      rw [← h1, ← h2]
      exact h r hr
    | tail _ hr ih =>
      obtain ⟨r, hr, h1, h2⟩ := hr
      rw [← h1]
      have := h r hr
      rw [h2] at this
      exact lt_trans ih this
  exact lt_irrefl _ (key t t ht)

theorem removeLoopWith_error
    (rec : CTransaction → CTxMemPool D × List CTransaction →
      Except Fault (CTxMemPool D × List CTransaction))
    (hrec : RemoveSpec rec true)
    (herr : ∀ t st f, Inv2 st.1 → rec t st = .error f → f = .outOfFuel) (hash : uint256) :
    ∀ (is : List Nat) (st : CTxMemPool D × List CTransaction) f, Inv2 st.1 →
      removeLoopWith rec hash is st = .error f → f = .outOfFuel := by
  intro is
  induction is with
  | nil => intro st f _ h; simp [removeLoopWith] at h
  | cons i is ih =>
    intro st f h2 h
    simp only [removeLoopWith] at h
    cases hf : st.1.mapNextTx.find ⟨hash, i⟩ with
    | none =>
      simp only [hf] at h
      exact ih st f h2 h
    | some ip =>
      obtain ⟨e, txin, hfe, hhe, _, _⟩ := h2 _ ip hf
      simp only [hf, hfe] at h
      cases hr : rec e.tx st with
      | error f1 =>
        simp only [hr, Except.error.injEq] at h
        subst h
        exact herr _ _ _ h2 hr
      | ok st1 =>
        simp only [hr] at h
        have hn : NamesTx st.1 e.tx := by
          intro e1 he1
          rw [hhe, hfe] at he1
          cases he1
          rfl
        obtain ⟨_, _, h21, _⟩ := hrec e.tx st st1 h2 hn hr
        exact ih st1 f h21 h

theorem remove_error :
    ∀ (fuel : Nat) (tx : CTransaction) (fRecursive : Bool)
      (st : CTxMemPool D × List CTransaction) f, Inv2 st.1 →
      remove fuel tx fRecursive st = .error f → f = .outOfFuel := by
  intro fuel
  induction fuel with
  | zero =>
    intro tx _ st f _ h
    simp only [remove, Except.error.injEq] at h
    exact h.symm
  | succ fuel ih =>
    intro tx fRecursive st f h2 h
    simp only [remove] at h
    cases fRecursive with
    | false => simp at h
    | true =>
      simp only [if_true] at h
      cases hl : removeLoopWith (fun t s => remove fuel t true s) tx.GetHash
          (List.range tx.vout.length) st with
      | error f1 =>
        simp only [hl, Except.error.injEq] at h
        subst h
        exact removeLoopWith_error _ (remove_spec fuel true)
          (fun t s f0 hs hr => ih t true s f0 hs hr) _ _ _ _ h2 hl
      | ok st0 => simp [hl] at h

theorem removeEntry_trapped {S : uint256 → Prop} (tx : CTransaction)
    (st : CTxMemPool D × List CTransaction) (ht : Trapped S st.1) (hnot : ¬ S tx.GetHash)
    (h1 : Inv1 st.1) (hn : NamesTx st.1 tx) : Trapped S (removeEntry tx st).1 := by
  cases hf : st.1.mapTx.find tx.GetHash with
  | none =>
    have hre : removeEntry tx st = st := by
      simp [removeEntry, StdMap.count, hf]
    rw [hre]
    exact ht
  | some e0 =>
    have hre : removeEntry tx st =
        ({ mapTx := st.1.mapTx.erase tx.GetHash
           mapNextTx := eraseInputs tx.vin st.1.mapNextTx
           nTransactionsUpdated := (st.1.nTransactionsUpdated + 1) % UINT_MOD },
         tx :: st.2) := by
      simp [removeEntry, StdMap.count, hf]
    rw [hre]
    have he0 : e0.tx = tx := hn e0 hf
    intro a ha
    obtain ⟨e, i, ip, hfa, hha, hi, hrec, hS⟩ := ht a ha
    refine ⟨e, i, ip, ?_, hha, hi, ?_, hS⟩
    · simp only [StdMap.find_erase]
      rw [if_neg]
      · exact hfa
      · intro heq
        rw [heq] at hnot
        exact hnot ha
    · simp only [find_eraseInputs]
      rw [if_neg]
      · exact hrec
      · intro hmem
        obtain ⟨txin, hm, hp⟩ := List.mem_map.mp hmem
        obtain ⟨j, hj⟩ := List.mem_iff_getElem?.mp hm
        have r := h1 _ e0 hf j txin (by rw [he0]; exact hj)
        rw [hp, hrec] at r
        simp only [Option.some.injEq] at r
        rw [r] at hS
        exact hnot hS

theorem removeLoopWith_trapped {S : uint256 → Prop}
    (rec : CTransaction → CTxMemPool D × List CTransaction →
      Except Fault (CTxMemPool D × List CTransaction))
    (hspec : RemoveSpec rec true)
    (htr : ∀ t st st1, Inv1 st.1 → Inv2 st.1 → Trapped S st.1 → NamesTx st.1 t →
      rec t st = .ok st1 → ¬ S t.GetHash ∧ Trapped S st1.1) (hash : uint256) :
    ∀ (is : List Nat) (st st0 : CTxMemPool D × List CTransaction), Inv1 st.1 → Inv2 st.1 →
      Trapped S st.1 → removeLoopWith rec hash is st = .ok st0 → Trapped S st0.1 := by
  intro is
  induction is with
  | nil =>
    intro st st0 _ _ ht h
    simp only [removeLoopWith, Except.ok.injEq] at h
    subst h
    exact ht
  | cons i is ih =>
    intro st st0 h1 h2 ht h
    simp only [removeLoopWith] at h
    cases hf : st.1.mapNextTx.find ⟨hash, i⟩ with
    | none =>
      simp only [hf] at h
      exact ih st st0 h1 h2 ht h
    | some ip =>
      obtain ⟨e, txin, hfe, hhe, _, _⟩ := h2 _ ip hf
      simp only [hf, hfe] at h
      cases hr : rec e.tx st with
      | error f1 => simp [hr] at h
      | ok st1 =>
        simp only [hr] at h
        have hn : NamesTx st.1 e.tx := by
          intro e1 he1
          rw [hhe, hfe] at he1
          cases he1
          rfl
        obtain ⟨_, _, h21, _, _, hrest⟩ := hspec e.tx st st1 h2 hn hr
        exact ih st1 st0 (hrest h1).1 h21 (htr e.tx st st1 h1 h2 ht hn hr).2 h

theorem remove_trapped {S : uint256 → Prop} :
    ∀ (fuel : Nat) (tx : CTransaction) (st st1 : CTxMemPool D × List CTransaction),
      Inv1 st.1 → Inv2 st.1 → Trapped S st.1 → NamesTx st.1 tx →
      remove fuel tx true st = .ok st1 → ¬ S tx.GetHash ∧ Trapped S st1.1 := by
  intro fuel
  induction fuel with
  | zero => intro tx st st1 _ _ _ _ h; simp [remove] at h
  | succ fuel ih =>
    intro tx st st1 h1 h2 ht hn h
    simp only [remove, if_true] at h
    cases hl : removeLoopWith (fun t s => remove fuel t true s) tx.GetHash
        (List.range tx.vout.length) st with
    | error f => simp [hl] at h
    | ok st0 =>
      simp only [hl, Except.ok.injEq] at h
      subst h
      obtain ⟨new0, hfacts0, h20, hgone0, hrest0⟩ :=
        removeLoopWith_spec _ (remove_spec fuel true) tx.GetHash _ st st0 h2 hl
      obtain ⟨h10, _, _⟩ := hrest0 h1
      have ht0 : Trapped S st0.1 :=
        removeLoopWith_trapped _ (remove_spec fuel true) (fun t s s1 a b c d r => ih t s s1 a b c d r)
          tx.GetHash _ st st0 h1 h2 ht hl
      have hn0 : NamesTx st0.1 tx := namesTx_of_sub hfacts0.sub hn
      have hnot : ¬ S tx.GetHash := by
        intro hS
        obtain ⟨e, i, ip, hfa, _, hi, hrec, _⟩ := ht0 _ hS
        have he : e.tx = tx := hn0 e hfa
        rw [he] at hi
        rw [hgone0 i (List.mem_range.mpr hi)] at hrec
        cases hrec
      exact ⟨hnot, removeEntry_trapped tx st0 ht0 hnot h10 hn0⟩

/-- The ids that are stored under their own id and have a descendant, or are
themselves an id, that is its own descendant are trapped. -/
theorem trapped_of_cycle {pool : CTxMemPool D} (h2 : Inv2 pool) (h3 : Inv3 pool) :
    Trapped (fun a => (∃ e, pool.mapTx.find a = some e ∧ e.tx.GetHash = a) ∧
      ∃ c, Relation.ReflTransGen (RecordedSpend pool) c a ∧
        Relation.TransGen (RecordedSpend pool) c c) pool := by
  rintro a ⟨⟨ea, hfa, hha⟩, c, hca, hcc⟩
  have hstep : ∃ b, Relation.ReflTransGen (RecordedSpend pool) c b ∧ RecordedSpend pool b a := by
    rcases Relation.ReflTransGen.cases_tail hca with heq | ⟨b, hcb, hba⟩
    · subst heq
      exact Relation.TransGen.tail'_iff.mp hcc
    · exact ⟨b, hcb, hba⟩
  obtain ⟨b, hcb, r, hr, hr1, hr2⟩ := hstep
  have hfr : pool.mapNextTx.find r.1 = some r.2 := (StdMap.find_eq_some_iff _ _ _).mpr hr
  obtain ⟨eb, txin, hfb, hhb, hvin, hprev⟩ := h2 _ _ hfr
  have hlt : r.1.n < ea.tx.vout.length := by
    have := h3 _ eb hfb txin (List.mem_iff_getElem?.mpr ⟨_, hvin⟩) ea
      (by rw [hprev, hr1]; exact hfa)
    rw [hprev] at this
    exact this
  refine ⟨ea, r.1.n, r.2, hfa, hha, hlt, ?_, ⟨eb, hfb, hhb⟩, c, ?_, hcc⟩
  · have : (⟨a, r.1.n⟩ : COutPoint) = r.1 := by
      rw [← hr1]
    rw [this]
    exact hfr
  · rw [hr2]
    exact hcb

/-- The claim C24 fails without invariant 1: in `overwrittenPool` the stored
transaction `selfSpendTx` is recorded as spending its own output 1, and its
recursive removal returns, because the removal of `bothOutputsTx`, which is
recorded as spending output 0, erases the record of (1, 1) as well. -/
theorem C24_counterexample :
    overwrittenPool.lookup 1 = some selfSpendTx ∧
    overwrittenPool.mapNextTx.find ⟨1, 1⟩ = some ⟨1, 0⟩ ∧
    RecordedSpend overwrittenPool 1 1 ∧
    remove 2 selfSpendTx true (overwrittenPool, []) =
      .ok (⟨StdMap.empty, StdMap.empty, 4⟩, [selfSpendTx, bothOutputsTx]) :=
  ⟨by decide, by decide, ⟨(⟨1, 1⟩, ⟨1, 0⟩), by decide, rfl, rfl⟩, by decide⟩

/-- Claim C24, amended. For every pool satisfying P2: when the recorded
spending relation is acyclic, `remove(tx, removed, true)` returns for every
`tx`, the depth of the recursion being at most the number of records plus
one; and when the pool also satisfies invariants 1 and 3 and a stored
transaction `tx` is, or has a descendant `c` that is, recorded as spending an
output of one of its own descendants or of itself, the recursive descent of
`remove(tx, removed, true)` exceeds every bound: the call does not return. -/
theorem C24_recursive_remove_returns_unless_cycle (pool : CTxMemPool D) (h2 : Inv2 pool) :
    (Acyclic pool → ∀ tx removed fuel, pool.mapNextTx.size < fuel →
      ∃ st1, remove fuel tx true (pool, removed) = .ok st1) ∧
    (Inv1 pool → Inv3 pool → ∀ tx, pool.lookup tx.GetHash = some tx →
      (∃ c, Relation.ReflTransGen (RecordedSpend pool) c tx.GetHash ∧
        Relation.TransGen (RecordedSpend pool) c c) →
      ∀ fuel removed, remove fuel tx true (pool, removed) = .error .outOfFuel) := by
  constructor
  · intro hac tx removed fuel hfuel
    obtain ⟨rank, hrank, hbound⟩ := rank_of_acyclic pool hac
    exact remove_terminates rank fuel tx true (pool, removed) h2 (rankFind_of_entries hrank)
      (lt_of_le_of_lt (hbound _) hfuel)
  · intro h1 h3 tx hstored hcyc fuel removed
    obtain ⟨e, hfe, hetx⟩ := find_of_lookup hstored
    cases hrun : remove fuel tx true (pool, removed) with
    | error f =>
      rw [remove_error fuel tx true (pool, removed) f h2 hrun]
    | ok st1 =>
      exfalso
      have hn : NamesTx pool tx := namesTx_of_lookup hstored
      exact (remove_trapped fuel tx (pool, removed) st1 h1 h2 (trapped_of_cycle h2 h3) hn hrun).1
        ⟨⟨e, hfe, by rw [hetx]⟩, hcyc⟩


/-- A run of the amended claim C24: on the chain of scenario 3 the recursive
removal of T1 returns; on `cyclicPool`, where the transactions 1 and 2 spend
from each other, the recursive removal of 1 runs out of any bound, here
1000. -/
theorem C24_witness :
    (chainPool.check (fun _ => false) (fun _ => true) = true ∧
      RankDecreases chainRank chainPool ∧ chainPool.mapNextTx.size < 4 ∧
      ∃ st1, remove 4 chainTx1 true (chainPool, []) = .ok st1) ∧
    (cyclicPool.check (fun _ => false) (fun _ => true) = true ∧
      cyclicPool.lookup 1 = some ⟨1, [⟨⟨2, 0⟩⟩], [⟨5, []⟩]⟩ ∧
      RecordedSpend cyclicPool 2 1 ∧ RecordedSpend cyclicPool 1 2 ∧
      remove 1000 ⟨1, [⟨⟨2, 0⟩⟩], [⟨5, []⟩]⟩ true (cyclicPool, []) = .error .outOfFuel) :=
  have hc : chainPool.check (fun _ => false) (fun _ => true) = true := by decide
  have hr : RankDecreases chainRank chainPool := by decide
  have hk : cyclicPool.check (fun _ => false) (fun _ => true) = true := by decide
  have h21 : RecordedSpend cyclicPool 2 1 := ⟨(⟨1, 0⟩, ⟨2, 0⟩), by decide, rfl, rfl⟩
  have h12 : RecordedSpend cyclicPool 1 2 := ⟨(⟨2, 0⟩, ⟨1, 0⟩), by decide, rfl, rfl⟩
  ⟨⟨hc, hr, by decide,
      (C24_recursive_remove_returns_unless_cycle chainPool (inv2_of_check hc)).1
        (acyclic_of_rank hr) chainTx1 [] 4 (by decide)⟩,
    ⟨hk, by decide, h21, h12,
      (C24_recursive_remove_returns_unless_cycle cyclicPool (inv2_of_check hk)).2
        (inv1_of_check hk) (inv3_of_check hk) ⟨1, [⟨⟨2, 0⟩⟩], [⟨5, []⟩]⟩ (by decide)
        ⟨1, Relation.ReflTransGen.refl,
          Relation.TransGen.tail (Relation.TransGen.single h12) h21⟩ 1000 []⟩⟩


end CTxMemPool
